import Mathlib

/-!
Avalanche driver: the exploration engine

A shallow embedding of `trunk/driver/src/ExecutionManager.cpp` (with
`STP_Executor.cpp` and `Input.h`) and the properties of the exploration
engine proved over it.

Conventions of the embedding.

* The `ExecutionManager` object and the file-scope globals of
  `ExecutionManager.cpp` (`thread_num`, `killed`, `trace_kind`, `report`,
  `memchecks`, `is_distributed`, `agents`) form one state record that is
  passed through every operation.
* Everything the driver obtains from a child process or from a file written
  by one (exit codes, log contents, the solver model) is an explicit argument
  of the operation that reads it.
* Depths, scores and counters are natural numbers; the `unsigned long`
  subtraction in `processQuery` keeps its wrap-around modulo `2 ^ 64`.
* `bool*` arrays are lists; an access outside the allocated length is
  undefined behaviour and makes the operation return `none` / `undefined`.
* A worker's `processQuery` is one atomic step; the pooled variant differs
  from the sequential one in the order in which the steps happen.
* An `Input` is a value: a child holds its parent as it was when the child
  was derived. Log messages and dumped files are not part of the state.
-/

namespace Avalanche

/-! ## Data model -/

/-- Members `name`, `buf` and `size` of class `FileBuffer`; `size` is the length
of `buf`. -/
structure FileBuffer where
  name : String
  buf : List Nat
deriving DecidableEq, Repr

/-- Member `size` of a `FileBuffer`. -/
def FileBuffer.size (fb : FileBuffer) : Nat := fb.buf.length

/-- Class `Input` of `Input.h`. -/
inductive Input where
  | mk (files : List FileBuffer) (startdepth : Nat) (parent : Option Input)
      (prediction : List Bool) (predictionSize : Nat)
deriving Repr

namespace Input

/-- Member `files`. -/
def files : Input → List FileBuffer
  | mk f _ _ _ _ => f

/-- Member `startdepth`. -/
def startdepth : Input → Nat
  | mk _ s _ _ _ => s

/-- Member `parent` (`none` is the null pointer). -/
def parent : Input → Option Input
  | mk _ _ p _ _ => p

/-- Member `prediction`. -/
def prediction : Input → List Bool
  | mk _ _ _ p _ => p

/-- Member `predictionSize`. -/
def predictionSize : Input → Nat
  | mk _ _ _ _ n => n

end Input

/-- Equality of inputs is decidable. -/
def Input.decEq : (a b : Input) → Decidable (a = b)
  | Input.mk f1 s1 p1 pr1 n1, Input.mk f2 s2 p2 pr2 n2 =>
    if hf : f1 = f2 then
      if hs : s1 = s2 then
        if hpr : pr1 = pr2 then
          if hn : n1 = n2 then
            match p1, p2 with
            | none, none => isTrue (by subst hf hs hpr hn; rfl)
            | some a, some b =>
              match Input.decEq a b with
              | isTrue h => isTrue (by subst hf hs hpr hn h; rfl)
              | isFalse h => isFalse (by intro e; injection e with _ _ e3; injection e3 with e4; exact h e4)
            | none, some _ => isFalse (by intro e; injection e with _ _ e3; cases e3)
            | some _, none => isFalse (by intro e; injection e with _ _ e3; cases e3)
          else isFalse (by intro e; injection e with _ _ _ _ e5; exact hn e5)
        else isFalse (by intro e; injection e with _ _ _ e4; exact hpr e4)
      else isFalse (by intro e; injection e with _ e2; exact hs e2)
    else isFalse (by intro e; injection e with e1; exact hf e1)

instance : DecidableEq Input := Input.decEq

/-- Modelled from the spec: the constructor `Input::Input()` (defined in
`Input.cpp`) gives an input with no blobs, no parent and no prediction. -/
def Input.new : Input := Input.mk [] 0 none [] 0

/-- Modelled from the spec: class `Key` of `ExecutionManager.h`, the pair
`(score, depth)` under which an input is filed in the Frontier. -/
structure Key where
  score : Nat
  depth : Nat
deriving DecidableEq, Repr

/-- Modelled from the spec: the comparator `cmp` of `ExecutionManager.h`, the
strict order "first by score ascending, then by depth descending". -/
def cmp (k1 k2 : Key) : Bool :=
  if k1.score < k2.score then true
  else if k2.score < k1.score then false
  else decide (k2.depth < k1.depth)

/-- Modelled from the spec: class `Chunk` of `Chunk.h`, a crash group: the
filtered stack trace (absent when none could be extracted) and the list of
`(exploit index, number of input files)` occurrences. -/
structure Chunk where
  trace : Option (List Char)
  groups : List (Nat × Int)
deriving DecidableEq, Repr

/-- Modelled from the spec: `Chunk::addGroup` records one more occurrence. -/
def Chunk.addGroup (c : Chunk) (exploit : Nat) (fileNum : Int) : Chunk :=
  { c with groups := c.groups ++ [(exploit, fileNum)] }

/-- The `multimap<Key, Input*, cmp>` member `inputs`: its entries in iteration
order. -/
abbrev Frontier := List (Key × Input)

namespace Frontier

/-- Iteration order of a multimap: no later entry is ordered before an earlier
one. -/
def WF (f : Frontier) : Prop :=
  f.Pairwise (fun a b => cmp b.1 a.1 = false)

instance (f : Frontier) : Decidable f.WF := by
  unfold WF
  infer_instance

/-- Function `multimap::insert`: the new entry goes after every entry whose key
is not greater than the new key (the upper bound of the key). -/
def insert (k : Key) (x : Input) : Frontier → Frontier
  | [] => [(k, x)]
  | e :: rest => if cmp k e.1 then (k, x) :: e :: rest else e :: insert k x rest

/-- The entry `--(inputs.end())` points at. -/
def last (f : Frontier) : Option (Key × Input) := f.getLast?

/-- Function `inputs.erase(--(inputs.end()))`. -/
def eraseLast (f : Frontier) : Frontier := f.dropLast

end Frontier

/-- The getters of `OptionConfig` used by the engine. -/
structure OptionConfig where
  usingSockets : Bool
  usingDatagrams : Bool
  usingMemcheck : Bool
  checkForLeaks : Bool
  getDebug : Bool
  getAgent : Bool
  getCheckDanger : Bool
  getDumpCalls : Bool
  getProtectMainAgent : Bool
  getDepth : Nat
  getStartdepth : Nat
  getSTPThreads : Int
  getAlarm : Nat
  getTracegrindAlarm : Nat
  getTraceChildren : Bool
  getVerbose : Bool
  getSuppressSubcalls : Bool
  getSTPThreadsAuto : Bool
  /-- The input file names, `getFile(i)` for `i < getNumberOfFiles()`. -/
  getFiles : List String
  getProgAndArg : List String
  getHost : String
  getPort : Nat
  /-- Name of the input mask file and the bytes it holds. -/
  getInputFilterFile : String
  inputFilterBytes : List Nat
  /-- The function filter units, `getFuncFilterUnit(i)`. -/
  getFuncFilterUnits : List String
  /-- Name of the function filter file and the bytes it holds. -/
  getFuncFilterFile : String
  funcFilterBytes : List Nat
deriving DecidableEq, Repr

/-- The state of the engine: the members of `ExecutionManager` together with the
globals of `ExecutionManager.cpp`. -/
structure ExecutionManager where
  config : OptionConfig
  inputs : Frontier
  basicBlocksCovered : Finset Nat
  delta_basicBlocksCovered : Finset Nat
  exploits : Nat
  divergences : Nat
  memchecks : Nat
  report : List Chunk
  thread_num : Int
  killed : Bool
  trace_kind : Bool
  is_distributed : Bool
  agents : Int
deriving DecidableEq

/-! ## Scoring -/

/-- The loop of `calculateScore` over the block addresses read from the log. -/
def scoreLoop : List Nat → Nat → ExecutionManager → Nat × ExecutionManager
  | [], res, em => (res, em)
  | a :: rest, res, em =>
    let res1 := if a ∉ em.basicBlocksCovered then res + 1 else res
    let em1 :=
      if em.thread_num < 1 then
        { em with basicBlocksCovered := Insert.insert a em.basicBlocksCovered }
      else
        { em with delta_basicBlocksCovered := Insert.insert a em.delta_basicBlocksCovered }
    scoreLoop rest res1 em1

/-- Function `ExecutionManager::calculateScore`. The argument is the content of
`basic_blocks<modifier>.log` as a sequence of 64-bit words, `none` when the file
cannot be opened. -/
def calculateScore (basicBlocks : Option (List Nat)) (em : ExecutionManager) :
    Nat × ExecutionManager :=
  match basicBlocks with
  | some addrs => scoreLoop addrs 0 em
  | none => (0, em)

/-! ## Checker outcome, crash report, memcheck log -/

/-- What one run of the checker plugin leaves behind for `checkAndScore`. -/
structure CheckerRun where
  /-- Value returned by `plugin_exe.run`. -/
  exitCode : Int
  /-- Whether `alarmHandler` ran during the run (it sets `killed`). -/
  alarm : Bool
  /-- Value of `getAlarmKilled(thread_index)` after the run. -/
  alarmKilled : Bool
  /-- Content of `execution<modifier>.log`. -/
  execLog : List Char
  /-- Buffer left by `filterCovgrindOutput` on that log when it returns true, `none`
  when it returns false. -/
  filtered : Option (List Char)
  /-- Content of `basic_blocks<modifier>.log` in 64-bit words, `none` when it
  cannot be opened. -/
  basicBlocks : Option (List Nat)
deriving DecidableEq, Repr

/-- C function `strstr`: the tail of the text starting at the first occurrence of
the pattern. -/
def strstr : List Char → List Char → Option (List Char)
  | [], needle => if needle = [] then some [] else none
  | c :: rest, needle =>
    if needle.isPrefixOf (c :: rest) then some (c :: rest) else strstr rest needle

/-- A buffer read as a C string: the characters before the first NUL. -/
def cstring (s : List Char) : List Char :=
  s.takeWhile (fun c => c.toNat ≠ 0)

/-- C function `isspace` in the C locale. -/
def isspace (c : Char) : Bool :=
  c.toNat = 32 || (9 ≤ c.toNat && c.toNat ≤ 13)

/-- Value of a run of decimal digits. -/
def digitsValue (ds : List Char) : Nat :=
  ds.foldl (fun acc c => acc * 10 + (c.toNat - 48)) 0

/-- C function `strtol(s, NULL, 10)` for a 64-bit `long`: optional white space,
optional sign, decimal digits; the value is clamped to the range of `long`. -/
def strtol (s : List Char) : Int :=
  let s1 := s.dropWhile isspace
  let neg := s1.head? = some '-'
  let s2 := if s1.head? = some '-' ∨ s1.head? = some '+' then s1.tail else s1
  let v : Int := digitsValue (s2.takeWhile Char.isDigit)
  let r := if neg then -v else v
  max (-(2 ^ 63)) (min r (2 ^ 63 - 1))

/-- Function `ExecutionManager::dumpMCExploit`: whether the memcheck log counts
as a finding (the dump of the input itself is not part of the state). -/
def dumpMCExploit (em : ExecutionManager) (exec_log : List Char) : Bool :=
  let errors : Int :=
    match strstr (cstring exec_log) "ERROR SUMMARY: ".toList with
    | some error => strtol (error.drop 15)
    | none => -1
  let definitely_lost : Int :=
    if em.config.checkForLeaks then
      match strstr (cstring exec_log) "definitely lost: ".toList with
      | some leak => strtol (leak.drop 17)
      | none => -1
    else -1
  let possibly_lost : Int :=
    if em.config.checkForLeaks then
      match strstr (cstring exec_log) "possibly lost: ".toList with
      | some leak => strtol (leak.drop 15)
      | none => -1
    else -1
  decide (errors > 0) || ((definitely_lost != -1 || possibly_lost != -1) && !em.killed)

/-- The scan of `report` in `checkAndScore`: the first group whose trace equals the
filtered output receives the occurrence; `none` when no group matches. -/
def addToGroup (t : List Char) (exploits : Nat) (fileNum : Int) :
    List Chunk → Option (List Chunk)
  | [] => none
  | c :: rest =>
    if c.trace = some t then some (c.addGroup exploits fileNum :: rest)
    else (addToGroup t exploits fileNum rest).map (fun r => c :: r)

/-- The crash branch of `checkAndScore` on the report. -/
def recordCrash (filtered : Option (List Char)) (exploits : Nat) (fileNum : Int)
    (report : List Chunk) : List Chunk :=
  match filtered with
  | some t =>
    match addToGroup t exploits fileNum report with
    | some r => r
    | none => report ++ [Chunk.mk (some t) [(exploits, fileNum)]]
  | none => report ++ [Chunk.mk none [(exploits, fileNum)]]

/-- Number of crash occurrences filed in the report, over all groups. -/
def occurrences (report : List Chunk) : Nat :=
  (report.map (fun c => c.groups.length)).sum

/-- The flag `has_crashed` of `checkAndScore`; `killed` is the global flag after
the checker has run. -/
def hasCrashed (thread_num : Int) (killed : Bool) (r : CheckerRun) : Bool :=
  let has_crashed := decide (r.exitCode = -1)
  if thread_num = 0 then has_crashed && !killed
  else has_crashed && !r.alarmKilled

/-- First part of `checkAndScore`, up to the return of the checker:
`getCovgrindOptions` resets `killed` in the network modes, and the alarm handler
sets it when it fires during the run. -/
def runChecker (em : ExecutionManager) (r : CheckerRun) : ExecutionManager :=
  let killed0 :=
    if em.config.usingSockets || em.config.usingDatagrams then false else em.killed
  { em with killed := killed0 || r.alarm }

/-- Second part of `checkAndScore`, between locking and unlocking
`add_exploits_mutex`: a crash is filed in the report, otherwise the memcheck log is
examined. -/
def triage (em : ExecutionManager) (input : Input) (addNoCoverage : Bool)
    (r : CheckerRun) : ExecutionManager :=
  if hasCrashed em.thread_num em.killed r then
    let chunk_file_num : Int :=
      if em.config.usingSockets || em.config.usingDatagrams then -1
      else (input.files.length : Int)
    { em with
      report := recordCrash r.filtered em.exploits chunk_file_num em.report
      exploits := em.exploits + 1 }
  else if em.config.usingMemcheck && !addNoCoverage then
    if dumpMCExploit em r.execLog then { em with memchecks := em.memchecks + 1 }
    else em
  else em

/-- Function `ExecutionManager::checkAndScore`. The file-name modifier only selects
the files the checker writes, whose contents are the fields of `r`. -/
def checkAndScore (em : ExecutionManager) (input : Input) (addNoCoverage : Bool)
    (r : CheckerRun) : Nat × ExecutionManager :=
  if !addNoCoverage then
    calculateScore r.basicBlocks (triage (runChecker em r) input addNoCoverage r)
  else (0, triage (runChecker em r) input addNoCoverage r)

/-! ## Solver and child derivation -/

/-- What one run of the solver leaves behind for `STP_Executor::run`. -/
structure StpRun where
  /-- Value returned by `exec(true)`. -/
  execRet : Int
  /-- Value returned by `wait()`. -/
  waitRet : Int
  /-- The solver output handed over by `file_out.exportFile()` (`none`: no
  file). -/
  exportFile : Option (List Char)
deriving DecidableEq, Repr

/-- Class `STP_Output`: the solver output file. -/
structure STP_Output where
  getFile : Option (List Char)
deriving DecidableEq, Repr

/-- Function `STP_Executor::run`; `input` is `none` for a null `STP_Input`. -/
def STP_Executor.run (input : Option (List Char)) (r : StpRun) : Option STP_Output :=
  match input with
  | none => none
  | some _ =>
    if r.execRet = -1 then none
    else if r.waitRet = -1 then none
    else if r.waitRet ≠ 0 then none
    else some ⟨r.exportFile⟩

/-- The loop of `processQuery` over the parent's blobs: `none` as soon as
`forkInput` returns NULL for a blob. -/
def forkFiles (forkInput : FileBuffer → List Char → Option FileBuffer)
    (model : List Char) : List FileBuffer → Option (List FileBuffer)
  | [] => some []
  | fb :: rest =>
    match forkInput fb model with
    | none => none
    | some fb1 => (forkFiles forkInput model rest).map (fun r => fb1 :: r)

/-- Value of `st_depth + cur_depth - 1` in `unsigned long` arithmetic: `0 - 1`
wraps around. -/
def flipIndex (st_depth cur_depth : Nat) : Nat :=
  if st_depth + cur_depth = 0 then 2 ^ 64 - 1 else st_depth + cur_depth - 1

/-- The loop `for (j = 0; j < bound; j++) prediction[j] = actual[j]`, started at
`j` with `bound - j` rounds left; `none` on an access outside either array. -/
def copyLoop (actual : List Bool) : Nat → Nat → List Bool → Option (List Bool)
  | 0, _, prediction => some prediction
  | left + 1, j, prediction =>
    match actual[j]? with
    | none => none
    | some b =>
      if j < prediction.length then copyLoop actual left (j + 1) (prediction.set j b)
      else none

/-- The prediction vector `processQuery` stamps on the child: allocated with
`st_depth + cur_depth` cells, filled from `actual` and flipped at the last index;
`none` on an access outside either array. -/
def stampPrediction (actual : List Bool) (st_depth cur_depth : Nat) :
    Option (List Bool) :=
  match copyLoop actual (flipIndex st_depth cur_depth) 0
      (List.replicate (st_depth + cur_depth) false) with
  | none => none
  | some prediction =>
    match actual[flipIndex st_depth cur_depth]? with
    | none => none
    | some b =>
      if flipIndex st_depth cur_depth < prediction.length then
        some (prediction.set (flipIndex st_depth cur_depth) (!b))
      else none

/-- Outcome of the derivation of a child in `processQuery`. -/
inductive Derived where
  | child (next : Input)
  | discarded
  | undefined
deriving DecidableEq, Repr

/-- The part of `processQuery` that builds `next` from `first_input`, the solver
model and `actual`. -/
def deriveNext (forkInput : FileBuffer → List Char → Option FileBuffer)
    (first_input : Input) (model : List Char) (actual : List Bool) (cur_depth : Nat) :
    Derived :=
  let st_depth := first_input.startdepth
  match forkFiles forkInput model first_input.files with
  | none => Derived.discarded
  | some files =>
    match stampPrediction actual st_depth cur_depth with
    | none => Derived.undefined
    | some prediction =>
      Derived.child (Input.mk files (st_depth + cur_depth + 1) (some first_input)
        prediction (st_depth + cur_depth))

/-- What the external programs leave behind for one call of `processQuery`. -/
structure QueryRun where
  stp : StpRun
  checker : CheckerRun
deriving DecidableEq, Repr

/-- Function `ExecutionManager::processQuery`; `none` when the call runs into
undefined behaviour. The thread index only selects file names. -/
def processQuery (forkInput : FileBuffer → List Char → Option FileBuffer)
    (q : QueryRun) (em : ExecutionManager) (first_input : Input) (actual : List Bool)
    (first_depth cur_depth : Nat) : Option (Int × ExecutionManager) :=
  match STP_Executor.run (some []) q.stp with
  | none => some (1, em)
  | some out =>
    match out.getFile with
    | none => some (1, em)
    | some model =>
      match deriveNext forkInput first_input model actual cur_depth with
      | Derived.discarded => some (1, em)
      | Derived.undefined => none
      | Derived.child next =>
        let r := checkAndScore em next (!em.trace_kind) q.checker
        if em.trace_kind then
          some (1, { r.2 with
            inputs := r.2.inputs.insert (Key.mk r.1 (first_depth + cur_depth + 1)) next })
        else some (1, r.2)

/-! ## The main loop: selection -/

/-- Function `ExecutionManager::requestNonZeroInput`; `startdepthLog` is the value
read from `startdepth.log` after the parent process has answered (0 when the
file holds nothing). The result is `none` on an empty Frontier. -/
def requestNonZeroInput (em : ExecutionManager) (startdepthLog : Int) :
    Option (Int × ExecutionManager) :=
  match em.inputs.last with
  | none => none
  | some it =>
    let best_score := it.1.score
    if best_score = 0 ∧ em.config.getAgent = true then
      if startdepthLog > 0 then some (startdepthLog, em)
      else
        some (0, { em with
          config := { em.config with getAgent := false }
          inputs := em.inputs.eraseLast })
    else some (0, { em with inputs := em.inputs.eraseLast })

/-! ## Trace processing -/

/-- The successive calls of `processQuery` for one trace: each job is the query
index handed to `processQuery` (`cur_depth`) with what the external programs do
for it. `none` when a call runs into undefined behaviour. -/
def processJobs (forkInput : FileBuffer → List Char → Option FileBuffer)
    (first_input : Input) (actual : List Bool) (first_depth : Nat) :
    List (Nat × QueryRun) → ExecutionManager → Option ExecutionManager
  | [], em => some em
  | job :: rest, em =>
    match processQuery forkInput job.2 em first_input actual first_depth job.1 with
    | none => none
    | some r => processJobs forkInput first_input actual first_depth rest r.2

/-- What the tracer leaves behind for the trace processing of one iteration. The
trace files are given as the sequence of their `QUERY(FALSE);` records, each cut
off in turn by `cutQueryAndDump`. -/
structure TraceRun where
  /-- First word of `actual.log` (read as the length when the depth option is 0). -/
  actualHeader : Int
  /-- The branch outcomes stored in `actual.log`. -/
  actualLog : List Bool
  /-- The queries of `dangertrace.log`, in file order. -/
  dangerTrace : List QueryRun
  /-- The queries of `trace.log`, in file order. -/
  trace : List QueryRun
  /-- Pooled mode: the order in which the workers execute the dispatched indices
  of the danger trace and of the trace. -/
  dangerOrder : List Nat
  order : List Nat
deriving DecidableEq, Repr

/-- Variable `actual_length` of `processTraceSequental` and `processTraceParallel`. -/
def actual_length (config : OptionConfig) (first_input : Input) (t : TraceRun) : Int :=
  if config.getDepth = 0 then t.actualHeader
  else (first_input.startdepth : Int) - 1 + (config.getDepth : Int)

/-- The array `actual` after `read(actualfd, actual, actual_length)`: the cells the
file fills; `none` for a negative length. -/
def readActual (config : OptionConfig) (first_input : Input) (t : TraceRun) :
    Option (List Bool) :=
  if actual_length config first_input t < 0 then none
  else some (t.actualLog.take (actual_length config first_input t).toNat)

/-- Function `ExecutionManager::processTraceSequental`; the result is the returned
depth and the state. -/
def processTraceSequental (forkInput : FileBuffer → List Char → Option FileBuffer)
    (t : TraceRun) (em : ExecutionManager) (first_input : Input) (first_depth : Nat) :
    Option (Nat × ExecutionManager) :=
  match readActual em.config first_input t with
  | none => none
  | some actual =>
    let danger :=
      if em.config.getCheckDanger then
        processJobs forkInput first_input actual first_depth t.dangerTrace.enum
          { em with trace_kind := false }
      else some em
    match danger with
    | none => none
    | some em1 =>
      match processJobs forkInput first_input actual first_depth t.trace.enum
          { em1 with trace_kind := true } with
      | none => none
      | some em2 => some (t.trace.length, em2)

/-- The jobs the workers execute, in the order in which they execute them. -/
def scheduled (queries : List QueryRun) (order : List Nat) : List (Nat × QueryRun) :=
  order.filterMap (fun i => (queries[i]?).map (fun q => (i, q)))

/-- Function `ExecutionManager::processTraceParallel`, reading the trace selected by
`trace_kind`; the result is the returned depth and the state. -/
def processTraceParallel (forkInput : FileBuffer → List Char → Option FileBuffer)
    (t : TraceRun) (em : ExecutionManager) (first_input : Input) (first_depth : Nat) :
    Option (Nat × ExecutionManager) :=
  match readActual em.config first_input t with
  | none => none
  | some actual =>
    let queries := if em.trace_kind then t.trace else t.dangerTrace
    let order := if em.trace_kind then t.order else t.dangerOrder
    match processJobs forkInput first_input actual first_depth (scheduled queries order)
        em with
    | none => none
    | some em1 => some (queries.length, em1)

/-! ## The coordinator connection -/

/-- One argument of `writeToSocket`. -/
inductive Packet where
  | char (c : Char)
  | int (n : Int)
  | bool (b : Bool)
  | bytes (l : List Nat)
  | text (s : String)
deriving DecidableEq, Repr

/-- Number of bytes of a packet (`count` of `writeToSocket`). -/
def Packet.count : Packet → Nat
  | Packet.char _ => 1
  | Packet.int _ => 4
  | Packet.bool _ => 1
  | Packet.bytes l => l.length
  | Packet.text s => s.utf8ByteSize

/-- The coordinator socket `distfd` as the engine sees it. -/
structure Wire where
  /-- What the successive calls of `readFromSocket` deliver; `none` (and the end of
  the list) is a `read` that returns 0 or -1. -/
  reads : List (Option Int)
  /-- Number of non-empty `writeToSocket` calls that succeed before a `write`
  returns -1 (`none`: all succeed). -/
  writesLeft : Option Nat
  /-- Everything written to the socket so far. -/
  sent : List Packet
deriving DecidableEq, Repr

/-- Function `writeToSocket`; the flag is false when it throws. -/
def writeToSocket (w : Wire) (p : Packet) : Wire × Bool :=
  if p.count = 0 then (w, true)
  else
    match w.writesLeft with
    | some 0 => (w, false)
    | some (n + 1) => ({ w with writesLeft := some n, sent := w.sent ++ [p] }, true)
    | none => ({ w with sent := w.sent ++ [p] }, true)

/-- Function `readFromSocket`; the value is `none` when it throws. -/
def readFromSocket (w : Wire) : Wire × Option Int :=
  match w.reads with
  | [] => (w, none)
  | none :: rest => ({ w with reads := rest }, none)
  | some v :: rest => ({ w with reads := rest }, some v)

/-- A sequence of `writeToSocket` calls, stopped by the first one that throws. -/
def writeAll : List Packet → Wire → Wire × Bool
  | [], w => (w, true)
  | p :: ps, w =>
    match writeToSocket w p with
    | (w1, true) => writeAll ps w1
    | (w1, false) => (w1, false)

/-- The `writeToSocket` calls of `talkToServer` for one blob of an input sent on
command `a`. -/
def announceFile (config : OptionConfig) (j : Nat) (fb : FileBuffer) : List Packet :=
  (if !config.usingDatagrams && !config.usingSockets then
      [Packet.int ((config.getFiles.getD j "").utf8ByteSize : Int),
        Packet.text (config.getFiles.getD j "")]
    else [])
  ++ [Packet.int (fb.size : Int), Packet.bytes fb.buf]

/-- The `writeToSocket` calls of `talkToServer` for one input sent on command `a`:
the input followed by the option set. -/
def announcePackets (config : OptionConfig) (fi : Input) : List Packet :=
  [Packet.int (fi.files.length : Int), Packet.bool config.usingSockets,
    Packet.bool config.usingDatagrams]
  ++ (fi.files.enum.map (fun jf => announceFile config jf.1 jf.2)).flatten
  ++ [Packet.int (fi.startdepth : Int), Packet.int (config.getDepth : Int),
    Packet.int (config.getAlarm : Int), Packet.int (config.getTracegrindAlarm : Int),
    Packet.int config.getSTPThreads, Packet.int (config.getProgAndArg.length : Int),
    Packet.bool config.usingMemcheck, Packet.bool config.checkForLeaks,
    Packet.bool config.getTraceChildren, Packet.bool config.getCheckDanger,
    Packet.bool config.getDebug, Packet.bool config.getVerbose,
    Packet.bool config.getSuppressSubcalls, Packet.bool config.getSTPThreadsAuto]
  ++ (if config.usingSockets then
      [Packet.int (config.getHost.utf8ByteSize : Int), Packet.text config.getHost,
        Packet.int (config.getPort : Int)]
    else [])
  ++ (if config.getInputFilterFile ≠ "" then
      [Packet.int (config.inputFilterBytes.length : Int), Packet.bytes config.inputFilterBytes]
    else [Packet.int 0])
  ++ [Packet.int (config.getFuncFilterUnits.length : Int)]
  ++ (config.getFuncFilterUnits.map
      (fun f => [Packet.int (f.utf8ByteSize : Int), Packet.text f])).flatten
  ++ (if config.getFuncFilterFile ≠ "" then
      [Packet.int (config.funcFilterBytes.length : Int), Packet.bytes config.funcFilterBytes]
    else [Packet.int 0])
  ++ (config.getProgAndArg.map
      (fun a => [Packet.int (a.utf8ByteSize : Int), Packet.text a])).flatten

/-- The `writeToSocket` calls of `talkToServer` for one input sent on command `g`. -/
def givePackets (fi : Input) : List Packet :=
  (fi.files.map (fun fb => [Packet.int (fb.size : Int), Packet.bytes fb.buf])).flatten
  ++ [Packet.int (fi.startdepth : Int)]

/-- How a loop of `talkToServer` ends. -/
inductive Sending where
  /-- The loop is left with `size` requests open. -/
  | left (size : Nat) (w : Wire) (inputs : Frontier)
  /-- A socket operation has thrown. -/
  | thrown (w : Wire) (inputs : Frontier)
  /-- The iterator is moved before `begin()`. -/
  | undefined
deriving DecidableEq, Repr

/-- Variable `limit` of `talkToServer`, with `N = 5`. -/
def limit (em : ExecutionManager) : Int :=
  if em.config.getProtectMainAgent then 5 * em.agents else 1

/-- The comparison `inputs.size() <= limit`, which converts `limit` to the unsigned
type of `size()`. -/
def atFloor (inputs : Frontier) (limit : Int) : Bool :=
  decide ((inputs.length : Int) ≤ limit % 2 ^ 64)

/-- The first `while (size > 0)` loop of the `a` and `g` branches: each round sends
the entry before the last one and erases it. -/
def sendInputs (packets : Input → List Packet) (limit : Int) :
    Nat → Wire → Frontier → Sending
  | 0, w, inputs => Sending.left 0 w inputs
  | size + 1, w, inputs =>
    if atFloor inputs limit then Sending.left (size + 1) w inputs
    else if inputs.length < 2 then Sending.undefined
    else
      match inputs[inputs.length - 2]? with
      | none => Sending.undefined
      | some it =>
        match writeAll (packets it.2) w with
        | (w1, false) => Sending.thrown w1 inputs
        | (w1, true) => sendInputs packets limit size w1 (inputs.eraseIdx (inputs.length - 2))

/-- The second `while (size > 0)` loop: a zero word for every request left. -/
def sendZeros : Nat → Wire → Wire × Bool
  | 0, w => (w, true)
  | size + 1, w =>
    match writeToSocket w (Packet.int 0) with
    | (w1, true) => sendZeros size w1
    | (w1, false) => (w1, false)

/-- The answer to command `a` or `g` after the command byte has been read. -/
def answer (packets : Input → List Packet) (limit : Int) (w : Wire) (inputs : Frontier) :
    Sending :=
  match writeToSocket w (Packet.char 'r') with
  | (w1, false) => Sending.thrown w1 inputs
  | (w1, true) =>
    match readFromSocket w1 with
    | (w2, none) => Sending.thrown w2 inputs
    | (w2, some size) =>
      match sendInputs packets limit size.toNat w2 inputs with
      | Sending.left rest w3 inputs3 =>
        match sendZeros rest w3 with
        | (w4, true) => Sending.left 0 w4 inputs3
        | (w4, false) => Sending.thrown w4 inputs3
      | other => other

/-- The loop `while (FD_ISSET(distfd, &readfds))` of `talkToServer`; `polls` are the
outcomes of the successive `select` calls (none left: not readable). -/
def serveCommands (config : OptionConfig) (limit : Int) :
    List Bool → Wire → Frontier → Sending
  | [], w, inputs => Sending.left 0 w inputs
  | false :: _, w, inputs => Sending.left 0 w inputs
  | true :: polls, w, inputs =>
    match readFromSocket w with
    | (w1, none) => Sending.thrown w1 inputs
    | (w1, some c) =>
      if c = 97 then
        match answer (announcePackets config) limit w1 inputs with
        | Sending.left _ w2 inputs2 => serveCommands config limit polls w2 inputs2
        | other => other
      else if c = 103 then
        match answer givePackets limit w1 inputs with
        | Sending.left _ w2 inputs2 => serveCommands config limit polls w2 inputs2
        | other => other
      else
        match writeToSocket w1 (Packet.int 0) with
        | (w2, true) => serveCommands config limit polls w2 inputs
        | (w2, false) => Sending.thrown w2 inputs

/-- Function `ExecutionManager::talkToServer`; `none` on undefined behaviour. -/
def talkToServer (polls : List Bool) (w : Wire) (em : ExecutionManager) :
    Option (Wire × ExecutionManager) :=
  match serveCommands em.config (limit em) polls w em.inputs with
  | Sending.left _ w1 inputs => some (w1, { em with inputs := inputs })
  | Sending.thrown w1 inputs => some (w1, { em with inputs := inputs, is_distributed := false })
  | Sending.undefined => none

/-! ## The main loop: one iteration -/

/-- Function `ExecutionManager::checkDivergence`; `divergenceLog` is the content of
`divergence.log` (`none`: the file cannot be opened). The dump of the parent's blobs
is a null dereference when `first_input` has no parent. -/
def checkDivergence (polls : List Bool) (w : Wire) (em : ExecutionManager)
    (first_input : Input) (score : Nat) (divergenceLog : Option (Bool × Int)) :
    Option (Int × Wire × ExecutionManager) :=
  match divergenceLog with
  | none => some (0, w, em)
  | some (divergence, _d) =>
    if divergence then
      match first_input.parent with
      | none => none
      | some _ =>
        let em1 := { em with divergences := em.divergences + 1 }
        if score = 0 then
          if em1.is_distributed then
            match talkToServer polls w em1 with
            | none => none
            | some (w1, em2) => some (1, w1, em2)
          else some (1, w, em1)
        else some (0, w, em1)
    else some (0, w, em)

/-- The loop of `updateInput` over the chunks of `replace_data`, `i` being the
index of the first chunk of the list. -/
def updateFiles : List (List Nat) → Nat → List FileBuffer → List FileBuffer
  | [], _, files => files
  | chunk :: rest, i, files =>
    match files[i]? with
    | none => updateFiles rest (i + 1) (files ++ [⟨"", chunk⟩])
    | some fb =>
      if fb.size < chunk.length then
        updateFiles rest (i + 1) (files.set i { fb with buf := chunk })
      else
        updateFiles rest (i + 1)
          (files.set i { fb with buf := chunk ++ fb.buf.drop chunk.length })

/-- Function `ExecutionManager::updateInput`; `replaceData` holds the chunks of
`replace_data`. -/
def updateInput (input : Input) (replaceData : List (List Nat)) : Input :=
  Input.mk (updateFiles replaceData 0 input.files) input.startdepth input.parent
    input.prediction input.predictionSize

/-- What the outside world does during one iteration of the main loop. -/
structure IterationRun where
  /-- Value read from `startdepth.log` when a new input is requested. -/
  startdepthLog : Int
  /-- Whether the alarm goes off while the tracer runs. -/
  tracerAlarm : Bool
  /-- The chunks of `replace_data` after the tracer has run. -/
  replaceData : List (List Nat)
  /-- Content of `divergence.log`. -/
  divergenceLog : Option (Bool × Int)
  traces : TraceRun
  /-- Outcomes of `select` for the `talkToServer` of `checkDivergence` and for the
  one that ends the iteration. -/
  divergencePolls : List Bool
  polls : List Bool
deriving DecidableEq, Repr

/-- The variables of `run` that live across iterations, with the socket. -/
structure RunState where
  em : ExecutionManager
  wire : Wire
  runs : Nat
deriving DecidableEq

/-- The statement `basicBlocksCovered.insert(delta_basicBlocksCovered.begin(),
delta_basicBlocksCovered.end())` of `run`. -/
def mergeDelta (em : ExecutionManager) : ExecutionManager :=
  { em with basicBlocksCovered := em.basicBlocksCovered ∪ em.delta_basicBlocksCovered }

/-- The tracer run of an iteration: `getTracegrindOptions` resets `killed` in the
network modes, and the alarm handler sets it unless `nokill` holds. -/
def runTracer (em : ExecutionManager) (tracerAlarm : Bool) : ExecutionManager :=
  let killed0 :=
    if em.config.usingSockets || em.config.usingDatagrams then false else em.killed
  let nokill := decide (em.config.getTracegrindAlarm = 0)
  { em with killed := killed0 || (tracerAlarm && !nokill) }

/-- The calls of `processTraceParallel` / `processTraceSequental` in `run`. -/
def processTraces (forkInput : FileBuffer → List Char → Option FileBuffer)
    (t : TraceRun) (em : ExecutionManager) (fi : Input) (dpth : Nat) :
    Option (Nat × ExecutionManager) :=
  if em.thread_num ≠ 0 then
    let danger :=
      if em.config.getCheckDanger then
        (processTraceParallel forkInput t { em with trace_kind := false } fi dpth).map
          (fun r => r.2)
      else some em
    match danger with
    | none => none
    | some em1 => processTraceParallel forkInput t { em1 with trace_kind := true } fi dpth
  else processTraceSequental forkInput t em fi dpth

/-- The input `fi` after the tracer has run: in the network modes `updateInput`
refreshes its blobs. -/
def tracedInput (em : ExecutionManager) (fi : Input) (replaceData : List (List Nat)) :
    Input :=
  if em.config.usingSockets || em.config.usingDatagrams then updateInput fi replaceData
  else fi

/-- The Frontier after `updateInput(fi)`: when `fi` has not been erased it is still
the last entry and is refreshed in place. -/
def refreshLast (inputs : Frontier) (fi : Input) : Frontier :=
  match inputs.getLast? with
  | none => inputs
  | some e => inputs.dropLast ++ [(e.1, fi)]

/-- One round of the loop `while (!inputs.empty())` of `run`. The flag of the
result is false when the loop is left by `break`; `none` on undefined behaviour
(and on an empty Frontier, which the loop condition excludes). -/
def runIteration (forkInput : FileBuffer → List Char → Option FileBuffer)
    (it : IterationRun) (st : RunState) : Option (Bool × RunState) :=
  let em0 := { st.em with delta_basicBlocksCovered := ∅ }
  match em0.inputs.last with
  | none => none
  | some sel =>
    let scr := sel.1.score
    let dpth := sel.1.depth
    match requestNonZeroInput em0 it.startdepthLog with
    | none => none
    | some (startdepth, em1) =>
      let newInput := decide (startdepth ≠ 0)
      let em2 := runTracer em1 it.tracerAlarm
      let fi := tracedInput em2 sel.2 it.replaceData
      let em3 := if newInput then { em2 with inputs := refreshLast em2.inputs fi } else em2
      let diverged :=
        if em3.config.getDebug && decide (st.runs > 0) && !newInput then
          checkDivergence it.divergencePolls st.wire em3 fi scr it.divergenceLog
        else some (0, st.wire, em3)
      match diverged with
      | none => none
      | some (d, w4, em4) =>
        if d ≠ 0 then some (true, ⟨em4, w4, st.runs + 1⟩)
        else if em4.config.getDumpCalls then some (false, ⟨em4, w4, st.runs⟩)
        else
          match processTraces forkInput it.traces em4 fi dpth with
          | none => none
          | some (_, em5) =>
            let em6 := mergeDelta em5
            if em6.is_distributed then
              match talkToServer it.polls w4 em6 with
              | none => none
              | some (w7, em7) => some (true, ⟨em7, w7, st.runs + 1⟩)
            else some (true, ⟨em6, w4, st.runs + 1⟩)

/-- Function `ExecutionManager::run` up to the loop: the root input is checked
and scored, the delta is merged, and the root is filed under `(score, 0)`.
`initial` is the root with its blobs loaded. -/
def runStart (em : ExecutionManager) (initial : Input) (r : CheckerRun) :
    ExecutionManager :=
  let root := Input.mk initial.files em.config.getStartdepth initial.parent
    initial.prediction initial.predictionSize
  let scored := checkAndScore em root false r
  let em1 := mergeDelta scored.2
  { em1 with inputs := em1.inputs.insert (Key.mk scored.1 0) root }

/-- The loop `while (!inputs.empty())` of `run`, for as many rounds as the list
describes. -/
def runLoop (forkInput : FileBuffer → List Char → Option FileBuffer) :
    List IterationRun → RunState → Option RunState
  | [], st => some st
  | it :: rest, st =>
    if st.em.inputs = [] then some st
    else
      match runIteration forkInput it st with
      | none => none
      | some (true, st1) => runLoop forkInput rest st1
      | some (false, st1) => some st1

/-- The child for which `processQuery` calls `checkAndScore` on a job, when it gets
that far. -/
def childOf (forkInput : FileBuffer → List Char → Option FileBuffer)
    (first_input : Input) (actual : List Bool) (job : Nat × QueryRun) : Option Input :=
  match STP_Executor.run (some []) job.2.stp with
  | none => none
  | some out =>
    match out.getFile with
    | none => none
    | some model =>
      match deriveNext forkInput first_input model actual job.1 with
      | Derived.child next => some next
      | _ => none

/-- The blocks of the basic-block log of a job whose child is scored. -/
def scoredBlocks (forkInput : FileBuffer → List Char → Option FileBuffer)
    (first_input : Input) (actual : List Bool) (job : Nat × QueryRun) : Finset Nat :=
  match childOf forkInput first_input actual job with
  | none => ∅
  | some _ => (job.2.checker.basicBlocks.getD []).toFinset

/-- The jobs of `trace.log` that an iteration executes, in execution order: in file
order when `run` takes the sequential path, as the workers take them otherwise. -/
def executedJobs (em : ExecutionManager) (t : TraceRun) : List (Nat × QueryRun) :=
  if em.thread_num ≠ 0 then scheduled t.trace t.order else t.trace.enum

/-- Whether `processQuery` gets through a job without undefined behaviour. -/
def jobDefined (forkInput : FileBuffer → List Char → Option FileBuffer)
    (first_input : Input) (actual : List Bool) (job : Nat × QueryRun) : Bool :=
  match STP_Executor.run (some []) job.2.stp with
  | none => true
  | some out =>
    match out.getFile with
    | none => true
    | some model =>
      decide (deriveNext forkInput first_input model actual job.1 ≠ Derived.undefined)

/-- The Frontier entry a job contributes in pooled mode when the global set is
`covered`: the child under its score and the depth `first_depth + cur_depth + 1`. -/
def pooledEntry (forkInput : FileBuffer → List Char → Option FileBuffer)
    (first_input : Input) (actual : List Bool) (first_depth : Nat) (covered : Finset Nat)
    (job : Nat × QueryRun) : Option (Key × Input) :=
  (childOf forkInput first_input actual job).map (fun next =>
    (Key.mk ((job.2.checker.basicBlocks.getD []).filter
        (fun a => decide (a ∉ covered))).length (first_depth + job.1 + 1), next))

/-! ## Crash groups -/

/-- Variable `exploit_group` of `checkAndScore` when the scan of the report ends:
the index of the first group whose trace equals the filtered output, the number
of groups when no group matches. -/
def exploitGroup (t : List Char) : List Chunk → Nat
  | [] => 0
  | c :: rest => if c.trace = some t then 0 else exploitGroup t rest + 1

/-- Index in `report` of the group in which `checkAndScore` files a crash: the
matching group, or the group pushed at the back. -/
def crashGroup (filtered : Option (List Char)) (report : List Chunk) : Nat :=
  match filtered with
  | some t => exploitGroup t report
  | none => report.length

/-! ## Closed forms for the coordinator dialogue -/

/-- The packets of a sequence of `writeToSocket` calls that reach the socket: an
empty packet causes no `write`. -/
def written (ps : List Packet) : List Packet :=
  ps.filter (fun p => decide (p.count ≠ 0))

/-- The Frontier without the `k` entries just below its last entry. -/
def dropBeforeLast (k : Nat) (f : Frontier) : Frontier :=
  (f.dropLast.reverse.drop k).reverse ++ f.getLast?.toList

/-! ## Stages of one iteration -/

/-- The input `fi` of an iteration of `run` once the tracer has run, `em1` being
the state that `requestNonZeroInput` leaves and `sel` the selected entry. -/
def iterationInput (it : IterationRun) (em1 : ExecutionManager) (sel : Key × Input) :
    Input :=
  tracedInput (runTracer em1 it.tracerAlarm) sel.2 it.replaceData

/-- The state of an iteration of `run` when the tracer has run and `updateInput`
has refreshed `fi`: with a fresh start depth `fi` is still the last entry of the
Frontier and is refreshed there. -/
def afterTracer (it : IterationRun) (startdepth : Int) (em1 : ExecutionManager)
    (sel : Key × Input) : ExecutionManager :=
  if decide (startdepth ≠ 0) then
    { runTracer em1 it.tracerAlarm with
      inputs := refreshLast (runTracer em1 it.tracerAlarm).inputs (iterationInput it em1 sel) }
  else runTracer em1 it.tracerAlarm

/-- The divergence check of an iteration of `run`, made only in debug mode, after
the first run, for an input that was not requested anew. -/
def divergenceStage (it : IterationRun) (st : RunState) (startdepth : Int)
    (em1 : ExecutionManager) (sel : Key × Input) : Option (Int × Wire × ExecutionManager) :=
  if (afterTracer it startdepth em1 sel).config.getDebug && decide (st.runs > 0)
      && !decide (startdepth ≠ 0) then
    checkDivergence it.divergencePolls st.wire (afterTracer it startdepth em1 sel)
      (iterationInput it em1 sel) sel.1.score it.divergenceLog
  else some (0, st.wire, afterTracer it startdepth em1 sel)

/-! ## Tracer options -/

/-- One entry of the option vector `plugin_opts` handed to the tracer. -/
inductive PluginOpt where
  /-- The string `--startdepth=K`. -/
  | startdepth (k : Int)
  /-- The string `--check-prediction=yes`. -/
  | checkPrediction
  /-- The string `--invertdepth=D`. -/
  | invertdepth (d : Nat)
  /-- The string `--dump-file=calldump.log`. -/
  | dumpFile
  /-- The string `--dump-prediction=yes`. -/
  | dumpPrediction
  /-- The strings `--check-danger=yes` and `--check-danger=no`. -/
  | checkDanger (yes : Bool)
  /-- The string `--func-name=` followed by a function filter unit. -/
  | funcName (unit : String)
  /-- The string `--func-filter-file=` followed by the file name. -/
  | funcFilterFile (name : String)
  /-- The string `--mask=` followed by the file name. -/
  | mask (name : String)
  /-- The string `--suppress-subcalls=yes`. -/
  | suppressSubcalls
  /-- The string `--host=` followed by the host. -/
  | host (name : String)
  /-- The string `--port=` followed by the port. -/
  | port (p : Nat)
  /-- The string `--replace=yes`. -/
  | replace
  /-- The string `--sockets=yes`. -/
  | sockets
  /-- The string `--datagrams=yes`. -/
  | datagrams
  /-- The string `--file=` followed by the file name. -/
  | file (name : String)
deriving DecidableEq, Repr

/-- The command-line text of an option. -/
def PluginOpt.render : PluginOpt → String
  | PluginOpt.startdepth k => "--startdepth=" ++ toString k
  | PluginOpt.checkPrediction => "--check-prediction=yes"
  | PluginOpt.invertdepth d => "--invertdepth=" ++ toString d
  | PluginOpt.dumpFile => "--dump-file=calldump.log"
  | PluginOpt.dumpPrediction => "--dump-prediction=yes"
  | PluginOpt.checkDanger yes => if yes then "--check-danger=yes" else "--check-danger=no"
  | PluginOpt.funcName unit => "--func-name=" ++ unit
  | PluginOpt.funcFilterFile name => "--func-filter-file=" ++ name
  | PluginOpt.mask name => "--mask=" ++ name
  | PluginOpt.suppressSubcalls => "--suppress-subcalls=yes"
  | PluginOpt.host name => "--host=" ++ name
  | PluginOpt.port p => "--port=" ++ toString p
  | PluginOpt.replace => "--replace=yes"
  | PluginOpt.sockets => "--sockets=yes"
  | PluginOpt.datagrams => "--datagrams=yes"
  | PluginOpt.file name => "--file=" ++ name

/-- Function `ExecutionManager::getTracegrindOptions`: the options it pushes at the
back of `plugin_opts`. -/
def getTracegrindOptions (config : OptionConfig) (plugin_opts : List PluginOpt) :
    List PluginOpt :=
  plugin_opts
    ++ [PluginOpt.invertdepth config.getDepth]
    ++ (if config.getDumpCalls then [PluginOpt.dumpFile] else [PluginOpt.dumpPrediction])
    ++ [PluginOpt.checkDanger config.getCheckDanger]
    ++ config.getFuncFilterUnits.map PluginOpt.funcName
    ++ (if config.getFuncFilterFile ≠ "" then [PluginOpt.funcFilterFile config.getFuncFilterFile]
      else [])
    ++ (if config.getInputFilterFile ≠ "" then [PluginOpt.mask config.getInputFilterFile]
      else [])
    ++ (if config.getSuppressSubcalls then [PluginOpt.suppressSubcalls] else [])
    ++ (if config.usingSockets then
        [PluginOpt.host config.getHost, PluginOpt.port config.getPort, PluginOpt.replace,
          PluginOpt.sockets]
      else if config.usingDatagrams then [PluginOpt.replace, PluginOpt.datagrams]
      else config.getFiles.map PluginOpt.file)

/-- The option vector that an iteration of `run` hands to the tracer: `startdepth`
is the value returned by `requestNonZeroInput`. When it is not 0 the string built in
`tg_depth` is not pushed. -/
def tracerOptions (config : OptionConfig) (fi : Input) (runs : Nat) (startdepth : Int) :
    List PluginOpt :=
  getTracegrindOptions config
    (if startdepth ≠ 0 then []
      else
        [PluginOpt.startdepth fi.startdepth]
          ++ (if runs > 0 then [PluginOpt.checkPrediction] else []))

/-- The option vector of the tracer in one round of the loop of `run`; `none` on an
empty Frontier. -/
def iterationOptions (it : IterationRun) (st : RunState) : Option (List PluginOpt) :=
  match st.em.inputs.last with
  | none => none
  | some sel =>
    match requestNonZeroInput { st.em with delta_basicBlocksCovered := ∅ }
        it.startdepthLog with
    | none => none
    | some (startdepth, em1) => some (tracerOptions em1.config sel.2 st.runs startdepth)

/-! ## Dumps of divergent inputs -/

/-- One call that writes an input to disk. -/
inductive Dump where
  /-- The call `fb->FileBuffer::dumpFile(name)`. -/
  | dumpFile (name : String) (fb : FileBuffer)
  /-- The call `input->dumpExploit(name, false)`. -/
  | dumpExploit (name : String) (input : Input)
deriving DecidableEq

/-- The dumps that `checkDivergence` makes, in order; `pre` is the value of
`config->getPrefix()`. `none` when `first_input` has no parent, which the dump
dereferences. -/
def divergenceDumps (pre : String) (em : ExecutionManager) (first_input : Input)
    (divergenceLog : Option (Bool × Int)) : Option (List Dump) :=
  match divergenceLog with
  | none => some []
  | some (divergence, _d) =>
    if divergence then
      match first_input.parent with
      | none => none
      | some parent =>
        if em.config.usingSockets || em.config.usingDatagrams then
          some [Dump.dumpExploit (pre ++ "divergence_" ++ toString em.divergences) parent]
        else
          some (parent.files.enum.map (fun ifb =>
            Dump.dumpFile
              (pre ++ "divergence_" ++ toString em.divergences ++ "_" ++ toString ifb.1)
              ifb.2))
    else some []

/-! ## Counters of the memcheck log -/

/-- The number that `dumpMCExploit` reads after the first occurrence of a label in
the log: `strtol` applied just behind the label; `none` when the label does not
occur. -/
def counterAfter (label : String) (exec_log : List Char) : Option Int :=
  (strstr (cstring exec_log) label.toList).map (fun s => strtol (s.drop label.length))

/-! ## Shutdown -/

/-- The statement `write(fd, "q", 1)`, whose result is not examined. -/
def writeQuit (w : Wire) : Wire :=
  (writeToSocket w (Packet.char 'q')).1

/-- The statements `shutdown(fd, SHUT_RDWR); close(fd)`: no later write reaches the
coordinator. -/
def closeSocket (w : Wire) : Wire :=
  { w with writesLeft := some 0 }

/-- Destructor `ExecutionManager::~ExecutionManager`, as far as the coordinator
socket `distfd` is concerned. -/
def destructor (w : Wire) (em : ExecutionManager) : Wire :=
  if em.is_distributed then closeSocket (writeQuit w) else w

/-- Function `sig_hndlr` of `Entry.cpp`, as far as the coordinator socket is
concerned, with the destructor that its call of `cleanUp` runs. `getDistributed` is
the value of `opt_config->getDistributed()`, the option from which the constructor
initialises `is_distributed` and which nothing writes afterwards; the descriptor
`dist_fd` of the handler is taken to be the coordinator socket. -/
def sig_hndlr (getDistributed : Bool) (w : Wire) (em : ExecutionManager) : Wire :=
  destructor (if getDistributed then closeSocket (writeQuit w) else w) em

/-! ## Splitting a trace into queries -/

/-- The counting loop of `processTraceParallel`: as long as
`strstr(query, "QUERY(FALSE);")` finds an occurrence, `depth` is incremented and
`query` is moved one character behind the start of that occurrence. It is started
at `query` with `depth` counted so far; `none` when `fuel` rounds do not end
it. -/
def countQueries : Nat → List Char → Nat → Option Nat
  | 0, _, _ => none
  | fuel + 1, query, depth =>
    match strstr query "QUERY(FALSE);".toList with
    | none => some depth
    | some q => countQueries fuel q.tail (depth + 1)

/-- The value `depth` that `processTraceParallel` returns for the trace text
`buf`: the loop over `i < depth` dispatches the indices `0 .. depth - 1`. -/
def parallelDepth (buf : List Char) : Option Nat :=
  countQueries ((cstring buf).length + 1) (cstring buf) 0

/-- The loop of `processTraceSequental` over `trace.log`,
`while (strstr(trace.buf, "QUERY(FALSE)") != NULL)`, as the list of the indices
`depth - 1` handed to `processQuery`, in order; the returned depth is the initial
one plus their number. `cut` is what `cutQueryAndDump(..., true)` leaves in the
buffer; `none` when `fuel` rounds do not end the loop. -/
def sequentalIndices (cut : List Char → List Char) :
    Nat → List Char → Nat → Option (List Nat)
  | 0, _, _ => none
  | fuel + 1, buf, depth =>
    match strstr (cstring buf) "QUERY(FALSE)".toList with
    | none => some []
    | some _ => (sequentalIndices cut fuel (cut buf) (depth + 1)).map (fun l => depth :: l)

/-! ## Sample states -/

/-- A configuration for a file target with every switch off. -/
def sampleConfig : OptionConfig :=
  { usingSockets := false, usingDatagrams := false, usingMemcheck := false
    checkForLeaks := false, getDebug := false, getAgent := false, getCheckDanger := false
    getDumpCalls := false, getProtectMainAgent := false, getDepth := 1, getStartdepth := 1
    getSTPThreads := 0, getAlarm := 300, getTracegrindAlarm := 0, getTraceChildren := false
    getVerbose := false, getSuppressSubcalls := false, getSTPThreadsAuto := false
    getFiles := ["in"], getProgAndArg := ["target", "in"], getHost := "", getPort := 0
    getInputFilterFile := "", inputFilterBytes := [], getFuncFilterUnits := []
    getFuncFilterFile := "", funcFilterBytes := [] }

/-- A sequential engine with an empty Frontier and nothing covered. -/
def sampleManager : ExecutionManager :=
  { config := sampleConfig, inputs := [], basicBlocksCovered := ∅
    delta_basicBlocksCovered := ∅, exploits := 0, divergences := 0, memchecks := 0
    report := [], thread_num := 0, killed := false, trace_kind := true
    is_distributed := false, agents := 0 }

/-- A root input: the one-blob file `hello` at start depth 1. -/
def sampleRoot : Input := Input.mk [⟨"in", [104, 101, 108, 108, 111]⟩] 1 none [] 0

/-- A solver model applied by overwriting byte 0 with 0. -/
def sampleFork (fb : FileBuffer) (_model : List Char) : Option FileBuffer :=
  some ⟨fb.name, fb.buf.set 0 0⟩

/-- A solver run that ends with exit code 0 and an output file. -/
def sampleStp : StpRun := { execRet := 0, waitRet := 0, exportFile := some [] }

/-- A checker run that exits normally and logs the given blocks. -/
def sampleChecker (blocks : List Nat) : CheckerRun :=
  { exitCode := 0, alarm := false, alarmKilled := false, execLog := [], filtered := none
    basicBlocks := some blocks }

/-- A pooled engine (two workers) whose Frontier holds the root at `(3, 0)`. -/
def samplePooled : RunState :=
  { em := { sampleManager with
      inputs := [(⟨3, 0⟩, sampleRoot)], thread_num := 2
      config := { sampleConfig with getSTPThreads := 2, getDepth := 2 } }
    wire := { reads := [], writesLeft := none, sent := [] }
    runs := 0 }

/-- An iteration whose trace holds two queries, finished by the workers in reverse
order; the checker logs blocks 4096 and 8192 for the first child and 8192 for the
second. -/
def sampleIteration : IterationRun :=
  { startdepthLog := 0, tracerAlarm := false, replaceData := [], divergenceLog := none
    traces :=
      { actualHeader := 0, actualLog := [true, false], dangerTrace := []
        trace := [⟨sampleStp, sampleChecker [4096, 8192]⟩, ⟨sampleStp, sampleChecker [8192]⟩]
        dangerOrder := [], order := [1, 0] }
    divergencePolls := [], polls := [] }

/-- A distributed engine that protects the main agent, with the given number of
agents and a Frontier of `n` entries with scores `0 .. n - 1`. -/
def sampleMain (agents : Int) (n : Nat) : ExecutionManager :=
  { sampleManager with
    config := { sampleConfig with getProtectMainAgent := true }
    inputs := (List.range n).map (fun i => (Key.mk i 0, sampleRoot))
    is_distributed := true, agents := agents }

/-- A socket on which the coordinator sends `g`, the count 2 and `a` and then
closes the connection. -/
def sampleLossy : Wire :=
  { reads := [some 103, some 2, some 97], writesLeft := none, sent := [] }

/-- The child of the root derived at query index 0: byte 0 overwritten, start depth
2, the one branch of the root predicted flipped. -/
def sampleChild : Input :=
  Input.mk [⟨"in", [0, 101, 108, 108, 111]⟩] 2 (some sampleRoot) [false] 1

/-- An iteration in which the tracer records a divergence at depth 3 and emits no
query. -/
def sampleDiverged : IterationRun :=
  { startdepthLog := 0, tracerAlarm := false, replaceData := []
    divergenceLog := some (true, 3)
    traces :=
      { actualHeader := 0, actualLog := [true, false], dangerTrace := [], trace := []
        dangerOrder := [], order := [] }
    divergencePolls := [], polls := [] }

/-- An agent whose best input has score 0. -/
def sampleAgent : RunState :=
  { em := { sampleManager with
      config := { sampleConfig with getAgent := true }
      inputs := [(⟨0, 0⟩, sampleRoot)] }
    wire := { reads := [], writesLeft := none, sent := [] }
    runs := 1 }

/-- An iteration in which the parent process answers the request of the agent with
the start depth 7. -/
def sampleFresh : IterationRun :=
  { sampleDiverged with startdepthLog := 7, divergenceLog := none }

/-- A memcheck log without errors whose leak summary reports no lost byte. -/
def sampleLeakLog : List Char :=
  "ERROR SUMMARY: 0 errors\ndefinitely lost: 0 bytes\npossibly lost: 0 bytes".toList

/-- A trace text that ends right after `QUERY(FALSE)`, before the semicolon. -/
def sampleCutTrace : List Char := "x : BITVECTOR(8);\nQUERY(FALSE)".toList

theorem copyLoop_spec (actual : List Bool) :
    ∀ (left j : Nat) (p r : List Bool), copyLoop actual left j p = some r →
      r.length = p.length ∧ (0 < left → j + left ≤ p.length ∧ j + left ≤ actual.length) ∧
      (∀ k, k < j → r[k]? = p[k]?) ∧
      (∀ k, j ≤ k → k < j + left → r[k]? = actual[k]?) ∧
      (∀ k, j + left ≤ k → r[k]? = p[k]?) := by
  intro left
  induction left with
  | zero =>
    intro j p r h
    simp only [copyLoop, Option.some.injEq] at h
    subst h
    refine ⟨rfl, by simp, fun _ _ => rfl, ?_, fun _ _ => rfl⟩
    intro k h1 h2
    omega
  | succ left ih =>
    intro j p r h
    rw [copyLoop] at h
    cases hb : actual[j]? with
    | none => simp [hb] at h
    | some b =>
      simp only [hb] at h
      by_cases hj : j < p.length
      · rw [if_pos hj] at h
        obtain ⟨h1, h2, h3, h4, h5⟩ := ih (j + 1) (p.set j b) r h
        have hja : j < actual.length := by
          rcases Nat.lt_or_ge j actual.length with hlt | hge
          · exact hlt
          · rw [List.getElem?_eq_none hge] at hb
            cases hb
        rw [List.length_set] at h1 h2
        refine ⟨h1, ?_, ?_, ?_, ?_⟩
        · intro _
          rcases Nat.eq_zero_or_pos left with h0 | hpos
          · subst h0
            omega
          · have := h2 hpos
            omega
        · intro k hk
          rw [h3 k (by omega), List.getElem?_set_ne (by omega)]
        · intro k hk1 hk2
          rcases Nat.eq_or_lt_of_le hk1 with heq | hlt
          · subst heq
            rw [h3 j (by omega), List.getElem?_set_self hj, hb]
          · exact h4 k (by omega) (by omega)
        · intro k hk
          rw [h5 k (by omega), List.getElem?_set_ne (by omega)]
      · rw [if_neg hj] at h
        cases h

theorem copyLoop_total (actual : List Bool) :
    ∀ (left j : Nat) (p : List Bool), j + left ≤ p.length → j + left ≤ actual.length →
      ∃ r, copyLoop actual left j p = some r := by
  intro left
  induction left with
  | zero =>
    intro j p _ _
    exact ⟨p, rfl⟩
  | succ left ih =>
    intro j p hp ha
    rw [copyLoop]
    have hja : j < actual.length := by omega
    rw [List.getElem?_eq_getElem hja]
    simp only
    rw [if_pos (by omega)]
    exact ih (j + 1) _ (by rw [List.length_set]; omega) (by omega)

theorem flipIndex_of_pos {s i : Nat} (h : 0 < s + i) : flipIndex s i = s + i - 1 := by
  unfold flipIndex
  rw [if_neg (by omega)]

theorem stampPrediction_spec {actual p : List Bool} {s i : Nat}
    (h : stampPrediction actual s i = some p) :
    0 < s + i ∧ s + i ≤ actual.length ∧ p.length = s + i ∧
      (∀ j, j + 1 < s + i → ∃ b, actual[j]? = some b ∧ p[j]? = some b) ∧
      (∃ b, actual[s + i - 1]? = some b ∧ p[s + i - 1]? = some (!b)) := by
  unfold stampPrediction at h
  cases hc : copyLoop actual (flipIndex s i) 0 (List.replicate (s + i) false) with
  | none => simp [hc] at h
  | some q =>
    simp only [hc] at h
    obtain ⟨hlen, hbound, _, hcopy, _⟩ := copyLoop_spec actual _ _ _ _ hc
    rw [List.length_replicate] at hlen hbound
    cases hb : actual[flipIndex s i]? with
    | none => simp [hb] at h
    | some b =>
      simp only [hb] at h
      by_cases hf : flipIndex s i < q.length
      · rw [if_pos hf] at h
        injection h with h
        have hpos : 0 < s + i := by
          rcases Nat.eq_zero_or_pos (s + i) with h0 | hp
          · rw [hlen, h0] at hf
            omega
          · exact hp
        rw [flipIndex_of_pos hpos] at hf hb hcopy h
        have hlt : s + i - 1 < actual.length := by
          rcases Nat.lt_or_ge (s + i - 1) actual.length with hlt | hge
          · exact hlt
          · rw [List.getElem?_eq_none hge] at hb
            cases hb
        subst h
        refine ⟨hpos, by omega, by rw [List.length_set, hlen], ?_, b, hb, ?_⟩
        · intro j hj
          have hja : j < actual.length := by omega
          refine ⟨actual[j], List.getElem?_eq_getElem hja, ?_⟩
          rw [List.getElem?_set_ne (by omega), hcopy j (Nat.zero_le j) (by omega),
            List.getElem?_eq_getElem hja]
        · rw [List.getElem?_set_self hf]
      · rw [if_neg hf] at h
        cases h

theorem stampPrediction_total {actual : List Bool} {s i : Nat}
    (hpos : 0 < s + i) (hlen : s + i ≤ actual.length) :
    ∃ p, stampPrediction actual s i = some p := by
  unfold stampPrediction
  rw [flipIndex_of_pos hpos]
  obtain ⟨q, hq⟩ := copyLoop_total actual (s + i - 1) 0 (List.replicate (s + i) false)
    (by rw [List.length_replicate]; omega) (by omega)
  obtain ⟨hql, -⟩ := copyLoop_spec actual _ _ _ _ hq
  rw [List.length_replicate] at hql
  rw [hq]
  simp only
  rw [List.getElem?_eq_getElem (by omega : s + i - 1 < actual.length)]
  simp only
  rw [if_pos (by omega)]
  exact ⟨_, rfl⟩

theorem deriveNext_child {forkInput : FileBuffer → List Char → Option FileBuffer}
    {fi next : Input} {model : List Char} {actual : List Bool} {i : Nat}
    (h : deriveNext forkInput fi model actual i = Derived.child next) :
    ∃ files prediction, forkFiles forkInput model fi.files = some files ∧
      stampPrediction actual fi.startdepth i = some prediction ∧
      next = Input.mk files (fi.startdepth + i + 1) (some fi) prediction
        (fi.startdepth + i) := by
  unfold deriveNext at h
  cases hf : forkFiles forkInput model fi.files with
  | none => simp [hf] at h
  | some files =>
    cases hp : stampPrediction actual fi.startdepth i with
    | none => simp [hf, hp] at h
    | some prediction =>
      simp only [hf, hp, Derived.child.injEq] at h
      exact ⟨files, prediction, rfl, rfl, h.symm⟩

/-- C1: a child that `processQuery` derives from parent `fi` at query index `i`
has `startdepth = fi.startdepth + i + 1` and `parent = fi`. -/
theorem processQuery_child_startdepth_parent
    (forkInput : FileBuffer → List Char → Option FileBuffer) (fi next : Input)
    (model : List Char) (actual : List Bool) (i : Nat)
    (h : deriveNext forkInput fi model actual i = Derived.child next) :
    next.startdepth = fi.startdepth + i + 1 ∧ next.parent = some fi := by
  obtain ⟨files, prediction, -, -, rfl⟩ := deriveNext_child h
  exact ⟨rfl, rfl⟩

theorem processQuery_child_startdepth_parent_witness :
    (Input.mk [⟨"in", [0, 101]⟩] 2 (some (Input.mk [⟨"in", [104, 101]⟩] 1 none [] 0))
        [false] 1).startdepth = (Input.mk [⟨"in", [104, 101]⟩] 1 none [] 0).startdepth + 0 + 1 ∧
      (Input.mk [⟨"in", [0, 101]⟩] 2 (some (Input.mk [⟨"in", [104, 101]⟩] 1 none [] 0))
        [false] 1).parent = some (Input.mk [⟨"in", [104, 101]⟩] 1 none [] 0) :=
  processQuery_child_startdepth_parent (fun fb _ => some ⟨fb.name, fb.buf.set 0 0⟩)
    (Input.mk [⟨"in", [104, 101]⟩] 1 none [] 0) _ [] [true] 0 (by decide)

/-- C2 (as stated) fails: for a parent with `startdepth = 1`, query index `0` and
`actual = [true, true]` the child's prediction is `[false]`; index `0` is not a copy
of `actual[0]` and there is no cell at index `1`. -/
theorem processQuery_prediction_counterexample :
    deriveNext (fun fb _ => some fb) (Input.mk [] 1 none [] 0) [] [true, true] 0
        = Derived.child (Input.mk [] 2 (some (Input.mk [] 1 none [] 0)) [false] 1) ∧
      ¬ ((∀ j, j ≤ 1 + 0 - 1 →
            (Input.mk [] 2 (some (Input.mk [] 1 none [] 0)) [false] 1).prediction[j]?
              = [true, true][j]?) ∧
          (Input.mk [] 2 (some (Input.mk [] 1 none [] 0)) [false] 1).prediction[1 + 0]?
            = ([true, true][1 + 0]?).map (fun b => !b)) := by
  refine ⟨by decide, ?_⟩
  intro h
  exact absurd (h.1 0 (by decide)) (by decide)

/-- C2 (amended): a child derived from parent `fi` at query index `i` exists only
when `fi.startdepth + i ≥ 1`; its prediction copies `actual` on the indices
`0 .. fi.startdepth + i - 2` and holds the negation of `actual` at the last index
`fi.startdepth + i - 1`. -/
theorem processQuery_prediction
    (forkInput : FileBuffer → List Char → Option FileBuffer) (fi next : Input)
    (model : List Char) (actual : List Bool) (i : Nat)
    (h : deriveNext forkInput fi model actual i = Derived.child next) :
    1 ≤ fi.startdepth + i ∧
      (∀ j, j + 1 < fi.startdepth + i →
        ∃ b, actual[j]? = some b ∧ next.prediction[j]? = some b) ∧
      (∃ b, actual[fi.startdepth + i - 1]? = some b ∧
        next.prediction[fi.startdepth + i - 1]? = some (!b)) := by
  obtain ⟨files, prediction, -, hp, rfl⟩ := deriveNext_child h
  obtain ⟨hpos, -, -, hcopy, hflip⟩ := stampPrediction_spec hp
  exact ⟨hpos, hcopy, hflip⟩

theorem processQuery_prediction_witness :
    1 ≤ (Input.mk [] 1 none [] 0).startdepth + 2 ∧
      (∀ j, j + 1 < (Input.mk [] 1 none [] 0).startdepth + 2 →
        ∃ b, [true, false, false, true][j]? = some b ∧
          (Input.mk [] 4 (some (Input.mk [] 1 none [] 0)) [true, false, true] 3).prediction[j]?
            = some b) ∧
      (∃ b, [true, false, false, true][(Input.mk [] 1 none [] 0).startdepth + 2 - 1]? = some b ∧
        (Input.mk [] 4 (some (Input.mk [] 1 none [] 0)) [true, false, true]
          3).prediction[(Input.mk [] 1 none [] 0).startdepth + 2 - 1]? = some (!b)) :=
  processQuery_prediction (fun fb _ => some fb) (Input.mk [] 1 none [] 0) _ []
    [true, false, false, true] 2 (by decide)

/-- C3 (as stated) fails: the child derived from a parent with `startdepth = 1` at
query index `0` has `startdepth = 2` and a prediction vector of one element; and
from a parent with `startdepth = 0` at query index `0` no child is built at all
(every write is outside the zero-length vector). -/
theorem processQuery_predictionSize_counterexample :
    deriveNext (fun fb _ => some fb) (Input.mk [] 1 none [] 0) [] [true, true] 0
        = Derived.child (Input.mk [] 2 (some (Input.mk [] 1 none [] 0)) [false] 1) ∧
      (Input.mk [] 2 (some (Input.mk [] 1 none [] 0)) [false] 1).predictionSize
        ≠ (Input.mk [] 2 (some (Input.mk [] 1 none [] 0)) [false] 1).startdepth ∧
      deriveNext (fun fb _ => some fb) (Input.mk [] 0 none [] 0) [] [true, true] 0
        = Derived.undefined := by
  decide

/-- C3 (amended): for a child `next` derived by `processQuery`, `predictionSize` is
the length of the prediction vector and equals `next.startdepth - 1`, that is
`next.startdepth = predictionSize + 1`; in particular a parent with `startdepth = 1`
and query index `0` (with all blobs forked and `actual` of length at least one)
yields a child with `startdepth = 2` and a one-element prediction vector. -/
theorem processQuery_predictionSize
    (forkInput : FileBuffer → List Char → Option FileBuffer) (model : List Char) :
    (∀ (fi next : Input) (actual : List Bool) (i : Nat),
      deriveNext forkInput fi model actual i = Derived.child next →
        next.prediction.length = next.predictionSize ∧
        next.startdepth = next.predictionSize + 1) ∧
    (∀ (fi : Input) (files : List FileBuffer) (actual : List Bool),
      fi.startdepth = 1 → forkFiles forkInput model fi.files = some files →
        1 ≤ actual.length →
        ∃ next, deriveNext forkInput fi model actual 0 = Derived.child next ∧
          next.startdepth = 2 ∧ next.prediction.length = 1) := by
  constructor
  · intro fi next actual i h
    obtain ⟨files, prediction, -, hp, rfl⟩ := deriveNext_child h
    obtain ⟨-, -, hlen, -, -⟩ := stampPrediction_spec hp
    exact ⟨hlen, rfl⟩
  · intro fi files actual hs hf hlen
    obtain ⟨p, hp⟩ := stampPrediction_total (s := fi.startdepth) (i := 0)
      (by omega) (by omega : fi.startdepth + 0 ≤ actual.length)
    obtain ⟨-, -, hpl, -, -⟩ := stampPrediction_spec hp
    refine ⟨Input.mk files (fi.startdepth + 0 + 1) (some fi) p (fi.startdepth + 0), ?_, ?_, ?_⟩
    · unfold deriveNext
      simp only [hf, hp]
    · show fi.startdepth + 0 + 1 = 2
      omega
    · show p.length = 1
      omega

theorem processQuery_predictionSize_witness :
    ((Input.mk [] 4 (some (Input.mk [] 1 none [] 0)) [true, false, true] 3).prediction.length
        = (Input.mk [] 4 (some (Input.mk [] 1 none [] 0)) [true, false, true] 3).predictionSize ∧
      (Input.mk [] 4 (some (Input.mk [] 1 none [] 0)) [true, false, true] 3).startdepth
        = (Input.mk [] 4 (some (Input.mk [] 1 none [] 0)) [true, false, true] 3).predictionSize
          + 1) ∧
    ∃ next, deriveNext (fun fb _ => some fb) (Input.mk [⟨"in", [104]⟩] 1 none [] 0) []
        [true] 0 = Derived.child next ∧ next.startdepth = 2 ∧ next.prediction.length = 1 :=
  ⟨(processQuery_predictionSize (fun fb _ => some fb) []).1 (Input.mk [] 1 none [] 0) _
      [true, false, false, true] 2 (by decide),
    (processQuery_predictionSize (fun fb _ => some fb) []).2
      (Input.mk [⟨"in", [104]⟩] 1 none [] 0) [⟨"in", [104]⟩] [true] (by decide) (by decide)
      (by decide)⟩

/-! ## Properties: the Frontier -/

theorem cmp_false_iff (a b : Key) :
    cmp a b = false ↔ b.score < a.score ∨ (b.score = a.score ∧ a.depth ≤ b.depth) := by
  unfold cmp
  by_cases h1 : a.score < b.score
  · simp [h1]; omega
  · by_cases h2 : b.score < a.score
    · simp [h1, h2]
    · simp [h1, h2]; omega

theorem Frontier.mem_le_last {f : Frontier} (hwf : f.WF) {e : Key × Input}
    (hlast : f.last = some e) : ∀ r ∈ f, cmp e.1 r.1 = false := by
  intro r hr
  unfold Frontier.last at hlast
  obtain ⟨l, rfl⟩ : ∃ l, f = l ++ [e] := by
    rcases List.eq_nil_or_concat f with h | ⟨l, b, h⟩
    · subst h; simp at hlast
    · subst h
      simp at hlast
      exact ⟨l, by rw [hlast]; simp⟩
  unfold Frontier.WF at hwf
  rw [List.pairwise_append] at hwf
  rcases List.mem_append.1 hr with h | h
  · exact hwf.2.2 r h e (by simp)
  · simp at h
    subst h
    rw [cmp_false_iff]
    right
    exact ⟨rfl, le_refl _⟩

theorem Frontier.insert_perm (k : Key) (x : Input) (f : Frontier) :
    (Frontier.insert k x f).Perm ((k, x) :: f) := by
  induction f with
  | nil => exact List.Perm.refl _
  | cons e rest ih =>
    unfold Frontier.insert
    split
    · exact List.Perm.refl _
    · exact (List.Perm.cons e ih).trans (List.Perm.swap _ _ _)

theorem Frontier.insert_sublist (k : Key) (x : Input) (f : Frontier) :
    f.Sublist (Frontier.insert k x f) := by
  induction f with
  | nil => simp
  | cons e rest ih =>
    unfold Frontier.insert
    split
    · exact List.sublist_cons_self _ _
    · exact ih.cons₂ e

theorem cmp_trans_false {a b c : Key} (h1 : cmp b a = false) (h2 : cmp c b = false) :
    cmp c a = false := by
  rw [cmp_false_iff] at *
  omega

theorem Frontier.insert_WF (k : Key) (x : Input) {f : Frontier} (hwf : f.WF) :
    (Frontier.insert k x f).WF := by
  induction f with
  | nil => simp [Frontier.insert, Frontier.WF]
  | cons e rest ih =>
    unfold Frontier.WF at hwf ih ⊢
    rw [List.pairwise_cons] at hwf
    unfold Frontier.insert
    split
    · rename_i hc
      rw [List.pairwise_cons]
      refine ⟨?_, List.pairwise_cons.2 hwf⟩
      intro b hb
      have hek : cmp e.1 k = false := by
        rw [cmp_false_iff]
        unfold cmp at hc
        by_cases h1 : k.score < e.1.score
        · left; exact h1
        · by_cases h2 : e.1.score < k.score
          · simp [h1, h2] at hc
          · simp [h1, h2] at hc
            right; omega
      rcases List.mem_cons.1 hb with h | h
      · subst h; exact hek
      · exact cmp_trans_false hek (hwf.1 b h)
    · rename_i hc
      rw [List.pairwise_cons]
      refine ⟨?_, ih hwf.2⟩
      intro b hb
      rcases List.mem_cons.1 ((Frontier.insert_perm k x rest).subset hb) with h | h
      · subst h
        simpa using hc
      · exact hwf.1 b h

theorem Frontier.eraseLast_WF {f : Frontier} (hwf : f.WF) : f.eraseLast.WF := by
  unfold Frontier.WF Frontier.eraseLast at *
  exact hwf.sublist (List.dropLast_sublist f)

/-- C4: on a non-empty Frontier the entry the main loop selects (the last one,
erased by `requestNonZeroInput` unless a fresh start depth is returned) has a key
that no entry remaining in the map exceeds under `cmp`: every remaining score is
at most its score and, at equal score, every remaining depth is at least its
depth. -/
theorem selected_key_is_maximal (em : ExecutionManager) (startdepthLog : Int)
    (e : Key × Input) (res : Int × ExecutionManager)
    (hwf : em.inputs.WF) (hlast : em.inputs.last = some e)
    (hres : requestNonZeroInput em startdepthLog = some res) :
    (res.2.inputs = em.inputs.eraseLast ∨ res.2.inputs = em.inputs) ∧
    ∀ r ∈ res.2.inputs,
      cmp e.1 r.1 = false ∧ r.1.score ≤ e.1.score ∧
        (r.1.score = e.1.score → e.1.depth ≤ r.1.depth) := by
  have hcase : res.2.inputs = em.inputs.eraseLast ∨ res.2.inputs = em.inputs := by
    unfold requestNonZeroInput at hres
    simp only [hlast] at hres
    split at hres
    · split at hres
      · injection hres with hres
        subst hres
        exact Or.inr rfl
      · injection hres with hres
        subst hres
        exact Or.inl rfl
    · injection hres with hres
      subst hres
      exact Or.inl rfl
  refine ⟨hcase, ?_⟩
  intro r hr
  have hmem : r ∈ em.inputs := by
    rcases hcase with h | h
    · rw [h] at hr
      exact (List.dropLast_sublist _).subset hr
    · rw [h] at hr
      exact hr
  have h := Frontier.mem_le_last hwf hlast r hmem
  refine ⟨h, ?_⟩
  rw [cmp_false_iff] at h
  omega

theorem selected_key_is_maximal_witness :
    ([((⟨0, 3⟩ : Key), Input.new), (⟨2, 5⟩, Input.new)]
        = Frontier.eraseLast [(⟨0, 3⟩, Input.new), (⟨2, 5⟩, Input.new), (⟨2, 1⟩, sampleRoot)] ∨
      [((⟨0, 3⟩ : Key), Input.new), (⟨2, 5⟩, Input.new)]
        = [(⟨0, 3⟩, Input.new), (⟨2, 5⟩, Input.new), (⟨2, 1⟩, sampleRoot)]) ∧
    ∀ r ∈ [((⟨0, 3⟩ : Key), Input.new), (⟨2, 5⟩, Input.new)],
      cmp ⟨2, 1⟩ r.1 = false ∧ r.1.score ≤ 2 ∧ (r.1.score = 2 → 1 ≤ r.1.depth) :=
  selected_key_is_maximal
    { sampleManager with
      inputs := [(⟨0, 3⟩, Input.new), (⟨2, 5⟩, Input.new), (⟨2, 1⟩, sampleRoot)] }
    0 (⟨2, 1⟩, sampleRoot)
    (0, { sampleManager with inputs := [(⟨0, 3⟩, Input.new), (⟨2, 5⟩, Input.new)] })
    (by decide) (by decide) (by decide)

/-! ## Properties: scoring and insertion -/

theorem scoreLoop_frame (l : List Nat) :
    ∀ (res : Nat) (em : ExecutionManager),
      (scoreLoop l res em).2.config = em.config ∧
      (scoreLoop l res em).2.inputs = em.inputs ∧
      (scoreLoop l res em).2.exploits = em.exploits ∧
      (scoreLoop l res em).2.divergences = em.divergences ∧
      (scoreLoop l res em).2.memchecks = em.memchecks ∧
      (scoreLoop l res em).2.report = em.report ∧
      (scoreLoop l res em).2.thread_num = em.thread_num ∧
      (scoreLoop l res em).2.killed = em.killed ∧
      (scoreLoop l res em).2.trace_kind = em.trace_kind ∧
      (scoreLoop l res em).2.is_distributed = em.is_distributed ∧
      (scoreLoop l res em).2.agents = em.agents := by
  induction l with
  | nil => intro res em; simp [scoreLoop]
  | cons a rest ih =>
    intro res em
    rw [scoreLoop]
    by_cases h : em.thread_num < 1
    · simp only [h, if_true]
      exact ih _ _
    · simp only [h, if_false]
      exact ih _ _

theorem calculateScore_frame (bb : Option (List Nat)) (em : ExecutionManager) :
    (calculateScore bb em).2.config = em.config ∧
      (calculateScore bb em).2.inputs = em.inputs ∧
      (calculateScore bb em).2.exploits = em.exploits ∧
      (calculateScore bb em).2.divergences = em.divergences ∧
      (calculateScore bb em).2.memchecks = em.memchecks ∧
      (calculateScore bb em).2.report = em.report ∧
      (calculateScore bb em).2.thread_num = em.thread_num ∧
      (calculateScore bb em).2.killed = em.killed ∧
      (calculateScore bb em).2.trace_kind = em.trace_kind ∧
      (calculateScore bb em).2.is_distributed = em.is_distributed ∧
      (calculateScore bb em).2.agents = em.agents := by
  cases bb with
  | none => simp [calculateScore]
  | some l => exact scoreLoop_frame l 0 em

theorem triage_frame (em : ExecutionManager) (x : Input) (b : Bool) (r : CheckerRun) :
    (triage em x b r).config = em.config ∧
      (triage em x b r).inputs = em.inputs ∧
      (triage em x b r).basicBlocksCovered = em.basicBlocksCovered ∧
      (triage em x b r).delta_basicBlocksCovered = em.delta_basicBlocksCovered ∧
      (triage em x b r).divergences = em.divergences ∧
      (triage em x b r).thread_num = em.thread_num ∧
      (triage em x b r).killed = em.killed ∧
      (triage em x b r).trace_kind = em.trace_kind ∧
      (triage em x b r).is_distributed = em.is_distributed ∧
      (triage em x b r).agents = em.agents := by
  unfold triage
  split_ifs <;> simp

theorem checkAndScore_frame (em : ExecutionManager) (x : Input) (b : Bool) (r : CheckerRun) :
    (checkAndScore em x b r).2.config = em.config ∧
      (checkAndScore em x b r).2.inputs = em.inputs ∧
      (checkAndScore em x b r).2.divergences = em.divergences ∧
      (checkAndScore em x b r).2.thread_num = em.thread_num ∧
      (checkAndScore em x b r).2.trace_kind = em.trace_kind ∧
      (checkAndScore em x b r).2.is_distributed = em.is_distributed ∧
      (checkAndScore em x b r).2.agents = em.agents := by
  obtain ⟨t1, t2, -, -, t5, t6, -, t8, t9, t10⟩ := triage_frame (runChecker em r) x b r
  unfold checkAndScore
  split
  · obtain ⟨h1, h2, -, h4, -, -, h7, -, h9, h10, h11⟩ :=
      calculateScore_frame r.basicBlocks (triage (runChecker em r) x b r)
    rw [h1, h2, h4, h7, h9, h10, h11, t1, t2, t5, t6, t8, t9, t10]
    simp [runChecker]
  · simp only
    rw [t1, t2, t5, t6, t8, t9, t10]
    simp [runChecker]

/-- C5: with `trace_kind` set, a query at index `i` whose child `next` is derived
makes `processQuery` return 1 and insert exactly one entry into the Frontier,
`next` under the key `(score, first_depth + i + 1)` with `score` the value of
`checkAndScore` for `next` and `first_depth` the depth of the popped parent's key
handed over by `run`; the previous entries all stay, in their order. -/
theorem processQuery_inserts_child
    (forkInput : FileBuffer → List Char → Option FileBuffer) (q : QueryRun)
    (em : ExecutionManager) (fi next : Input) (model : List Char) (actual : List Bool)
    (d i : Nat) (htk : em.trace_kind = true)
    (hstp : STP_Executor.run (some []) q.stp = some ⟨some model⟩)
    (hnext : deriveNext forkInput fi model actual i = Derived.child next) :
    ∃ em1, processQuery forkInput q em fi actual d i = some (1, em1) ∧
      em1.inputs
        = em.inputs.insert ⟨(checkAndScore em next false q.checker).1, d + i + 1⟩ next ∧
      em1.inputs.Perm
        ((⟨(checkAndScore em next false q.checker).1, d + i + 1⟩, next) :: em.inputs) ∧
      em.inputs.Sublist em1.inputs := by
  have hin := (checkAndScore_frame em next false q.checker).2.1
  refine ⟨{ (checkAndScore em next false q.checker).2 with
      inputs := (checkAndScore em next false q.checker).2.inputs.insert
        ⟨(checkAndScore em next false q.checker).1, d + i + 1⟩ next }, ?_, ?_, ?_, ?_⟩
  · unfold processQuery
    simp only [hstp, hnext, htk, Bool.not_true, if_true]
  · simp only [hin]
  · simp only [hin]
    exact Frontier.insert_perm _ _ _
  · simp only [hin]
    exact Frontier.insert_sublist _ _ _

theorem processQuery_inserts_child_witness :
    ∃ em1, processQuery sampleFork ⟨sampleStp, sampleChecker [4096]⟩
        { sampleManager with
          inputs := [(⟨3, 0⟩, sampleRoot)], basicBlocksCovered := {4096} }
        sampleRoot [true] 0 0 = some (1, em1) ∧
      em1.inputs = Frontier.insert ⟨0, 0 + 0 + 1⟩
        (Input.mk [⟨"in", [0, 101, 108, 108, 111]⟩] 2 (some sampleRoot) [false] 1)
        [(⟨3, 0⟩, sampleRoot)] ∧
      em1.inputs.Perm
        ((⟨0, 0 + 0 + 1⟩,
          Input.mk [⟨"in", [0, 101, 108, 108, 111]⟩] 2 (some sampleRoot) [false] 1)
          :: [(⟨3, 0⟩, sampleRoot)]) ∧
      List.Sublist [((⟨3, 0⟩ : Key), sampleRoot)] em1.inputs :=
  processQuery_inserts_child sampleFork ⟨sampleStp, sampleChecker [4096]⟩
    { sampleManager with inputs := [(⟨3, 0⟩, sampleRoot)], basicBlocksCovered := {4096} }
    sampleRoot (Input.mk [⟨"in", [0, 101, 108, 108, 111]⟩] 2 (some sampleRoot) [false] 1) []
    [true] 0 0 (by decide) (by decide) (by decide)

theorem card_insert_sdiff (a : Nat) (R G : Finset Nat) (ha : a ∉ G) :
    (Insert.insert a R \ G).card = (R \ Insert.insert a G).card + 1 := by
  have h : Insert.insert a R \ G = Insert.insert a (R \ Insert.insert a G) := by
    ext x
    simp only [Finset.mem_sdiff, Finset.mem_insert]
    constructor
    · rintro ⟨h1 | h1, h2⟩
      · exact Or.inl h1
      · by_cases hx : x = a
        · exact Or.inl hx
        · exact Or.inr ⟨h1, fun h3 => h3.elim hx h2⟩
    · rintro (h1 | ⟨h1, h2⟩)
      · subst h1
        exact ⟨Or.inl rfl, ha⟩
      · exact ⟨Or.inr h1, fun h3 => h2 (Or.inr h3)⟩
  rw [h, Finset.card_insert_of_not_mem]
  simp

theorem scoreLoop_sequential (l : List Nat) :
    ∀ (res : Nat) (em : ExecutionManager), em.thread_num < 1 →
      (scoreLoop l res em).1 = res + (l.toFinset \ em.basicBlocksCovered).card ∧
      (scoreLoop l res em).2.basicBlocksCovered = em.basicBlocksCovered ∪ l.toFinset ∧
      (scoreLoop l res em).2.delta_basicBlocksCovered = em.delta_basicBlocksCovered := by
  induction l with
  | nil => intro res em _; simp [scoreLoop]
  | cons a rest ih =>
    intro res em h
    rw [scoreLoop]
    simp only [h, if_true]
    obtain ⟨h1, h2, h3⟩ := ih (if a ∉ em.basicBlocksCovered then res + 1 else res)
      { em with basicBlocksCovered := Insert.insert a em.basicBlocksCovered } h
    dsimp only at h1 h2 h3
    refine ⟨?_, ?_, ?_⟩
    · rw [h1]
      simp only [List.toFinset_cons]
      by_cases ha : a ∈ em.basicBlocksCovered
      · rw [if_neg (not_not.2 ha), Finset.insert_eq_of_mem ha, Finset.insert_sdiff_of_mem _ ha]
      · rw [if_pos ha, card_insert_sdiff a rest.toFinset em.basicBlocksCovered ha]
        omega
    · rw [h2]
      ext x
      simp only [List.toFinset_cons, Finset.mem_union, Finset.mem_insert]
      tauto
    · rw [h3]

theorem scoreLoop_pooled (l : List Nat) :
    ∀ (res : Nat) (em : ExecutionManager), ¬ em.thread_num < 1 →
      (scoreLoop l res em).1
        = res + (l.filter (fun a => decide (a ∉ em.basicBlocksCovered))).length ∧
      (scoreLoop l res em).2.basicBlocksCovered = em.basicBlocksCovered ∧
      (scoreLoop l res em).2.delta_basicBlocksCovered
        = em.delta_basicBlocksCovered ∪ l.toFinset := by
  induction l with
  | nil => intro res em _; simp [scoreLoop]
  | cons a rest ih =>
    intro res em h
    rw [scoreLoop]
    simp only [h, if_false]
    obtain ⟨h1, h2, h3⟩ := ih (if a ∉ em.basicBlocksCovered then res + 1 else res)
      { em with delta_basicBlocksCovered := Insert.insert a em.delta_basicBlocksCovered } h
    dsimp only at h1 h2 h3
    refine ⟨?_, ?_, ?_⟩
    · rw [h1]
      by_cases ha : a ∈ em.basicBlocksCovered
      · rw [if_neg (not_not.2 ha), List.filter_cons_of_neg (by simpa using ha)]
      · rw [if_pos ha, List.filter_cons_of_pos (by simpa using ha), List.length_cons]
        omega
    · rw [h2]
    · rw [h3]
      ext x
      simp only [List.toFinset_cons, Finset.mem_union, Finset.mem_insert]
      tauto

theorem card_sdiff_of_nodup {l : List Nat} (hl : l.Nodup) (G : Finset Nat) :
    (l.filter (fun a => decide (a ∉ G))).length = (l.toFinset \ G).card := by
  rw [← List.toFinset_card_of_nodup (hl.filter _), List.toFinset_filter]
  congr 1
  ext x
  simp

/-- C6 (as stated) fails in the pooled variant: the log `[5, 5]` holds one distinct
block outside the empty global set, and `calculateScore` returns 2. -/
theorem calculateScore_distinct_counterexample :
    (calculateScore (some [5, 5]) { sampleManager with thread_num := 1 }).1 = 2 ∧
      (([5, 5] : List Nat).toFinset
        \ ({ sampleManager with thread_num := 1 }).basicBlocksCovered).card = 1 := by
  decide

/-- C6 (amended): in the sequential variant `calculateScore` returns the number of
distinct block ids of the log that are not in the global set; in the pooled
variant it returns the number of entries of the log that are not in the global
set, which is the number of distinct such ids for every log without repeated ids;
a missing or empty log gives 0. -/
theorem calculateScore_counts_new_blocks (em : ExecutionManager) (log : List Nat) :
    (em.thread_num < 1 →
      (calculateScore (some log) em).1 = (log.toFinset \ em.basicBlocksCovered).card) ∧
    (1 ≤ em.thread_num →
      (calculateScore (some log) em).1
        = (log.filter (fun a => decide (a ∉ em.basicBlocksCovered))).length) ∧
    (1 ≤ em.thread_num → log.Nodup →
      (calculateScore (some log) em).1 = (log.toFinset \ em.basicBlocksCovered).card) ∧
    (calculateScore none em).1 = 0 ∧ (calculateScore (some []) em).1 = 0 := by
  refine ⟨?_, ?_, ?_, rfl, rfl⟩
  · intro h
    have := (scoreLoop_sequential log 0 em h).1
    simpa [calculateScore] using this
  · intro h
    have := (scoreLoop_pooled log 0 em (by omega)).1
    simpa [calculateScore] using this
  · intro h hl
    have := (scoreLoop_pooled log 0 em (by omega)).1
    rw [card_sdiff_of_nodup hl] at this
    simpa [calculateScore] using this

theorem calculateScore_counts_new_blocks_witness :
    (calculateScore (some [5, 5, 7]) { sampleManager with basicBlocksCovered := {7} }).1
        = (([5, 5, 7] : List Nat).toFinset \ {7}).card ∧
      (calculateScore (some [5, 5, 7])
          { sampleManager with basicBlocksCovered := {7}, thread_num := 2 }).1
        = (([5, 5, 7] : List Nat).filter (fun a => decide (a ∉ ({7} : Finset Nat)))).length ∧
      (calculateScore (some [5, 6, 7])
          { sampleManager with basicBlocksCovered := {7}, thread_num := 2 }).1
        = (([5, 6, 7] : List Nat).toFinset \ {7}).card :=
  ⟨(calculateScore_counts_new_blocks { sampleManager with basicBlocksCovered := {7} }
      [5, 5, 7]).1 (by decide),
    (calculateScore_counts_new_blocks
      { sampleManager with basicBlocksCovered := {7}, thread_num := 2 } [5, 5, 7]).2.1
      (by decide),
    (calculateScore_counts_new_blocks
      { sampleManager with basicBlocksCovered := {7}, thread_num := 2 } [5, 6, 7]).2.2.1
      (by decide) (by decide)⟩

/-! ## Properties: crash recording -/

theorem occurrences_append (r1 r2 : List Chunk) :
    occurrences (r1 ++ r2) = occurrences r1 + occurrences r2 := by
  simp [occurrences]

theorem addToGroup_occurrences (t : List Char) (e : Nat) (n : Int) :
    ∀ (report r : List Chunk), addToGroup t e n report = some r →
      occurrences r = occurrences report + 1 ∧ r.length = report.length := by
  intro report
  induction report with
  | nil => intro r h; simp [addToGroup] at h
  | cons c rest ih =>
    intro r h
    rw [addToGroup] at h
    split at h
    · injection h with h
      subst h
      simp [occurrences, Chunk.addGroup]
      omega
    · cases hr : addToGroup t e n rest with
      | none => simp [hr] at h
      | some r1 =>
        simp only [hr, Option.map_some', Option.some.injEq] at h
        subst h
        obtain ⟨h1, h2⟩ := ih r1 hr
        simp only [occurrences, List.map_cons, List.sum_cons, List.length_cons] at h1 ⊢
        omega

theorem recordCrash_occurrences (f : Option (List Char)) (e : Nat) (n : Int)
    (report : List Chunk) :
    occurrences (recordCrash f e n report) = occurrences report + 1 := by
  unfold recordCrash
  cases f with
  | none => simp [occurrences]
  | some t =>
    simp only
    cases h : addToGroup t e n report with
    | none => simp [occurrences]
    | some r => exact (addToGroup_occurrences t e n report r h).1

theorem checkAndScore_report (em : ExecutionManager) (x : Input) (b : Bool) (r : CheckerRun) :
    (checkAndScore em x b r).2.report = (triage (runChecker em r) x b r).report ∧
      (checkAndScore em x b r).2.exploits = (triage (runChecker em r) x b r).exploits := by
  unfold checkAndScore
  split
  · obtain ⟨-, -, h3, -, -, h6, -⟩ :=
      calculateScore_frame r.basicBlocks (triage (runChecker em r) x b r)
    exact ⟨h6, h3⟩
  · exact ⟨rfl, rfl⟩

/-- C10: `checkAndScore` files one crash occurrence in the report and adds exactly 1
to `exploits` when the checker's exit code is -1 and the run was not killed by the
timeout (the global `killed` flag after the run when `thread_num = 0`, the
per-thread alarm-killed flag otherwise); in every other case the report and
`exploits` are unchanged. -/
theorem checkAndScore_records_crash (em : ExecutionManager) (input : Input)
    (addNoCoverage : Bool) (r : CheckerRun) :
    ((r.exitCode = -1 ∧
        (if em.thread_num = 0 then (runChecker em r).killed = false
          else r.alarmKilled = false)) →
      occurrences (checkAndScore em input addNoCoverage r).2.report
          = occurrences em.report + 1 ∧
        (checkAndScore em input addNoCoverage r).2.exploits = em.exploits + 1) ∧
    (¬ (r.exitCode = -1 ∧
        (if em.thread_num = 0 then (runChecker em r).killed = false
          else r.alarmKilled = false)) →
      (checkAndScore em input addNoCoverage r).2.report = em.report ∧
        (checkAndScore em input addNoCoverage r).2.exploits = em.exploits) := by
  obtain ⟨hr, he⟩ := checkAndScore_report em input addNoCoverage r
  rw [hr, he]
  have hc : hasCrashed (runChecker em r).thread_num (runChecker em r).killed r = true ↔
      (r.exitCode = -1 ∧
        (if em.thread_num = 0 then (runChecker em r).killed = false
          else r.alarmKilled = false)) := by
    have : (runChecker em r).thread_num = em.thread_num := rfl
    rw [this]
    unfold hasCrashed
    by_cases ht : em.thread_num = 0
    · simp [ht]
    · simp [ht]
  constructor
  · intro h
    unfold triage
    rw [if_pos (hc.2 h)]
    exact ⟨recordCrash_occurrences _ _ _ _, rfl⟩
  · intro h
    have hn : ¬ hasCrashed (runChecker em r).thread_num (runChecker em r).killed r = true :=
      fun h1 => h (hc.1 h1)
    unfold triage
    rw [if_neg hn]
    split_ifs <;> exact ⟨rfl, rfl⟩

theorem checkAndScore_records_crash_witness :
    (occurrences (checkAndScore sampleManager sampleRoot false
          { sampleChecker [] with exitCode := -1 }).2.report
        = occurrences sampleManager.report + 1 ∧
      (checkAndScore sampleManager sampleRoot false
          { sampleChecker [] with exitCode := -1 }).2.exploits
        = sampleManager.exploits + 1) ∧
    ((checkAndScore sampleManager sampleRoot false
          { sampleChecker [] with exitCode := -1, alarm := true }).2.report
        = sampleManager.report ∧
      (checkAndScore sampleManager sampleRoot false
          { sampleChecker [] with exitCode := -1, alarm := true }).2.exploits
        = sampleManager.exploits) :=
  ⟨(checkAndScore_records_crash sampleManager sampleRoot false
      { sampleChecker [] with exitCode := -1 }).1 (by decide),
    (checkAndScore_records_crash sampleManager sampleRoot false
      { sampleChecker [] with exitCode := -1, alarm := true }).2 (by decide)⟩


/-! ## Properties: coverage -/

theorem calculateScore_sequential (bb : Option (List Nat)) (em : ExecutionManager)
    (h : em.thread_num < 1) :
    (calculateScore bb em).1 = ((bb.getD []).toFinset \ em.basicBlocksCovered).card ∧
      (calculateScore bb em).2.basicBlocksCovered
        = em.basicBlocksCovered ∪ (bb.getD []).toFinset ∧
      (calculateScore bb em).2.delta_basicBlocksCovered = em.delta_basicBlocksCovered := by
  cases bb with
  | none => simp [calculateScore]
  | some l =>
    have := scoreLoop_sequential l 0 em h
    simpa [calculateScore] using this

theorem calculateScore_pooled (bb : Option (List Nat)) (em : ExecutionManager)
    (h : ¬ em.thread_num < 1) :
    (calculateScore bb em).1
        = ((bb.getD []).filter (fun a => decide (a ∉ em.basicBlocksCovered))).length ∧
      (calculateScore bb em).2.basicBlocksCovered = em.basicBlocksCovered ∧
      (calculateScore bb em).2.delta_basicBlocksCovered
        = em.delta_basicBlocksCovered ∪ (bb.getD []).toFinset := by
  cases bb with
  | none => simp [calculateScore]
  | some l =>
    have := scoreLoop_pooled l 0 em h
    simpa [calculateScore] using this

theorem checkAndScore_eq (em : ExecutionManager) (x : Input) (r : CheckerRun) :
    checkAndScore em x false r
      = calculateScore r.basicBlocks (triage (runChecker em r) x false r) := by
  simp [checkAndScore]

theorem checkAndScore_noCoverage (em : ExecutionManager) (x : Input) (r : CheckerRun) :
    (checkAndScore em x true r).2.basicBlocksCovered = em.basicBlocksCovered ∧
      (checkAndScore em x true r).2.delta_basicBlocksCovered
        = em.delta_basicBlocksCovered := by
  obtain ⟨-, -, t3, t4, -⟩ := triage_frame (runChecker em r) x true r
  simp only [checkAndScore, Bool.not_true]
  exact ⟨t3, t4⟩

theorem checkAndScore_sequential (em : ExecutionManager) (x : Input) (r : CheckerRun)
    (h : em.thread_num < 1) :
    (checkAndScore em x false r).1
        = ((r.basicBlocks.getD []).toFinset \ em.basicBlocksCovered).card ∧
      (checkAndScore em x false r).2.basicBlocksCovered
        = em.basicBlocksCovered ∪ (r.basicBlocks.getD []).toFinset ∧
      (checkAndScore em x false r).2.delta_basicBlocksCovered
        = em.delta_basicBlocksCovered := by
  obtain ⟨-, -, t3, t4, -, t6, -⟩ := triage_frame (runChecker em r) x false r
  have ht : (triage (runChecker em r) x false r).thread_num < 1 := by
    rw [t6]; exact h
  obtain ⟨h1, h2, h3⟩ := calculateScore_sequential r.basicBlocks _ ht
  rw [checkAndScore_eq, h1, h2, h3, t3, t4]
  exact ⟨rfl, rfl, rfl⟩

theorem checkAndScore_pooled (em : ExecutionManager) (x : Input) (r : CheckerRun)
    (h : ¬ em.thread_num < 1) :
    (checkAndScore em x false r).1
        = ((r.basicBlocks.getD []).filter
            (fun a => decide (a ∉ em.basicBlocksCovered))).length ∧
      (checkAndScore em x false r).2.basicBlocksCovered = em.basicBlocksCovered ∧
      (checkAndScore em x false r).2.delta_basicBlocksCovered
        = em.delta_basicBlocksCovered ∪ (r.basicBlocks.getD []).toFinset := by
  obtain ⟨-, -, t3, t4, -, t6, -⟩ := triage_frame (runChecker em r) x false r
  have ht : ¬ (triage (runChecker em r) x false r).thread_num < 1 := by
    rw [t6]; exact h
  obtain ⟨h1, h2, h3⟩ := calculateScore_pooled r.basicBlocks _ ht
  rw [checkAndScore_eq, h1, h2, h3, t3, t4]
  exact ⟨rfl, rfl, rfl⟩

/-- What `processQuery` does to the state, by the child of the job. -/
theorem processQuery_eq (forkInput : FileBuffer → List Char → Option FileBuffer)
    (job : Nat × QueryRun) (em : ExecutionManager) (fi : Input) (actual : List Bool)
    (d : Nat) (r : Int × ExecutionManager)
    (h : processQuery forkInput job.2 em fi actual d job.1 = some r) :
    r.1 = 1 ∧
      ((childOf forkInput fi actual job = none ∧ r.2 = em) ∨
        ∃ next, childOf forkInput fi actual job = some next ∧
          r.2 = if em.trace_kind then
              { (checkAndScore em next (!em.trace_kind) job.2.checker).2 with
                inputs := (checkAndScore em next (!em.trace_kind) job.2.checker).2.inputs.insert
                  (Key.mk (checkAndScore em next (!em.trace_kind) job.2.checker).1
                    (d + job.1 + 1)) next }
            else (checkAndScore em next (!em.trace_kind) job.2.checker).2) := by
  unfold processQuery at h
  unfold childOf
  cases hs : STP_Executor.run (some []) job.2.stp with
  | none =>
    simp only [hs, Option.some.injEq] at h
    subst h
    exact ⟨rfl, Or.inl ⟨rfl, rfl⟩⟩
  | some out =>
    simp only [hs] at h ⊢
    cases hf : out.getFile with
    | none =>
      simp only [hf, Option.some.injEq] at h
      subst h
      exact ⟨rfl, Or.inl ⟨rfl, rfl⟩⟩
    | some model =>
      simp only [hf] at h ⊢
      cases hd : deriveNext forkInput fi model actual job.1 with
      | discarded =>
        simp only [hd, Option.some.injEq] at h
        subst h
        exact ⟨rfl, Or.inl ⟨rfl, rfl⟩⟩
      | undefined => simp [hd] at h
      | child next =>
        simp only [hd] at h
        refine ⟨?_, Or.inr ⟨next, rfl, ?_⟩⟩
        · split at h <;> (injection h with h; subst h; rfl)
        · by_cases htk : em.trace_kind = true
          · rw [if_pos htk] at h ⊢
            injection h with h
            subst h
            rfl
          · rw [if_neg htk] at h ⊢
            injection h with h
            subst h
            rfl

theorem processQuery_coverage (forkInput : FileBuffer → List Char → Option FileBuffer)
    (job : Nat × QueryRun) (em : ExecutionManager) (fi : Input) (actual : List Bool)
    (d : Nat) (r : Int × ExecutionManager)
    (h : processQuery forkInput job.2 em fi actual d job.1 = some r) :
    r.2.thread_num = em.thread_num ∧ r.2.trace_kind = em.trace_kind ∧
      r.2.config = em.config ∧ r.2.is_distributed = em.is_distributed ∧
      r.2.agents = em.agents ∧ r.2.divergences = em.divergences ∧
      (em.thread_num < 1 →
        r.2.delta_basicBlocksCovered = em.delta_basicBlocksCovered ∧
        r.2.basicBlocksCovered = em.basicBlocksCovered ∪
          (if em.trace_kind then scoredBlocks forkInput fi actual job else ∅)) ∧
      (¬ em.thread_num < 1 →
        r.2.basicBlocksCovered = em.basicBlocksCovered ∧
        r.2.delta_basicBlocksCovered = em.delta_basicBlocksCovered ∪
          (if em.trace_kind then scoredBlocks forkInput fi actual job else ∅)) := by
  obtain ⟨-, hcase⟩ := processQuery_eq forkInput job em fi actual d r h
  rcases hcase with ⟨hc, hr⟩ | ⟨next, hc, hr⟩
  · rw [hr]
    simp [scoredBlocks, hc]
  · obtain ⟨f1, -, f3, f4, f5, f6, f7⟩ :=
      checkAndScore_frame em next (!em.trace_kind) job.2.checker
    have hsb : scoredBlocks forkInput fi actual job
        = (job.2.checker.basicBlocks.getD []).toFinset := by
      simp [scoredBlocks, hc]
    rw [hsb]
    by_cases htk : em.trace_kind = true
    · rw [if_pos htk] at hr
      simp only [htk, Bool.not_true, if_true] at hr f1 f3 f4 f5 f6 f7 ⊢
      rw [hr]
      refine ⟨f4, f5, f1, f6, f7, f3, ?_, ?_⟩
      · intro hseq
        obtain ⟨-, h2, h3⟩ := checkAndScore_sequential em next job.2.checker hseq
        exact ⟨h3, h2⟩
      · intro hseq
        obtain ⟨-, h2, h3⟩ := checkAndScore_pooled em next job.2.checker hseq
        exact ⟨h2, h3⟩
    · rw [if_neg htk] at hr
      have htk2 : em.trace_kind = false := by simpa using htk
      simp only [htk2, Bool.not_false] at hr f1 f3 f4 f5 f6 f7 ⊢
      rw [hr]
      obtain ⟨h2, h3⟩ := checkAndScore_noCoverage em next job.2.checker
      refine ⟨f4, f5, f1, f6, f7, f3, ?_, ?_⟩
      · intro _
        simp [h2, h3]
      · intro _
        simp [h2, h3]

theorem processJobs_coverage (forkInput : FileBuffer → List Char → Option FileBuffer)
    (fi : Input) (actual : List Bool) (d : Nat) :
    ∀ (jobs : List (Nat × QueryRun)) (em em1 : ExecutionManager),
      processJobs forkInput fi actual d jobs em = some em1 →
      em1.thread_num = em.thread_num ∧ em1.trace_kind = em.trace_kind ∧
        em1.config = em.config ∧ em1.is_distributed = em.is_distributed ∧
        em1.agents = em.agents ∧ em1.divergences = em.divergences ∧
        (em.thread_num < 1 →
          em1.delta_basicBlocksCovered = em.delta_basicBlocksCovered ∧
          ∀ b, b ∈ em1.basicBlocksCovered ↔ b ∈ em.basicBlocksCovered ∨
            (em.trace_kind = true ∧ ∃ job ∈ jobs, b ∈ scoredBlocks forkInput fi actual job)) ∧
        (¬ em.thread_num < 1 →
          em1.basicBlocksCovered = em.basicBlocksCovered ∧
          ∀ b, b ∈ em1.delta_basicBlocksCovered ↔ b ∈ em.delta_basicBlocksCovered ∨
            (em.trace_kind = true ∧ ∃ job ∈ jobs, b ∈ scoredBlocks forkInput fi actual job)) := by
  intro jobs
  induction jobs with
  | nil =>
    intro em em1 h
    simp only [processJobs, Option.some.injEq] at h
    subst h
    simp
  | cons job rest ih =>
    intro em em1 h
    rw [processJobs] at h
    cases hq : processQuery forkInput job.2 em fi actual d job.1 with
    | none => simp [hq] at h
    | some r =>
      simp only [hq] at h
      obtain ⟨q1, q2, q3, q4, q5, q6, q7, q8⟩ :=
        processQuery_coverage forkInput job em fi actual d r hq
      obtain ⟨i1, i2, i3, i4, i5, i6, i7, i8⟩ := ih r.2 em1 h
      rw [q1] at i1 i7 i8
      rw [q2] at i2 i7 i8
      refine ⟨i1, i2, i3.trans q3, i4.trans q4, i5.trans q5, i6.trans q6, ?_, ?_⟩
      · intro hseq
        obtain ⟨a1, a2⟩ := i7 hseq
        obtain ⟨b1, b2⟩ := q7 hseq
        refine ⟨a1.trans b1, ?_⟩
        intro b
        rw [a2 b, b2]
        by_cases htk : em.trace_kind = true
        · simp only [htk, if_true, Finset.mem_union, true_and, List.mem_cons, exists_eq_or_imp]
          tauto
        · simp [htk]
      · intro hseq
        obtain ⟨a1, a2⟩ := i8 hseq
        obtain ⟨b1, b2⟩ := q8 hseq
        refine ⟨a1.trans b1, ?_⟩
        intro b
        rw [a2 b, b2]
        by_cases htk : em.trace_kind = true
        · simp only [htk, if_true, Finset.mem_union, true_and, List.mem_cons, exists_eq_or_imp]
          tauto
        · simp [htk]

theorem processTraces_coverage (forkInput : FileBuffer → List Char → Option FileBuffer)
    (t : TraceRun) (em : ExecutionManager) (fi : Input) (d : Nat)
    (r : Nat × ExecutionManager) (h : processTraces forkInput t em fi d = some r) :
    ∃ actual, readActual em.config fi t = some actual ∧
      r.2.thread_num = em.thread_num ∧ r.2.config = em.config ∧
      r.2.is_distributed = em.is_distributed ∧ r.2.agents = em.agents ∧
      r.2.divergences = em.divergences ∧
      (em.thread_num < 1 →
        r.2.delta_basicBlocksCovered = em.delta_basicBlocksCovered ∧
        ∀ b, b ∈ r.2.basicBlocksCovered ↔ b ∈ em.basicBlocksCovered ∨
          ∃ job ∈ executedJobs em t, b ∈ scoredBlocks forkInput fi actual job) ∧
      (¬ em.thread_num < 1 →
        r.2.basicBlocksCovered = em.basicBlocksCovered ∧
        ∀ b, b ∈ r.2.delta_basicBlocksCovered ↔ b ∈ em.delta_basicBlocksCovered ∨
          ∃ job ∈ executedJobs em t, b ∈ scoredBlocks forkInput fi actual job) := by
  unfold processTraces at h
  unfold executedJobs
  by_cases hpar : em.thread_num ≠ 0
  · rw [if_pos hpar] at h
    rw [if_pos hpar]
    -- the danger phase
    have hdanger : ∀ em1, (if em.config.getCheckDanger = true then
          (processTraceParallel forkInput t { em with trace_kind := false } fi d).map
            (fun r => r.2)
        else some em) = some em1 →
        em1.thread_num = em.thread_num ∧ em1.config = em.config ∧
        em1.is_distributed = em.is_distributed ∧ em1.agents = em.agents ∧
        em1.divergences = em.divergences ∧
        em1.basicBlocksCovered = em.basicBlocksCovered ∧
        em1.delta_basicBlocksCovered = em.delta_basicBlocksCovered := by
      intro em1 h1
      split at h1
      · unfold processTraceParallel at h1
        cases ha : readActual em.config fi t with
        | none => simp [ha] at h1
        | some actual =>
          simp only [ha] at h1
          cases hj : processJobs forkInput fi actual d
              (scheduled t.dangerTrace t.dangerOrder) { em with trace_kind := false } with
          | none => simp [hj] at h1
          | some em2 =>
            simp only [Bool.false_eq_true, if_false, hj, Option.map_some',
              Option.some.injEq] at h1
            subst h1
            obtain ⟨j1, -, j3, j4, j5, j6, j7, j8⟩ :=
              processJobs_coverage forkInput fi actual d _ _ _ hj
            refine ⟨j1, j3, j4, j5, j6, ?_, ?_⟩
            · by_cases hs : em.thread_num < 1
              · have := (j7 hs).2
                ext b
                simpa using this b
              · exact (j8 hs).1
            · by_cases hs : em.thread_num < 1
              · exact (j7 hs).1
              · have := (j8 hs).2
                ext b
                simpa using this b
      · injection h1 with h1
        subst h1
        exact ⟨rfl, rfl, rfl, rfl, rfl, rfl, rfl⟩
    cases hd : (if em.config.getCheckDanger = true then
          (processTraceParallel forkInput t { em with trace_kind := false } fi d).map
            (fun r => r.2)
        else some em) with
    | none => simp [hd] at h
    | some em1 =>
      simp only [hd] at h
      obtain ⟨d1, d2, d3, d4, d5, d6, d7⟩ := hdanger em1 hd
      unfold processTraceParallel at h
      dsimp only at h
      rw [d2] at h
      cases ha : readActual em.config fi t with
      | none => simp [ha] at h
      | some actual =>
        simp only [ha, if_true] at h
        revert h
        generalize hj : processJobs forkInput fi actual d (scheduled t.trace t.order) _ = res
        intro h
        cases res with
        | none => simp at h
        | some em2 =>
          simp only [Option.some.injEq] at h
          subst h
          obtain ⟨j1, -, j3, j4, j5, j6, j7, j8⟩ :=
            processJobs_coverage forkInput fi actual d _ _ _ hj
          simp only [true_and] at j7 j8
          refine ⟨actual, rfl, j1.trans d1, j3, j4.trans d3, j5.trans d4,
            j6.trans d5, ?_, ?_⟩
          · intro hs
            obtain ⟨a1, a2⟩ := j7 (by rw [d1]; exact hs)
            rw [d6] at a2
            exact ⟨a1.trans d7, a2⟩
          · intro hs
            obtain ⟨a1, a2⟩ := j8 (by rw [d1]; exact hs)
            rw [d7] at a2
            exact ⟨a1.trans d6, a2⟩
  · rw [if_neg hpar] at h
    rw [if_neg hpar]
    unfold processTraceSequental at h
    cases ha : readActual em.config fi t with
    | none => simp [ha] at h
    | some actual =>
      simp only [ha] at h
      have hdanger : ∀ em1, (if em.config.getCheckDanger = true then
            processJobs forkInput fi actual d t.dangerTrace.enum
              { em with trace_kind := false }
          else some em) = some em1 →
          em1.thread_num = em.thread_num ∧ em1.config = em.config ∧
          em1.is_distributed = em.is_distributed ∧ em1.agents = em.agents ∧
          em1.divergences = em.divergences ∧
          em1.basicBlocksCovered = em.basicBlocksCovered ∧
          em1.delta_basicBlocksCovered = em.delta_basicBlocksCovered := by
        intro em1 h1
        split at h1
        · obtain ⟨j1, -, j3, j4, j5, j6, j7, j8⟩ :=
            processJobs_coverage forkInput fi actual d _ _ _ h1
          refine ⟨j1, j3, j4, j5, j6, ?_, ?_⟩
          · by_cases hs : em.thread_num < 1
            · have := (j7 hs).2
              ext b
              simpa using this b
            · exact (j8 hs).1
          · by_cases hs : em.thread_num < 1
            · exact (j7 hs).1
            · have := (j8 hs).2
              ext b
              simpa using this b
        · injection h1 with h1
          subst h1
          exact ⟨rfl, rfl, rfl, rfl, rfl, rfl, rfl⟩
      cases hd : (if em.config.getCheckDanger = true then
            processJobs forkInput fi actual d t.dangerTrace.enum
              { em with trace_kind := false }
          else some em) with
      | none => simp [hd] at h
      | some em1 =>
        simp only [hd] at h
        obtain ⟨d1, d2, d3, d4, d5, d6, d7⟩ := hdanger em1 hd
        cases hj : processJobs forkInput fi actual d t.trace.enum
            { em1 with trace_kind := true } with
        | none => simp [hj] at h
        | some em2 =>
          simp only [hj, Option.some.injEq] at h
          subst h
          obtain ⟨j1, -, j3, j4, j5, j6, j7, j8⟩ :=
            processJobs_coverage forkInput fi actual d _ _ _ hj
          simp only [true_and] at j7 j8
          refine ⟨actual, rfl, j1.trans d1, j3.trans d2, j4.trans d3, j5.trans d4,
            j6.trans d5, ?_, ?_⟩
          · intro hs
            obtain ⟨a1, a2⟩ := j7 (by rw [d1]; exact hs)
            rw [d6] at a2
            exact ⟨a1.trans d7, a2⟩
          · intro hs
            obtain ⟨a1, a2⟩ := j8 (by rw [d1]; exact hs)
            rw [d7] at a2
            exact ⟨a1.trans d6, a2⟩

theorem talkToServer_frame (polls : List Bool) (w w1 : Wire) (em em1 : ExecutionManager)
    (h : talkToServer polls w em = some (w1, em1)) :
    em1.config = em.config ∧ em1.basicBlocksCovered = em.basicBlocksCovered ∧
      em1.delta_basicBlocksCovered = em.delta_basicBlocksCovered ∧
      em1.exploits = em.exploits ∧ em1.divergences = em.divergences ∧
      em1.memchecks = em.memchecks ∧ em1.report = em.report ∧
      em1.thread_num = em.thread_num ∧ em1.killed = em.killed ∧
      em1.trace_kind = em.trace_kind ∧ em1.agents = em.agents := by
  unfold talkToServer at h
  split at h
  · injection h with h
    injection h with _ h
    subst h
    simp
  · injection h with h
    injection h with _ h
    subst h
    simp
  · cases h

theorem requestNonZeroInput_frame (em : ExecutionManager) (sdl : Int)
    (r : Int × ExecutionManager) (h : requestNonZeroInput em sdl = some r) :
    r.2.basicBlocksCovered = em.basicBlocksCovered ∧
      r.2.delta_basicBlocksCovered = em.delta_basicBlocksCovered ∧
      r.2.thread_num = em.thread_num ∧
      r.2.config.getDepth = em.config.getDepth ∧
      r.2.config.usingSockets = em.config.usingSockets ∧
      r.2.config.usingDatagrams = em.config.usingDatagrams := by
  unfold requestNonZeroInput at h
  cases hl : em.inputs.last with
  | none => simp [hl] at h
  | some it =>
    simp only [hl] at h
    by_cases c1 : it.1.score = 0 ∧ em.config.getAgent = true
    · rw [if_pos c1] at h
      by_cases c2 : sdl > 0
      · rw [if_pos c2] at h
        injection h with h
        subst h
        simp
      · rw [if_neg c2] at h
        injection h with h
        subst h
        simp
    · rw [if_neg c1] at h
      injection h with h
      subst h
      simp

theorem checkDivergence_frame (polls : List Bool) (w : Wire) (em : ExecutionManager)
    (fi : Input) (score : Nat) (dl : Option (Bool × Int))
    (r : Int × Wire × ExecutionManager)
    (h : checkDivergence polls w em fi score dl = some r) :
    r.2.2.config = em.config ∧ r.2.2.basicBlocksCovered = em.basicBlocksCovered ∧
      r.2.2.delta_basicBlocksCovered = em.delta_basicBlocksCovered ∧
      r.2.2.thread_num = em.thread_num := by
  unfold checkDivergence at h
  cases dl with
  | none =>
    simp only [Option.some.injEq] at h
    subst h
    simp
  | some dv =>
    obtain ⟨divergence, dd⟩ := dv
    simp only at h
    cases divergence with
    | false =>
      simp only [Bool.false_eq_true, if_false, Option.some.injEq] at h
      subst h
      simp
    | true =>
      simp only [if_true] at h
      cases hp : fi.parent with
      | none => simp [hp] at h
      | some p =>
        simp only [hp] at h
        by_cases hs : score = 0
        · rw [if_pos hs] at h
          by_cases hdist : em.is_distributed = true
          · rw [if_pos hdist] at h
            cases ht : talkToServer polls w { em with divergences := em.divergences + 1 } with
            | none => simp [ht] at h
            | some res =>
              obtain ⟨w1, em2⟩ := res
              simp only [ht, Option.some.injEq] at h
              subst h
              obtain ⟨t1, t2, t3, -, -, -, -, t8, -⟩ := talkToServer_frame _ _ _ _ _ ht
              exact ⟨t1, t2, t3, t8⟩
          · rw [if_neg hdist] at h
            injection h with h
            subst h
            simp
        · rw [if_neg hs] at h
          injection h with h
          subst h
          simp

theorem readActual_congr {c1 c2 : OptionConfig} (h : c1.getDepth = c2.getDepth)
    (fi : Input) (t : TraceRun) : readActual c1 fi t = readActual c2 fi t := by
  unfold readActual actual_length
  rw [h]

theorem tracedInput_congr {em1 em2 : ExecutionManager}
    (h1 : em1.config.usingSockets = em2.config.usingSockets)
    (h2 : em1.config.usingDatagrams = em2.config.usingDatagrams)
    (fi : Input) (rd : List (List Nat)) : tracedInput em1 fi rd = tracedInput em2 fi rd := by
  unfold tracedInput
  rw [h1, h2]

theorem executedJobs_congr {em1 em2 : ExecutionManager} (h : em1.thread_num = em2.thread_num)
    (t : TraceRun) : executedJobs em1 t = executedJobs em2 t := by
  unfold executedJobs
  rw [h]

theorem runIteration_coverage (forkInput : FileBuffer → List Char → Option FileBuffer)
    (it : IterationRun) (st : RunState) (res : Bool × RunState)
    (h : runIteration forkInput it st = some res) :
    ∃ sel, st.em.inputs.last = some sel ∧
      res.2.em.thread_num = st.em.thread_num ∧
      ((res.2.em.basicBlocksCovered = st.em.basicBlocksCovered ∧
          res.2.em.delta_basicBlocksCovered = ∅) ∨
        ∃ actual,
          readActual st.em.config (tracedInput st.em sel.2 it.replaceData) it.traces
            = some actual ∧
          (∀ b, b ∈ res.2.em.basicBlocksCovered ↔ b ∈ st.em.basicBlocksCovered ∨
            ∃ job ∈ executedJobs st.em it.traces,
              b ∈ scoredBlocks forkInput (tracedInput st.em sel.2 it.replaceData) actual job) ∧
          (st.em.thread_num < 1 → res.2.em.delta_basicBlocksCovered = ∅) ∧
          (¬ st.em.thread_num < 1 → ∀ b, b ∈ res.2.em.delta_basicBlocksCovered ↔
            ∃ job ∈ executedJobs st.em it.traces,
              b ∈ scoredBlocks forkInput (tracedInput st.em sel.2 it.replaceData) actual
                job)) := by
  unfold runIteration at h
  dsimp only at h
  cases hl : st.em.inputs.last with
  | none => simp [hl] at h
  | some sel =>
    simp only [hl] at h
    refine ⟨sel, rfl, ?_⟩
    cases hr : requestNonZeroInput { st.em with delta_basicBlocksCovered := ∅ }
        it.startdepthLog with
    | none => simp [hr] at h
    | some rq =>
      obtain ⟨startdepth, em1⟩ := rq
      simp only [hr] at h
      obtain ⟨r1, r2, r3, r4, r5, r6⟩ := requestNonZeroInput_frame _ _ _ hr
      dsimp only at r1 r2 r3 r4 r5 r6
      -- the state handed to the divergence check
      generalize hem3 : (if decide (startdepth ≠ 0) = true then
          { runTracer em1 it.tracerAlarm with
            inputs := refreshLast (runTracer em1 it.tracerAlarm).inputs
              (tracedInput (runTracer em1 it.tracerAlarm) sel.2 it.replaceData) }
        else runTracer em1 it.tracerAlarm) = em3 at h
      have e3 : em3.basicBlocksCovered = st.em.basicBlocksCovered ∧
          em3.delta_basicBlocksCovered = ∅ ∧ em3.thread_num = st.em.thread_num ∧
          em3.config = em1.config := by
        rw [← hem3]
        split <;> exact ⟨r1, r2, r3, rfl⟩
      obtain ⟨e31, e32, e33, e34⟩ := e3
      have hfi : tracedInput (runTracer em1 it.tracerAlarm) sel.2 it.replaceData
          = tracedInput st.em sel.2 it.replaceData :=
        tracedInput_congr r5 r6 _ _
      rw [hfi] at h
      generalize hdv : (if (em3.config.getDebug && decide (st.runs > 0) &&
              !decide (startdepth ≠ 0)) = true then
            checkDivergence it.divergencePolls st.wire em3
              (tracedInput st.em sel.2 it.replaceData) sel.1.score it.divergenceLog
          else some (0, st.wire, em3)) = dv at h
      cases dv with
      | none => simp at h
      | some dres =>
        obtain ⟨d, w4, em4⟩ := dres
        simp only at h
        have e4 : em4.basicBlocksCovered = st.em.basicBlocksCovered ∧
            em4.delta_basicBlocksCovered = ∅ ∧ em4.thread_num = st.em.thread_num ∧
            em4.config = em1.config := by
          split at hdv
          · obtain ⟨c1, c2, c3, c4⟩ := checkDivergence_frame _ _ _ _ _ _ _ hdv
            exact ⟨c2.trans e31, c3.trans e32, c4.trans e33, c1.trans e34⟩
          · injection hdv with hdv
            injection hdv with _ hdv
            injection hdv with _ hdv
            subst hdv
            exact ⟨e31, e32, e33, e34⟩
        obtain ⟨e41, e42, e43, e44⟩ := e4
        by_cases hd : d ≠ 0
        · rw [if_pos hd] at h
          injection h with h
          subst h
          exact ⟨e43, Or.inl ⟨e41, e42⟩⟩
        · rw [if_neg hd] at h
          by_cases hdump : em4.config.getDumpCalls = true
          · rw [if_pos hdump] at h
            injection h with h
            subst h
            exact ⟨e43, Or.inl ⟨e41, e42⟩⟩
          · rw [if_neg hdump] at h
            cases hp : processTraces forkInput it.traces em4
                (tracedInput st.em sel.2 it.replaceData) sel.1.depth with
            | none => simp [hp] at h
            | some pr =>
              obtain ⟨depth, em5⟩ := pr
              simp only [hp] at h
              obtain ⟨actual, p0, p1, p2, -, -, -, p7, p8⟩ :=
                processTraces_coverage forkInput it.traces em4 _ _ _ hp
              dsimp only at p1 p2 p7 p8
              have hact : readActual st.em.config (tracedInput st.em sel.2 it.replaceData)
                  it.traces = some actual := by
                rw [← p0]
                exact readActual_congr (by rw [e44, r4]) _ _
              have hjobs : executedJobs em4 it.traces = executedJobs st.em it.traces :=
                executedJobs_congr e43 _
              rw [hjobs, e43, e41, e42] at p7 p8
              -- the merged state
              have hm : (mergeDelta em5).thread_num = st.em.thread_num ∧
                  (∀ b, b ∈ (mergeDelta em5).basicBlocksCovered ↔
                    b ∈ st.em.basicBlocksCovered ∨
                    ∃ job ∈ executedJobs st.em it.traces,
                      b ∈ scoredBlocks forkInput (tracedInput st.em sel.2 it.replaceData)
                        actual job) ∧
                  (st.em.thread_num < 1 → (mergeDelta em5).delta_basicBlocksCovered = ∅) ∧
                  (¬ st.em.thread_num < 1 →
                    ∀ b, b ∈ (mergeDelta em5).delta_basicBlocksCovered ↔
                      ∃ job ∈ executedJobs st.em it.traces,
                        b ∈ scoredBlocks forkInput (tracedInput st.em sel.2 it.replaceData)
                          actual job) := by
                refine ⟨p1.trans e43, ?_, ?_, ?_⟩
                · intro b
                  simp only [mergeDelta, Finset.mem_union]
                  by_cases hs : st.em.thread_num < 1
                  · obtain ⟨a1, a2⟩ := p7 hs
                    rw [a1, a2 b]
                    simp
                  · obtain ⟨a1, a2⟩ := p8 hs
                    rw [a1, a2 b]
                    simp
                · intro hs
                  exact (p7 hs).1
                · intro hs b
                  have := (p8 hs).2 b
                  simpa [mergeDelta] using this
              obtain ⟨m1, m2, m3, m4⟩ := hm
              by_cases hdist : (mergeDelta em5).is_distributed = true
              · rw [if_pos hdist] at h
                cases ht : talkToServer it.polls w4 (mergeDelta em5) with
                | none => simp [ht] at h
                | some tr =>
                  obtain ⟨w7, em7⟩ := tr
                  simp only [ht, Option.some.injEq] at h
                  subst h
                  obtain ⟨-, t2, t3, -, -, -, -, t8, -⟩ := talkToServer_frame _ _ _ _ _ ht
                  dsimp only
                  rw [t2, t3, t8]
                  exact ⟨m1, Or.inr ⟨actual, hact, m2, m3, m4⟩⟩
              · rw [if_neg hdist] at h
                injection h with h
                subst h
                exact ⟨m1, Or.inr ⟨actual, hact, m2, m3, m4⟩⟩

/-- C7 (as stated) fails for `thread_num = 0`: scoring the log `[5]` on the
sequential engine puts block 5 into the global set. -/
theorem calculateScore_global_counterexample :
    sampleManager.thread_num = 0 ∧
      (calculateScore (some [5]) sampleManager).2.basicBlocksCovered
        ≠ sampleManager.basicBlocksCovered := by
  decide

/-- C7 (amended): in the pooled variant (`thread_num ≥ 1`) scoring mutates only the
delta set: `calculateScore` leaves the global set unchanged and adds the blocks of
the log to the delta, trace processing leaves the global set unchanged, and the
global set at the end of an iteration of `run` is the global set at its start
merged with the delta. In the sequential variant (`thread_num < 1`)
`calculateScore` inserts the blocks of the log into the global set and leaves the
delta unchanged. -/
theorem scoring_mutates_delta_in_pooled_mode
    (forkInput : FileBuffer → List Char → Option FileBuffer) :
    (∀ (em : ExecutionManager) (log : Option (List Nat)), 1 ≤ em.thread_num →
      (calculateScore log em).2.basicBlocksCovered = em.basicBlocksCovered ∧
      (calculateScore log em).2.delta_basicBlocksCovered
        = em.delta_basicBlocksCovered ∪ (log.getD []).toFinset) ∧
    (∀ (em : ExecutionManager) (log : Option (List Nat)), em.thread_num < 1 →
      (calculateScore log em).2.basicBlocksCovered
        = em.basicBlocksCovered ∪ (log.getD []).toFinset ∧
      (calculateScore log em).2.delta_basicBlocksCovered = em.delta_basicBlocksCovered) ∧
    (∀ (t : TraceRun) (em : ExecutionManager) (fi : Input) (d : Nat)
        (r : Nat × ExecutionManager), 1 ≤ em.thread_num →
      processTraces forkInput t em fi d = some r →
      r.2.basicBlocksCovered = em.basicBlocksCovered) ∧
    (∀ (it : IterationRun) (st : RunState) (res : Bool × RunState),
      1 ≤ st.em.thread_num → runIteration forkInput it st = some res →
      res.2.em.basicBlocksCovered
        = st.em.basicBlocksCovered ∪ res.2.em.delta_basicBlocksCovered) := by
  refine ⟨?_, ?_, ?_, ?_⟩
  · intro em log h
    obtain ⟨-, h2, h3⟩ := calculateScore_pooled log em (by omega)
    exact ⟨h2, h3⟩
  · intro em log h
    obtain ⟨-, h2, h3⟩ := calculateScore_sequential log em h
    exact ⟨h2, h3⟩
  · intro t em fi d r h hp
    obtain ⟨actual, -, -, -, -, -, -, -, p8⟩ := processTraces_coverage forkInput t em fi d r hp
    exact (p8 (by omega)).1
  · intro it st res h hr
    obtain ⟨sel, -, -, hcase⟩ := runIteration_coverage forkInput it st res hr
    rcases hcase with ⟨h1, h2⟩ | ⟨actual, -, h1, -, h2⟩
    · rw [h1, h2, Finset.union_empty]
    · ext b
      rw [Finset.mem_union, h1 b, h2 (by omega) b]

theorem scoring_mutates_delta_in_pooled_mode_witness :
    ((calculateScore (some [5, 7]) samplePooled.em).2.basicBlocksCovered
        = samplePooled.em.basicBlocksCovered ∧
      (calculateScore (some [5, 7]) samplePooled.em).2.delta_basicBlocksCovered
        = samplePooled.em.delta_basicBlocksCovered ∪ ((some [5, 7]).getD []).toFinset) ∧
    ((calculateScore (some [5, 7]) sampleManager).2.basicBlocksCovered
        = sampleManager.basicBlocksCovered ∪ ((some [5, 7]).getD []).toFinset ∧
      (calculateScore (some [5, 7]) sampleManager).2.delta_basicBlocksCovered
        = sampleManager.delta_basicBlocksCovered) ∧
    ((processTraces sampleFork sampleIteration.traces samplePooled.em sampleRoot 0).get
        (by decide)).2.basicBlocksCovered = samplePooled.em.basicBlocksCovered ∧
    ((runIteration sampleFork sampleIteration samplePooled).get
        (by decide)).2.em.basicBlocksCovered
      = samplePooled.em.basicBlocksCovered ∪
        ((runIteration sampleFork sampleIteration samplePooled).get
          (by decide)).2.em.delta_basicBlocksCovered :=
  ⟨(scoring_mutates_delta_in_pooled_mode sampleFork).1 samplePooled.em (some [5, 7])
      (by decide),
    (scoring_mutates_delta_in_pooled_mode sampleFork).2.1 sampleManager (some [5, 7])
      (by decide),
    (scoring_mutates_delta_in_pooled_mode sampleFork).2.2.1 sampleIteration.traces
      samplePooled.em sampleRoot 0 _ (by decide) (Option.some_get _).symm,
    (scoring_mutates_delta_in_pooled_mode sampleFork).2.2.2 sampleIteration samplePooled
      _ (by decide) (Option.some_get _).symm⟩

theorem checkAndScore_pos_iff (em : ExecutionManager) (x : Input) (r : CheckerRun) :
    0 < (checkAndScore em x false r).1 ↔
      ∃ b ∈ r.basicBlocks.getD [], b ∉ em.basicBlocksCovered := by
  by_cases hs : em.thread_num < 1
  · rw [(checkAndScore_sequential em x r hs).1, Finset.card_pos]
    constructor
    · rintro ⟨b, hb⟩
      rw [Finset.mem_sdiff, List.mem_toFinset] at hb
      exact ⟨b, hb.1, hb.2⟩
    · rintro ⟨b, hb1, hb2⟩
      exact ⟨b, by rw [Finset.mem_sdiff, List.mem_toFinset]; exact ⟨hb1, hb2⟩⟩
  · rw [(checkAndScore_pooled em x r hs).1, List.length_pos_iff_exists_mem]
    constructor
    · rintro ⟨b, hb⟩
      rw [List.mem_filter] at hb
      exact ⟨b, hb.1, by simpa using hb.2⟩
    · rintro ⟨b, hb1, hb2⟩
      exact ⟨b, by rw [List.mem_filter]; exact ⟨hb1, by simpa using hb2⟩⟩

theorem processJobs_positive_score (forkInput : FileBuffer → List Char → Option FileBuffer)
    (fi : Input) (actual : List Bool) (d : Nat) :
    ∀ (jobs : List (Nat × QueryRun)) (em em1 : ExecutionManager),
      em.trace_kind = true →
      processJobs forkInput fi actual d jobs em = some em1 →
      ∃ new : List (Key × Input), em1.inputs.Perm (new ++ em.inputs) ∧
        ∀ b, (b ∈ em1.basicBlocksCovered ∨ b ∈ em1.delta_basicBlocksCovered) →
          ¬ (b ∈ em.basicBlocksCovered ∨ b ∈ em.delta_basicBlocksCovered) →
          ∃ e ∈ new, 0 < e.1.score := by
  intro jobs
  induction jobs with
  | nil =>
    intro em em1 _ h
    simp only [processJobs, Option.some.injEq] at h
    subst h
    exact ⟨[], List.Perm.refl _, fun b hb hn => absurd hb hn⟩
  | cons job rest ih =>
    intro em em1 htk h
    rw [processJobs] at h
    cases hq : processQuery forkInput job.2 em fi actual d job.1 with
    | none => simp [hq] at h
    | some r =>
      simp only [hq] at h
      obtain ⟨-, q2, -, -, -, -, q7, q8⟩ :=
        processQuery_coverage forkInput job em fi actual d r hq
      obtain ⟨new1, hperm1, hnew1⟩ := ih r.2 em1 (by rw [q2]; exact htk) h
      obtain ⟨-, hcase⟩ := processQuery_eq forkInput job em fi actual d r hq
      rcases hcase with ⟨-, hr⟩ | ⟨next, hc, hr⟩
      · rw [hr] at hperm1 hnew1
        exact ⟨new1, hperm1, hnew1⟩
      · rw [if_pos htk] at hr
        simp only [htk, Bool.not_true] at hr
        have hin : r.2.inputs.Perm
            ((Key.mk (checkAndScore em next false job.2.checker).1 (d + job.1 + 1), next)
              :: em.inputs) := by
          rw [hr]
          simp only
          rw [(checkAndScore_frame em next false job.2.checker).2.1]
          exact Frontier.insert_perm _ _ _
        refine ⟨new1 ++ [(Key.mk (checkAndScore em next false job.2.checker).1
            (d + job.1 + 1), next)], ?_, ?_⟩
        · refine hperm1.trans ((List.Perm.append_left _ hin).trans ?_)
          simp
        · intro b hb hn
          by_cases hmid : b ∈ r.2.basicBlocksCovered ∨ b ∈ r.2.delta_basicBlocksCovered
          · have hsb : scoredBlocks forkInput fi actual job
                = (job.2.checker.basicBlocks.getD []).toFinset := by
              simp [scoredBlocks, hc]
            have hlog : b ∈ job.2.checker.basicBlocks.getD [] := by
              by_cases hs : em.thread_num < 1
              · obtain ⟨a1, a2⟩ := q7 hs
                rw [a1, a2, if_pos htk, hsb, Finset.mem_union, List.mem_toFinset] at hmid
                tauto
              · obtain ⟨a1, a2⟩ := q8 hs
                rw [a1, a2, if_pos htk, hsb, Finset.mem_union, List.mem_toFinset] at hmid
                tauto
            have hpos := (checkAndScore_pos_iff em next job.2.checker).2
              ⟨b, hlog, fun hG => hn (Or.inl hG)⟩
            exact ⟨_, List.mem_append_right _ (List.mem_singleton.2 rfl), hpos⟩
          · obtain ⟨e, he, hpos⟩ := hnew1 b hb hmid
            exact ⟨e, List.mem_append_left _ he, hpos⟩

theorem runLoop_coverage (forkInput : FileBuffer → List Char → Option FileBuffer) :
    ∀ (its : List IterationRun) (st st1 : RunState),
      runLoop forkInput its st = some st1 →
      st.em.basicBlocksCovered ⊆ st1.em.basicBlocksCovered := by
  intro its
  induction its with
  | nil =>
    intro st st1 h
    simp only [runLoop, Option.some.injEq] at h
    subst h
    exact Finset.Subset.refl _
  | cons it rest ih =>
    intro st st1 h
    rw [runLoop] at h
    by_cases he : st.em.inputs = []
    · rw [if_pos he] at h
      injection h with h
      subst h
      exact Finset.Subset.refl _
    · rw [if_neg he] at h
      cases hr : runIteration forkInput it st with
      | none => simp [hr] at h
      | some res =>
        obtain ⟨sel, -, -, hcase⟩ := runIteration_coverage forkInput it st res hr
        have hsub : st.em.basicBlocksCovered ⊆ res.2.em.basicBlocksCovered := by
          rcases hcase with ⟨h1, -⟩ | ⟨actual, -, h1, -, -⟩
          · rw [h1]
          · intro b hb
            exact (h1 b).2 (Or.inl hb)
        obtain ⟨b, st2⟩ := res
        cases b with
        | true =>
          simp only [hr] at h
          exact hsub.trans (ih st2 st1 h)
        | false =>
          simp only [hr, Option.some.injEq] at h
          subst h
          exact hsub

/-- C8: in every iteration of `run`, and hence across the whole loop, the global
CoverageSet never loses an element; it is strictly larger at the end of an
iteration than at its start only if some child that was scored in the iteration
has a basic-block log holding a block outside the global set of the start (in
pooled mode: only if the delta is not a subset of the old global set). For each
scoring call the score is positive exactly when the log holds a block outside the
global set as it is at the call, and whenever the queries of a trace enlarge the
covered blocks, one of the Frontier entries they insert has a positive score. -/
theorem coverage_monotone (forkInput : FileBuffer → List Char → Option FileBuffer) :
    (∀ (it : IterationRun) (st : RunState) (res : Bool × RunState),
      runIteration forkInput it st = some res →
      st.em.basicBlocksCovered ⊆ res.2.em.basicBlocksCovered ∧
      (st.em.basicBlocksCovered ⊂ res.2.em.basicBlocksCovered →
        ∃ sel actual job next log x,
          st.em.inputs.last = some sel ∧
          readActual st.em.config (tracedInput st.em sel.2 it.replaceData) it.traces
            = some actual ∧
          job ∈ executedJobs st.em it.traces ∧
          childOf forkInput (tracedInput st.em sel.2 it.replaceData) actual job = some next ∧
          job.2.checker.basicBlocks = some log ∧ x ∈ log ∧
          x ∉ st.em.basicBlocksCovered) ∧
      (1 ≤ st.em.thread_num →
        st.em.basicBlocksCovered ⊂ res.2.em.basicBlocksCovered →
        ¬ res.2.em.delta_basicBlocksCovered ⊆ st.em.basicBlocksCovered)) ∧
    (∀ (its : List IterationRun) (st st1 : RunState),
      runLoop forkInput its st = some st1 →
      st.em.basicBlocksCovered ⊆ st1.em.basicBlocksCovered) ∧
    (∀ (em : ExecutionManager) (x : Input) (r : CheckerRun),
      (0 < (checkAndScore em x false r).1 ↔
        ∃ b ∈ r.basicBlocks.getD [], b ∉ em.basicBlocksCovered)) ∧
    (∀ (fi : Input) (actual : List Bool) (d : Nat) (jobs : List (Nat × QueryRun))
        (em em1 : ExecutionManager),
      em.trace_kind = true → processJobs forkInput fi actual d jobs em = some em1 →
      ∃ new : List (Key × Input), em1.inputs.Perm (new ++ em.inputs) ∧
        ∀ b, (b ∈ em1.basicBlocksCovered ∨ b ∈ em1.delta_basicBlocksCovered) →
          ¬ (b ∈ em.basicBlocksCovered ∨ b ∈ em.delta_basicBlocksCovered) →
          ∃ e ∈ new, 0 < e.1.score) := by
  refine ⟨?_, runLoop_coverage forkInput, checkAndScore_pos_iff,
    fun fi actual d => processJobs_positive_score forkInput fi actual d⟩
  · intro it st res hr
    obtain ⟨sel, hsel, -, hcase⟩ := runIteration_coverage forkInput it st res hr
    rcases hcase with ⟨h1, h2⟩ | ⟨actual, hact, h1, h2, h3⟩
    · rw [h1]
      refine ⟨Finset.Subset.refl _, ?_, ?_⟩
      · intro hlt
        exact absurd rfl hlt.ne
      · intro _ hlt
        exact absurd rfl hlt.ne
    · have hsub : st.em.basicBlocksCovered ⊆ res.2.em.basicBlocksCovered := by
        intro b hb
        exact (h1 b).2 (Or.inl hb)
      have hnew : st.em.basicBlocksCovered ⊂ res.2.em.basicBlocksCovered →
          ∃ b, b ∉ st.em.basicBlocksCovered ∧
            ∃ job ∈ executedJobs st.em it.traces,
              b ∈ scoredBlocks forkInput (tracedInput st.em sel.2 it.replaceData) actual
                job := by
        intro hlt
        obtain ⟨b, hb1, hb2⟩ := Finset.exists_of_ssubset hlt
        rcases (h1 b).1 hb1 with h | h
        · exact absurd h hb2
        · exact ⟨b, hb2, h⟩
      refine ⟨hsub, ?_, ?_⟩
      · intro hlt
        obtain ⟨b, hb, job, hjob, hmem⟩ := hnew hlt
        unfold scoredBlocks at hmem
        cases hc : childOf forkInput (tracedInput st.em sel.2 it.replaceData) actual job with
        | none => simp [hc] at hmem
        | some next =>
          simp only [hc, List.mem_toFinset] at hmem
          cases hlog : job.2.checker.basicBlocks with
          | none => simp [hlog] at hmem
          | some log =>
            simp only [hlog, Option.getD_some] at hmem
            exact ⟨sel, actual, job, next, log, b, hsel, hact, hjob, hc, hlog, hmem, hb⟩
      · intro hpool hlt hsubset
        obtain ⟨b, hb, hjob⟩ := hnew hlt
        exact hb (hsubset ((h3 (by omega) b).2 hjob))

theorem coverage_monotone_witness :
    (samplePooled.em.basicBlocksCovered
        ⊆ ((runIteration sampleFork sampleIteration samplePooled).get
          (by decide)).2.em.basicBlocksCovered ∧
      (samplePooled.em.basicBlocksCovered
          ⊂ ((runIteration sampleFork sampleIteration samplePooled).get
            (by decide)).2.em.basicBlocksCovered →
        ∃ sel actual job next log x,
          samplePooled.em.inputs.last = some sel ∧
          readActual samplePooled.em.config
            (tracedInput samplePooled.em sel.2 sampleIteration.replaceData)
            sampleIteration.traces = some actual ∧
          job ∈ executedJobs samplePooled.em sampleIteration.traces ∧
          childOf sampleFork (tracedInput samplePooled.em sel.2 sampleIteration.replaceData)
            actual job = some next ∧
          job.2.checker.basicBlocks = some log ∧ x ∈ log ∧
          x ∉ samplePooled.em.basicBlocksCovered) ∧
      (1 ≤ samplePooled.em.thread_num →
        samplePooled.em.basicBlocksCovered
          ⊂ ((runIteration sampleFork sampleIteration samplePooled).get
            (by decide)).2.em.basicBlocksCovered →
        ¬ ((runIteration sampleFork sampleIteration samplePooled).get
            (by decide)).2.em.delta_basicBlocksCovered
          ⊆ samplePooled.em.basicBlocksCovered)) ∧
    samplePooled.em.basicBlocksCovered
      ⊆ ((runLoop sampleFork [sampleIteration] samplePooled).get
        (by decide)).em.basicBlocksCovered :=
  ⟨(coverage_monotone sampleFork).1 sampleIteration samplePooled _
      (Option.some_get _).symm,
    (coverage_monotone sampleFork).2.1 [sampleIteration] samplePooled _
      (Option.some_get _).symm⟩

/-! ## Properties: order independence in pooled mode -/

theorem processQuery_isSome (forkInput : FileBuffer → List Char → Option FileBuffer)
    (job : Nat × QueryRun) (em : ExecutionManager) (fi : Input) (actual : List Bool)
    (d : Nat) :
    (processQuery forkInput job.2 em fi actual d job.1).isSome
      = jobDefined forkInput fi actual job := by
  unfold processQuery jobDefined
  cases hs : STP_Executor.run (some []) job.2.stp with
  | none => rfl
  | some out =>
    simp only
    cases hf : out.getFile with
    | none => rfl
    | some model =>
      simp only
      cases hd : deriveNext forkInput fi model actual job.1 with
      | discarded => simp
      | undefined => simp
      | child next =>
        simp only
        split <;> simp

theorem processJobs_isSome (forkInput : FileBuffer → List Char → Option FileBuffer)
    (fi : Input) (actual : List Bool) (d : Nat) :
    ∀ (jobs : List (Nat × QueryRun)) (em : ExecutionManager),
      (processJobs forkInput fi actual d jobs em).isSome = true ↔
        ∀ job ∈ jobs, jobDefined forkInput fi actual job = true := by
  intro jobs
  induction jobs with
  | nil => intro em; simp [processJobs]
  | cons job rest ih =>
    intro em
    rw [processJobs]
    have hq := processQuery_isSome forkInput job em fi actual d
    cases hr : processQuery forkInput job.2 em fi actual d job.1 with
    | none =>
      rw [hr] at hq
      simp only [Option.isSome_none] at hq
      simp [← hq]
    | some r =>
      rw [hr] at hq
      simp only [Option.isSome_some] at hq
      simp only [ih r.2, List.mem_cons, forall_eq_or_imp, ← hq, true_and]

theorem processQuery_pooled_inputs (forkInput : FileBuffer → List Char → Option FileBuffer)
    (job : Nat × QueryRun) (em : ExecutionManager) (fi : Input) (actual : List Bool)
    (d : Nat) (r : Int × ExecutionManager) (hp : ¬ em.thread_num < 1)
    (htk : em.trace_kind = true)
    (h : processQuery forkInput job.2 em fi actual d job.1 = some r) :
    r.2.inputs.Perm
      ((pooledEntry forkInput fi actual d em.basicBlocksCovered job).toList ++ em.inputs) := by
  obtain ⟨-, hcase⟩ := processQuery_eq forkInput job em fi actual d r h
  unfold pooledEntry
  rcases hcase with ⟨hc, hr⟩ | ⟨next, hc, hr⟩
  · rw [hr, hc]
    exact List.Perm.refl _
  · rw [if_pos htk] at hr
    simp only [htk, Bool.not_true] at hr
    rw [hr, hc]
    simp only [Option.map_some', Option.toList_some, List.singleton_append]
    rw [(checkAndScore_frame em next false job.2.checker).2.1,
      (checkAndScore_pooled em next job.2.checker hp).1]
    exact Frontier.insert_perm _ _ _

theorem processJobs_pooled_inputs (forkInput : FileBuffer → List Char → Option FileBuffer)
    (fi : Input) (actual : List Bool) (d : Nat) :
    ∀ (jobs : List (Nat × QueryRun)) (em em1 : ExecutionManager),
      ¬ em.thread_num < 1 → em.trace_kind = true →
      processJobs forkInput fi actual d jobs em = some em1 →
      em1.inputs.Perm
        (jobs.filterMap (pooledEntry forkInput fi actual d em.basicBlocksCovered)
          ++ em.inputs) := by
  intro jobs
  induction jobs with
  | nil =>
    intro em em1 _ _ h
    simp only [processJobs, Option.some.injEq] at h
    subst h
    exact List.Perm.refl _
  | cons job rest ih =>
    intro em em1 hp htk h
    rw [processJobs] at h
    cases hq : processQuery forkInput job.2 em fi actual d job.1 with
    | none => simp [hq] at h
    | some r =>
      simp only [hq] at h
      obtain ⟨q1, q2, -, -, -, -, -, q8⟩ :=
        processQuery_coverage forkInput job em fi actual d r hq
      have hG := (q8 hp).1
      have h1 := ih r.2 em1 (by rw [q1]; exact hp) (by rw [q2]; exact htk) h
      rw [hG] at h1
      have h2 := processQuery_pooled_inputs forkInput job em fi actual d r hp htk hq
      refine h1.trans ((List.Perm.append_left _ h2).trans ?_)
      rw [List.filterMap_cons]
      cases pooledEntry forkInput fi actual d em.basicBlocksCovered job with
      | none => exact List.Perm.refl _
      | some e =>
        simp only [Option.toList_some, List.singleton_append]
        exact List.perm_middle

theorem processJobs_perm (forkInput : FileBuffer → List Char → Option FileBuffer)
    (fi : Input) (actual : List Bool) (d : Nat) (jobs jobs1 : List (Nat × QueryRun))
    (em em1 : ExecutionManager) (hperm : jobs.Perm jobs1)
    (hp : ¬ em.thread_num < 1) (htk : em.trace_kind = true)
    (h : processJobs forkInput fi actual d jobs em = some em1) :
    ∃ em2, processJobs forkInput fi actual d jobs1 em = some em2 ∧
      em2.inputs.Perm em1.inputs ∧
      em2.delta_basicBlocksCovered = em1.delta_basicBlocksCovered ∧
      em2.basicBlocksCovered = em1.basicBlocksCovered := by
  have hdef : (processJobs forkInput fi actual d jobs1 em).isSome = true := by
    rw [processJobs_isSome]
    intro job hjob
    have := (processJobs_isSome forkInput fi actual d jobs em).1 (by rw [h]; rfl)
    exact this job (hperm.symm.subset hjob)
  obtain ⟨em2, h2⟩ := Option.isSome_iff_exists.1 hdef
  refine ⟨em2, h2, ?_, ?_, ?_⟩
  · have a1 := processJobs_pooled_inputs forkInput fi actual d jobs em em1 hp htk h
    have a2 := processJobs_pooled_inputs forkInput fi actual d jobs1 em em2 hp htk h2
    exact a2.trans ((List.Perm.append_right _ (hperm.symm.filterMap _)).trans a1.symm)
  · obtain ⟨-, -, -, -, -, -, -, c1⟩ := processJobs_coverage forkInput fi actual d _ _ _ h
    obtain ⟨-, -, -, -, -, -, -, c2⟩ := processJobs_coverage forkInput fi actual d _ _ _ h2
    ext b
    rw [(c1 hp).2 b, (c2 hp).2 b]
    constructor
    · rintro (hb | ⟨ht, job, hj, hb⟩)
      · exact Or.inl hb
      · exact Or.inr ⟨ht, job, hperm.symm.subset hj, hb⟩
    · rintro (hb | ⟨ht, job, hj, hb⟩)
      · exact Or.inl hb
      · exact Or.inr ⟨ht, job, hperm.subset hj, hb⟩
  · obtain ⟨-, -, -, -, -, -, -, c1⟩ := processJobs_coverage forkInput fi actual d _ _ _ h
    obtain ⟨-, -, -, -, -, -, -, c2⟩ := processJobs_coverage forkInput fi actual d _ _ _ h2
    rw [(c1 hp).1, (c2 hp).1]

/-- C9: in pooled mode (`thread_num ≥ 1`) scoring two logs in either order gives
the same two scores, the same delta and the same global set; and when the workers
finish the queries of one trace in another order, `processTraceParallel` returns
the same depth and leaves the same delta, the same global set and a Frontier with
the same entries (as a multiset). -/
theorem pooled_order_independence
    (forkInput : FileBuffer → List Char → Option FileBuffer) :
    (∀ (em : ExecutionManager) (A B : Option (List Nat)), 1 ≤ em.thread_num →
      (calculateScore A em).1 = (calculateScore A (calculateScore B em).2).1 ∧
      (calculateScore B (calculateScore A em).2).1 = (calculateScore B em).1 ∧
      (calculateScore B (calculateScore A em).2).2.delta_basicBlocksCovered
        = (calculateScore A (calculateScore B em).2).2.delta_basicBlocksCovered ∧
      (calculateScore B (calculateScore A em).2).2.basicBlocksCovered
        = (calculateScore A (calculateScore B em).2).2.basicBlocksCovered) ∧
    (∀ (t : TraceRun) (order1 : List Nat) (em : ExecutionManager) (fi : Input) (d : Nat)
        (r : Nat × ExecutionManager),
      1 ≤ em.thread_num → em.trace_kind = true → t.order.Perm order1 →
      processTraceParallel forkInput t em fi d = some r →
      ∃ r1, processTraceParallel forkInput { t with order := order1 } em fi d = some r1 ∧
        r1.1 = r.1 ∧ r1.2.inputs.Perm r.2.inputs ∧
        r1.2.delta_basicBlocksCovered = r.2.delta_basicBlocksCovered ∧
        r1.2.basicBlocksCovered = r.2.basicBlocksCovered) := by
  constructor
  · intro em A B h
    have hp : ¬ em.thread_num < 1 := by omega
    obtain ⟨a1, a2, a3⟩ := calculateScore_pooled A em hp
    obtain ⟨b1, b2, b3⟩ := calculateScore_pooled B em hp
    have hpA : ¬ (calculateScore A em).2.thread_num < 1 := by
      rw [(calculateScore_frame A em).2.2.2.2.2.2.1]; exact hp
    have hpB : ¬ (calculateScore B em).2.thread_num < 1 := by
      rw [(calculateScore_frame B em).2.2.2.2.2.2.1]; exact hp
    obtain ⟨c1, c2, c3⟩ := calculateScore_pooled B _ hpA
    obtain ⟨e1, e2, e3⟩ := calculateScore_pooled A _ hpB
    refine ⟨?_, ?_, ?_, ?_⟩
    · rw [a1, e1, b2]
    · rw [c1, b1, a2]
    · rw [c3, e3, a3, b3, Finset.union_right_comm]
    · rw [c2, e2, a2, b2]
  · intro t order1 em fi d r h htk hperm hr
    have hp : ¬ em.thread_num < 1 := by omega
    unfold processTraceParallel at hr ⊢
    dsimp only at hr ⊢
    cases ha : readActual em.config fi t with
    | none => simp [ha] at hr
    | some actual =>
      have ha1 : readActual em.config fi { t with order := order1 } = some actual := by
        rw [← ha]
        rfl
      simp only [ha, htk, if_true] at hr
      simp only [ha1, htk, if_true]
      cases hj : processJobs forkInput fi actual d (scheduled t.trace t.order) em with
      | none => simp [hj] at hr
      | some em1 =>
        simp only [hj, Option.some.injEq] at hr
        subst hr
        have hsched : (scheduled t.trace t.order).Perm (scheduled t.trace order1) :=
          hperm.filterMap _
        obtain ⟨em2, h2, p1, p2, p3⟩ :=
          processJobs_perm forkInput fi actual d _ _ em em1 hsched hp htk hj
        exact ⟨(t.trace.length, em2), by rw [h2], rfl, p1, p2, p3⟩

theorem pooled_order_independence_witness :
    ((calculateScore (some [5, 7]) samplePooled.em).1
        = (calculateScore (some [5, 7]) (calculateScore (some [7, 9]) samplePooled.em).2).1 ∧
      (calculateScore (some [7, 9]) (calculateScore (some [5, 7]) samplePooled.em).2).1
        = (calculateScore (some [7, 9]) samplePooled.em).1 ∧
      (calculateScore (some [7, 9])
          (calculateScore (some [5, 7]) samplePooled.em).2).2.delta_basicBlocksCovered
        = (calculateScore (some [5, 7])
          (calculateScore (some [7, 9]) samplePooled.em).2).2.delta_basicBlocksCovered ∧
      (calculateScore (some [7, 9])
          (calculateScore (some [5, 7]) samplePooled.em).2).2.basicBlocksCovered
        = (calculateScore (some [5, 7])
          (calculateScore (some [7, 9]) samplePooled.em).2).2.basicBlocksCovered) ∧
    ∃ r1, processTraceParallel sampleFork { sampleIteration.traces with order := [0, 1] }
        samplePooled.em sampleRoot 0 = some r1 ∧
      r1.1 = ((processTraceParallel sampleFork sampleIteration.traces samplePooled.em
        sampleRoot 0).get (by decide)).1 ∧
      r1.2.inputs.Perm ((processTraceParallel sampleFork sampleIteration.traces
        samplePooled.em sampleRoot 0).get (by decide)).2.inputs ∧
      r1.2.delta_basicBlocksCovered = ((processTraceParallel sampleFork
        sampleIteration.traces samplePooled.em sampleRoot 0).get
          (by decide)).2.delta_basicBlocksCovered ∧
      r1.2.basicBlocksCovered = ((processTraceParallel sampleFork sampleIteration.traces
        samplePooled.em sampleRoot 0).get (by decide)).2.basicBlocksCovered :=
  ⟨(pooled_order_independence sampleFork).1 samplePooled.em (some [5, 7]) (some [7, 9])
      (by decide),
    (pooled_order_independence sampleFork).2 sampleIteration.traces [0, 1] samplePooled.em
      sampleRoot 0 _ (by decide) (by decide) (by decide) (Option.some_get _).symm⟩

/-! ## Properties: crash grouping -/

theorem exploitGroup_le (t : List Char) (report : List Chunk) :
    exploitGroup t report ≤ report.length := by
  induction report with
  | nil => simp [exploitGroup]
  | cons c rest ih =>
    unfold exploitGroup
    split
    · simp
    · simp only [List.length_cons]
      omega

theorem exploitGroup_lt_iff (t : List Char) (report : List Chunk) :
    exploitGroup t report < report.length ↔ ∃ c ∈ report, c.trace = some t := by
  induction report with
  | nil => simp [exploitGroup]
  | cons c rest ih =>
    unfold exploitGroup
    by_cases h : c.trace = some t
    · simp [h]
    · simp only [h, if_false, List.length_cons, Nat.add_lt_add_iff_right, ih, List.mem_cons,
        exists_eq_or_imp, false_or]

theorem exploitGroup_first (t : List Char) (report : List Chunk) :
    ∀ j, j < exploitGroup t report → ∀ c, report[j]? = some c → c.trace ≠ some t := by
  induction report with
  | nil => intro j hj; simp [exploitGroup] at hj
  | cons c rest ih =>
    intro j hj d hd
    unfold exploitGroup at hj
    by_cases h : c.trace = some t
    · simp [h] at hj
    · simp only [h, if_false] at hj
      cases j with
      | zero =>
        simp only [List.getElem?_cons_zero, Option.some.injEq] at hd
        subst hd
        exact h
      | succ j =>
        simp only [List.getElem?_cons_succ] at hd
        exact ih j (by omega) d hd

theorem addToGroup_eq (t : List Char) (e : Nat) (n : Int) (report : List Chunk) :
    addToGroup t e n report =
      if exploitGroup t report < report.length then
        some (report.modify (fun c => c.addGroup e n) (exploitGroup t report))
      else none := by
  induction report with
  | nil => simp [addToGroup, exploitGroup]
  | cons c rest ih =>
    unfold addToGroup exploitGroup
    by_cases h : c.trace = some t
    · simp [h]
    · simp only [h, if_false, ih, List.length_cons, Nat.add_lt_add_iff_right]
      split
      · simp
      · simp

theorem recordCrash_some (t : List Char) (e : Nat) (n : Int) (report : List Chunk) :
    recordCrash (some t) e n report =
      if exploitGroup t report < report.length then
        report.modify (fun c => c.addGroup e n) (exploitGroup t report)
      else report ++ [Chunk.mk (some t) [(e, n)]] := by
  unfold recordCrash
  simp only [addToGroup_eq]
  by_cases h : exploitGroup t report < report.length
  · simp only [h, if_true]
  · simp only [h, if_false]

theorem exploitGroup_modify (t : List Char) (e : Nat) (n : Int) (report : List Chunk)
    (i : Nat) :
    exploitGroup t (report.modify (fun c => c.addGroup e n) i) = exploitGroup t report := by
  induction report generalizing i with
  | nil => simp [exploitGroup]
  | cons c rest ih =>
    cases i with
    | zero =>
      simp only [List.modify_zero_cons]
      unfold exploitGroup
      simp [Chunk.addGroup]
    | succ i =>
      simp only [List.modify_succ_cons]
      unfold exploitGroup
      rw [ih]

theorem exploitGroup_append_of_mem (t : List Char) (report extra : List Chunk)
    (h : exploitGroup t report < report.length) :
    exploitGroup t (report ++ extra) = exploitGroup t report := by
  induction report with
  | nil => simp at h
  | cons c rest ih =>
    simp only [List.cons_append]
    unfold exploitGroup at h ⊢
    by_cases hc : c.trace = some t
    · simp [hc]
    · simp only [hc, if_false, List.length_cons, Nat.add_lt_add_iff_right] at h ⊢
      rw [ih h]

theorem exploitGroup_append_new (t : List Char) (report : List Chunk) (g : List (Nat × Int))
    (h : ¬ exploitGroup t report < report.length) :
    exploitGroup t (report ++ [Chunk.mk (some t) g]) = report.length := by
  induction report with
  | nil => simp [exploitGroup]
  | cons c rest ih =>
    simp only [List.cons_append]
    unfold exploitGroup at h ⊢
    by_cases hc : c.trace = some t
    · simp [hc] at h
    · simp only [hc, if_false, List.length_cons, Nat.add_lt_add_iff_right] at h ⊢
      rw [ih h]

theorem exploitGroup_get (t : List Char) (report : List Chunk)
    (h : exploitGroup t report < report.length) :
    ∃ c, report[exploitGroup t report]? = some c ∧ c.trace = some t := by
  induction report with
  | nil => simp at h
  | cons c rest ih =>
    unfold exploitGroup at h ⊢
    by_cases hc : c.trace = some t
    · simp [hc]
    · simp only [hc, if_false, List.length_cons, Nat.add_lt_add_iff_right] at h ⊢
      simpa using ih h

theorem recordCrash_keeps_group (t : List Char) (f : Option (List Char)) (e : Nat) (n : Int)
    (report : List Chunk) (h : exploitGroup t report < report.length) :
    exploitGroup t (recordCrash f e n report) = exploitGroup t report ∧
      exploitGroup t (recordCrash f e n report) < (recordCrash f e n report).length := by
  have key : exploitGroup t (recordCrash f e n report) = exploitGroup t report ∧
      report.length ≤ (recordCrash f e n report).length := by
    cases f with
    | none =>
      unfold recordCrash
      exact ⟨exploitGroup_append_of_mem t report _ h, by simp⟩
    | some t1 =>
      rw [recordCrash_some]
      split
      · exact ⟨exploitGroup_modify t e n report _, by simp⟩
      · exact ⟨exploitGroup_append_of_mem t report _ h, by simp⟩
  exact ⟨key.1, by rw [key.1]; omega⟩

theorem crashes_keep_group (t : List Char) :
    ∀ (others : List (Option (List Char) × Nat × Int)) (report : List Chunk),
      exploitGroup t report < report.length →
      exploitGroup t (others.foldl (fun r c => recordCrash c.1 c.2.1 c.2.2 r) report)
        = exploitGroup t report := by
  intro others
  induction others with
  | nil => intro report _; rfl
  | cons c rest ih =>
    intro report h
    obtain ⟨h1, h2⟩ := recordCrash_keeps_group t c.1 c.2.1 c.2.2 report h
    rw [List.foldl_cons, ih _ h2, h1]

/-- C11: a crash with filtered trace `t` is added to an existing group, the report
keeping its length, exactly when some group has the trace `t`, and then to the
first such group; otherwise one new group with trace `t` is appended. A crash
without a trace always appends a new trace-less group. Two crashes with equal
traces are filed under the same group index, whatever crashes come between
them. -/
theorem crash_grouping (t : List Char) (e : Nat) (n : Int) (report : List Chunk) :
    ((recordCrash (some t) e n report).length = report.length ↔
      ∃ c ∈ report, c.trace = some t) ∧
    ((∃ c ∈ report, c.trace = some t) →
      recordCrash (some t) e n report
        = report.modify (fun c => c.addGroup e n) (crashGroup (some t) report) ∧
      (∃ c, report[crashGroup (some t) report]? = some c ∧ c.trace = some t) ∧
      ∀ j, j < crashGroup (some t) report → ∀ c, report[j]? = some c → c.trace ≠ some t) ∧
    ((¬ ∃ c ∈ report, c.trace = some t) →
      recordCrash (some t) e n report = report ++ [Chunk.mk (some t) [(e, n)]] ∧
      crashGroup (some t) report = report.length) ∧
    (recordCrash none e n report = report ++ [Chunk.mk none [(e, n)]] ∧
      crashGroup none report = report.length) ∧
    (∀ others : List (Option (List Char) × Nat × Int),
      crashGroup (some t)
          (others.foldl (fun r c => recordCrash c.1 c.2.1 c.2.2 r)
            (recordCrash (some t) e n report))
        = crashGroup (some t) report) ∧
    (∀ (em : ExecutionManager) (input : Input) (b : Bool) (r : CheckerRun),
      hasCrashed em.thread_num em.killed r = true →
      (triage em input b r).report
        = recordCrash r.filtered em.exploits
          (if em.config.usingSockets || em.config.usingDatagrams then -1
            else (input.files.length : Int)) em.report) := by
  have hiff := exploitGroup_lt_iff t report
  refine ⟨?_, ?_, ?_, ⟨rfl, rfl⟩, ?_, ?_⟩
  · rw [recordCrash_some, ← hiff]
    by_cases h : exploitGroup t report < report.length
    · simp [h]
    · simp [h]
  · intro hex
    have h := hiff.2 hex
    refine ⟨?_, exploitGroup_get t report h, exploitGroup_first t report⟩
    rw [recordCrash_some, if_pos h]
    rfl
  · intro hex
    have h : ¬ exploitGroup t report < report.length := fun h => hex (hiff.1 h)
    refine ⟨by rw [recordCrash_some, if_neg h], ?_⟩
    have := exploitGroup_le t report
    show exploitGroup t report = report.length
    omega
  · intro others
    show exploitGroup t _ = exploitGroup t report
    have hfirst : exploitGroup t (recordCrash (some t) e n report) = exploitGroup t report ∧
        exploitGroup t (recordCrash (some t) e n report)
          < (recordCrash (some t) e n report).length := by
      by_cases h : exploitGroup t report < report.length
      · exact recordCrash_keeps_group t (some t) e n report h
      · rw [recordCrash_some, if_neg h, exploitGroup_append_new t report _ h]
        have := exploitGroup_le t report
        refine ⟨by omega, by simp⟩
    rw [crashes_keep_group t others _ hfirst.2, hfirst.1]
  · intro em input b r h
    unfold triage
    rw [if_pos h]

theorem crash_grouping_witness :
    (recordCrash (some ['a']) 2 1 [⟨none, [(0, 1)]⟩, ⟨some ['a'], [(1, 1)]⟩]
        = List.modify (fun c => c.addGroup 2 1)
          (crashGroup (some ['a']) [⟨none, [(0, 1)]⟩, ⟨some ['a'], [(1, 1)]⟩])
          [⟨none, [(0, 1)]⟩, ⟨some ['a'], [(1, 1)]⟩] ∧
      (∃ c, [(⟨none, [(0, 1)]⟩ : Chunk), ⟨some ['a'], [(1, 1)]⟩][crashGroup (some ['a'])
          [⟨none, [(0, 1)]⟩, ⟨some ['a'], [(1, 1)]⟩]]? = some c ∧ c.trace = some ['a']) ∧
      ∀ j, j < crashGroup (some ['a']) [⟨none, [(0, 1)]⟩, ⟨some ['a'], [(1, 1)]⟩] →
        ∀ c, [(⟨none, [(0, 1)]⟩ : Chunk), ⟨some ['a'], [(1, 1)]⟩][j]? = some c →
          c.trace ≠ some ['a']) ∧
    (recordCrash (some ['b']) 2 1 [⟨none, [(0, 1)]⟩, ⟨some ['a'], [(1, 1)]⟩]
        = [⟨none, [(0, 1)]⟩, ⟨some ['a'], [(1, 1)]⟩] ++ [Chunk.mk (some ['b']) [(2, 1)]] ∧
      crashGroup (some ['b']) [⟨none, [(0, 1)]⟩, ⟨some ['a'], [(1, 1)]⟩]
        = [(⟨none, [(0, 1)]⟩ : Chunk), ⟨some ['a'], [(1, 1)]⟩].length) ∧
    (triage sampleManager sampleRoot false { sampleChecker [] with exitCode := -1 }).report
      = recordCrash ({ sampleChecker [] with exitCode := -1 } : CheckerRun).filtered
        sampleManager.exploits
        (if sampleManager.config.usingSockets || sampleManager.config.usingDatagrams then -1
          else (sampleRoot.files.length : Int)) sampleManager.report :=
  ⟨(crash_grouping ['a'] 2 1 [⟨none, [(0, 1)]⟩, ⟨some ['a'], [(1, 1)]⟩]).2.1 (by decide),
    (crash_grouping ['b'] 2 1 [⟨none, [(0, 1)]⟩, ⟨some ['a'], [(1, 1)]⟩]).2.2.1 (by decide),
    (crash_grouping [] 0 0 []).2.2.2.2.2 sampleManager sampleRoot false
      { sampleChecker [] with exitCode := -1 } (by decide)⟩

/-! ## Properties: queries without a child -/

theorem forkFiles_eq_none_iff (forkInput : FileBuffer → List Char → Option FileBuffer)
    (model : List Char) (files : List FileBuffer) :
    forkFiles forkInput model files = none ↔ ∃ fb ∈ files, forkInput fb model = none := by
  induction files with
  | nil => simp [forkFiles]
  | cons fb rest ih =>
    unfold forkFiles
    cases h : forkInput fb model with
    | none => simp [h]
    | some fb1 =>
      simp only [List.mem_cons, exists_eq_or_imp, h, false_or, ← ih]
      cases forkFiles forkInput model rest <;> simp

/-- C19: when the solver yields no output (null `STP_Input`, failure of `exec` or
`wait`, non-zero exit code, or no output file) or `forkInput` returns NULL for a
blob of the parent, `processQuery` returns 1 and leaves the whole state as it
was: the checker is not run, and the Frontier, the crash report, the exploits
counter and both coverage sets are unchanged. -/
theorem processQuery_without_child
    (forkInput : FileBuffer → List Char → Option FileBuffer) (q : QueryRun)
    (em : ExecutionManager) (fi : Input) (actual : List Bool) (d i : Nat) :
    STP_Executor.run none q.stp = none ∧
    ((q.stp.execRet = -1 ∨ q.stp.waitRet = -1 ∨ q.stp.waitRet ≠ 0) →
      STP_Executor.run (some []) q.stp = none) ∧
    (STP_Executor.run (some []) q.stp = none →
      processQuery forkInput q em fi actual d i = some (1, em)) ∧
    (STP_Executor.run (some []) q.stp = some ⟨none⟩ →
      processQuery forkInput q em fi actual d i = some (1, em)) ∧
    (∀ model, STP_Executor.run (some []) q.stp = some ⟨some model⟩ →
      (∃ fb ∈ fi.files, forkInput fb model = none) →
      processQuery forkInput q em fi actual d i = some (1, em)) := by
  refine ⟨rfl, ?_, ?_, ?_, ?_⟩
  · intro h
    unfold STP_Executor.run
    simp only
    rcases h with h | h | h
    · rw [if_pos h]
    · by_cases h1 : q.stp.execRet = -1
      · rw [if_pos h1]
      · rw [if_neg h1, if_pos h]
    · by_cases h1 : q.stp.execRet = -1
      · rw [if_pos h1]
      · by_cases h2 : q.stp.waitRet = -1
        · rw [if_neg h1, if_pos h2]
        · rw [if_neg h1, if_neg h2, if_pos h]
  · intro h
    unfold processQuery
    rw [h]
  · intro h
    unfold processQuery
    rw [h]
  · intro model h hfb
    have hf := (forkFiles_eq_none_iff forkInput model fi.files).2 hfb
    unfold processQuery deriveNext
    rw [h]
    simp only [hf]

theorem processQuery_without_child_witness :
    STP_Executor.run (some []) ({ execRet := 0, waitRet := 1, exportFile := some [] } : StpRun)
        = none ∧
      processQuery sampleFork ⟨{ execRet := 0, waitRet := 1, exportFile := some [] },
          sampleChecker [4096]⟩ samplePooled.em sampleRoot [true] 0 0
        = some (1, samplePooled.em) ∧
      processQuery (fun _ _ => none) ⟨sampleStp, sampleChecker [4096]⟩ samplePooled.em
          sampleRoot [true] 0 0
        = some (1, samplePooled.em) :=
  ⟨(processQuery_without_child sampleFork
      ⟨{ execRet := 0, waitRet := 1, exportFile := some [] }, sampleChecker [4096]⟩
      samplePooled.em sampleRoot [true] 0 0).2.1 (by decide),
    (processQuery_without_child sampleFork
      ⟨{ execRet := 0, waitRet := 1, exportFile := some [] }, sampleChecker [4096]⟩
      samplePooled.em sampleRoot [true] 0 0).2.2.1 (by decide),
    (processQuery_without_child (fun _ _ => none) ⟨sampleStp, sampleChecker [4096]⟩
      samplePooled.em sampleRoot [true] 0 0).2.2.2.2 [] (by decide)
      ⟨⟨"in", [104, 101, 108, 108, 111]⟩, by decide, rfl⟩⟩

/-! ## Properties: the coordinator dialogue -/

theorem writeToSocket_ok (w : Wire) (p : Packet) (h : w.writesLeft = none) :
    writeToSocket w p = ({ w with sent := w.sent ++ written [p] }, true) := by
  unfold writeToSocket written
  by_cases hc : p.count = 0
  · simp [hc]
  · simp [hc, h]

theorem frontier_two_le {f : Frontier} (h : 2 ≤ f.length) :
    ∃ pre e lst, f = pre ++ [e, lst] := by
  rcases List.eq_nil_or_concat f with h0 | ⟨l1, lst, h1⟩
  · subst h0; simp at h
  · subst h1
    rcases List.eq_nil_or_concat l1 with h0 | ⟨pre, e, h2⟩
    · subst h0; simp at h
    · subst h2
      exact ⟨pre, e, lst, by simp⟩

theorem getElem_before_last (pre : Frontier) (e lst : Key × Input) :
    (pre ++ [e, lst])[(pre ++ [e, lst]).length - 2]? = some e := by
  have : (pre ++ [e, lst]).length - 2 = pre.length := by simp
  rw [this, List.getElem?_append_right (le_refl _)]
  simp

theorem eraseIdx_before_last (pre : Frontier) (e lst : Key × Input) :
    (pre ++ [e, lst]).eraseIdx ((pre ++ [e, lst]).length - 2) = pre ++ [lst] := by
  have : (pre ++ [e, lst]).length - 2 = pre.length := by simp
  rw [this, List.eraseIdx_append_of_length_le (le_refl _)]
  simp

theorem sendInputs_step (packets : Input → List Packet) (limit : Int) (size : Nat)
    (w : Wire) (pre : Frontier) (e lst : Key × Input) :
    sendInputs packets limit (size + 1) w (pre ++ [e, lst]) =
      if atFloor (pre ++ [e, lst]) limit then Sending.left (size + 1) w (pre ++ [e, lst])
      else
        match writeAll (packets e.2) w with
        | (w1, false) => Sending.thrown w1 (pre ++ [e, lst])
        | (w1, true) => sendInputs packets limit size w1 (pre ++ [lst]) := by
  rw [sendInputs]
  split
  · rfl
  · rw [if_neg (by simp), getElem_before_last, eraseIdx_before_last]

theorem dropBeforeLast_step (k : Nat) (pre : Frontier) (e lst : Key × Input) :
    dropBeforeLast (k + 1) (pre ++ [e, lst]) = dropBeforeLast k (pre ++ [lst]) := by
  unfold dropBeforeLast
  have h1 : (pre ++ [e, lst]).dropLast = pre ++ [e] := by
    rw [show pre ++ [e, lst] = (pre ++ [e]) ++ [lst] by simp, List.dropLast_concat]
  have h2 : (pre ++ [lst]).dropLast = pre := List.dropLast_concat
  rw [h1, h2]
  simp

theorem dropBeforeLast_zero (f : Frontier) : dropBeforeLast 0 f = f := by
  unfold dropBeforeLast
  rcases List.eq_nil_or_concat f with h0 | ⟨l1, lst, h1⟩
  · subst h0; simp
  · subst h1
    simp

theorem dropBeforeLast_add (k1 k2 : Nat) (f : Frontier) :
    dropBeforeLast k2 (dropBeforeLast k1 f) = dropBeforeLast (k1 + k2) f := by
  unfold dropBeforeLast
  rcases List.eq_nil_or_concat f with h0 | ⟨l1, lst, h1⟩
  · subst h0; simp
  · subst h1
    simp [List.drop_drop, Nat.add_comm]

theorem dropBeforeLast_sublist (k : Nat) (f : Frontier) :
    (dropBeforeLast k f).Sublist f := by
  unfold dropBeforeLast
  rcases List.eq_nil_or_concat f with h0 | ⟨l1, lst, h1⟩
  · subst h0; simp
  · subst h1
    simp only [List.concat_eq_append]
    rw [List.dropLast_concat, List.getLast?_concat, Option.toList_some]
    refine List.Sublist.append ?_ (List.Sublist.refl _)
    have h := (List.drop_sublist k l1.reverse).reverse
    rwa [List.reverse_reverse] at h

theorem sendInputs_keeps (packets : Input → List Packet) (L : Int) :
    ∀ (size : Nat) (w : Wire) (f : Frontier),
      sendInputs packets L size w f = Sending.undefined ∨
      ∃ k w1, (∃ n, sendInputs packets L size w f = Sending.left n w1 (dropBeforeLast k f)) ∨
        sendInputs packets L size w f = Sending.thrown w1 (dropBeforeLast k f) := by
  intro size
  induction size with
  | zero =>
    intro w f
    exact Or.inr ⟨0, w, Or.inl ⟨0, by rw [dropBeforeLast_zero]; rfl⟩⟩
  | succ size ih =>
    intro w f
    by_cases hfl : atFloor f L = true
    · refine Or.inr ⟨0, w, Or.inl ⟨size + 1, ?_⟩⟩
      rw [sendInputs, if_pos hfl, dropBeforeLast_zero]
    · by_cases hn : f.length < 2
      · left
        rw [sendInputs, if_neg hfl, if_pos hn]
      · obtain ⟨pre, e, lst, rfl⟩ := frontier_two_le (by omega : 2 ≤ f.length)
        rw [sendInputs_step, if_neg hfl]
        cases hwa : writeAll (packets e.2) w with
        | mk w1 ok =>
          cases ok with
          | false =>
            simp only
            exact Or.inr ⟨0, w1, Or.inr (by rw [dropBeforeLast_zero])⟩
          | true =>
            simp only
            rcases ih w1 (pre ++ [lst]) with h | ⟨k, w2, h⟩
            · exact Or.inl h
            · refine Or.inr ⟨k + 1, w2, ?_⟩
              rw [dropBeforeLast_step]
              exact h

theorem answer_keeps (packets : Input → List Packet) (L : Int) (w : Wire) (f : Frontier) :
    answer packets L w f = Sending.undefined ∨
      ∃ k w1, (∃ n, answer packets L w f = Sending.left n w1 (dropBeforeLast k f)) ∨
        answer packets L w f = Sending.thrown w1 (dropBeforeLast k f) := by
  unfold answer
  cases hw1 : writeToSocket w (Packet.char 'r') with
  | mk w1 ok =>
    cases ok with
    | false =>
      simp only
      exact Or.inr ⟨0, w1, Or.inr (by rw [dropBeforeLast_zero])⟩
    | true =>
      simp only
      cases hr : readFromSocket w1 with
      | mk w2 v =>
        cases v with
        | none =>
          simp only
          exact Or.inr ⟨0, w2, Or.inr (by rw [dropBeforeLast_zero])⟩
        | some size =>
          simp only
          rcases sendInputs_keeps packets L size.toNat w2 f with h | ⟨k, w3, ⟨n, h⟩ | h⟩
          · left
            rw [h]
          · rw [h]
            simp only
            cases hz : sendZeros n w3 with
            | mk w4 ok2 =>
              cases ok2 with
              | true => exact Or.inr ⟨k, w4, Or.inl ⟨0, rfl⟩⟩
              | false => exact Or.inr ⟨k, w4, Or.inr rfl⟩
          · rw [h]
            exact Or.inr ⟨k, w3, Or.inr rfl⟩

theorem serveCommands_keeps (config : OptionConfig) (L : Int) :
    ∀ (polls : List Bool) (w : Wire) (f : Frontier),
      serveCommands config L polls w f = Sending.undefined ∨
      ∃ k w1, (∃ n, serveCommands config L polls w f = Sending.left n w1 (dropBeforeLast k f)) ∨
        serveCommands config L polls w f = Sending.thrown w1 (dropBeforeLast k f) := by
  intro polls
  induction polls with
  | nil =>
    intro w f
    exact Or.inr ⟨0, w, Or.inl ⟨0, by rw [dropBeforeLast_zero]; rfl⟩⟩
  | cons p polls ih =>
    intro w f
    cases p with
    | false => exact Or.inr ⟨0, w, Or.inl ⟨0, by rw [dropBeforeLast_zero]; rfl⟩⟩
    | true =>
      rw [serveCommands]
      cases hr : readFromSocket w with
      | mk w1 v =>
        cases v with
        | none =>
          simp only
          exact Or.inr ⟨0, w1, Or.inr (by rw [dropBeforeLast_zero])⟩
        | some c =>
          simp only
          have hbranch : ∀ packets : Input → List Packet,
              (match answer packets L w1 f with
                | Sending.left _ w2 inputs2 => serveCommands config L polls w2 inputs2
                | other => other) = Sending.undefined ∨
              ∃ k w3, (∃ n, (match answer packets L w1 f with
                  | Sending.left _ w2 inputs2 => serveCommands config L polls w2 inputs2
                  | other => other) = Sending.left n w3 (dropBeforeLast k f)) ∨
                (match answer packets L w1 f with
                  | Sending.left _ w2 inputs2 => serveCommands config L polls w2 inputs2
                  | other => other) = Sending.thrown w3 (dropBeforeLast k f) := by
            intro packets
            rcases answer_keeps packets L w1 f with h | ⟨k, w2, ⟨n, h⟩ | h⟩
            · left
              rw [h]
            · rw [h]
              simp only
              rcases ih w2 (dropBeforeLast k f) with h2 | ⟨k2, w3, ⟨n2, h2⟩ | h2⟩
              · exact Or.inl h2
              · rw [dropBeforeLast_add] at h2
                exact Or.inr ⟨k + k2, w3, Or.inl ⟨n2, h2⟩⟩
              · rw [dropBeforeLast_add] at h2
                exact Or.inr ⟨k + k2, w3, Or.inr h2⟩
            · rw [h]
              exact Or.inr ⟨k, w2, Or.inr rfl⟩
          by_cases hc : c = 97
          · rw [if_pos hc]
            exact hbranch _
          · rw [if_neg hc]
            by_cases hg : c = 103
            · rw [if_pos hg]
              exact hbranch _
            · rw [if_neg hg]
              cases hw : writeToSocket w1 (Packet.int 0) with
              | mk w2 ok =>
                cases ok with
                | true =>
                  simp only
                  exact ih w2 f
                | false =>
                  simp only
                  exact Or.inr ⟨0, w2, Or.inr (by rw [dropBeforeLast_zero])⟩

theorem talkToServer_inputs (polls : List Bool) (w w1 : Wire) (em em1 : ExecutionManager)
    (h : talkToServer polls w em = some (w1, em1)) :
    ∃ k, em1.inputs = dropBeforeLast k em.inputs := by
  unfold talkToServer at h
  rcases serveCommands_keeps em.config (limit em) polls w em.inputs with
    hu | ⟨k, w2, ⟨n, hl⟩ | ht⟩
  · rw [hu] at h
    cases h
  · rw [hl] at h
    simp only [Option.some.injEq, Prod.mk.injEq] at h
    exact ⟨k, by rw [← h.2]⟩
  · rw [ht] at h
    simp only [Option.some.injEq, Prod.mk.injEq] at h
    exact ⟨k, by rw [← h.2]⟩

theorem runIteration_cases (forkInput : FileBuffer → List Char → Option FileBuffer)
    (it : IterationRun) (st : RunState) (res : Bool × RunState)
    (h : runIteration forkInput it st = some res) :
    ∃ sel sd em1 d w4 em4,
      st.em.inputs.last = some sel ∧
      requestNonZeroInput { st.em with delta_basicBlocksCovered := ∅ } it.startdepthLog
        = some (sd, em1) ∧
      divergenceStage it st sd em1 sel = some (d, w4, em4) ∧
      ((d ≠ 0 ∧ res = (true, ⟨em4, w4, st.runs + 1⟩)) ∨
        (d = 0 ∧ em4.config.getDumpCalls = true ∧ res = (false, ⟨em4, w4, st.runs⟩)) ∨
        (d = 0 ∧ em4.config.getDumpCalls = false ∧
          ∃ n em5, processTraces forkInput it.traces em4 (iterationInput it em1 sel)
              sel.1.depth = some (n, em5) ∧
            (((mergeDelta em5).is_distributed = false ∧
                res = (true, ⟨mergeDelta em5, w4, st.runs + 1⟩)) ∨
              ((mergeDelta em5).is_distributed = true ∧
                ∃ w7 em7, talkToServer it.polls w4 (mergeDelta em5) = some (w7, em7) ∧
                  res = (true, ⟨em7, w7, st.runs + 1⟩))))) := by
  unfold runIteration at h
  dsimp only at h
  cases hl : st.em.inputs.last with
  | none => simp [hl] at h
  | some sel =>
    simp only [hl] at h
    cases hr : requestNonZeroInput { st.em with delta_basicBlocksCovered := ∅ }
        it.startdepthLog with
    | none => simp [hr] at h
    | some rq =>
      obtain ⟨sd, em1⟩ := rq
      simp only [hr] at h
      have hstage : (if ((if decide (sd ≠ 0) = true then
              { runTracer em1 it.tracerAlarm with
                inputs := refreshLast (runTracer em1 it.tracerAlarm).inputs
                  (tracedInput (runTracer em1 it.tracerAlarm) sel.2 it.replaceData) }
            else runTracer em1 it.tracerAlarm).config.getDebug && decide (st.runs > 0) &&
              !decide (sd ≠ 0)) = true then
            checkDivergence it.divergencePolls st.wire
              (if decide (sd ≠ 0) = true then
                { runTracer em1 it.tracerAlarm with
                  inputs := refreshLast (runTracer em1 it.tracerAlarm).inputs
                    (tracedInput (runTracer em1 it.tracerAlarm) sel.2 it.replaceData) }
              else runTracer em1 it.tracerAlarm)
              (tracedInput (runTracer em1 it.tracerAlarm) sel.2 it.replaceData) sel.1.score
              it.divergenceLog
          else some (0, st.wire, if decide (sd ≠ 0) = true then
                { runTracer em1 it.tracerAlarm with
                  inputs := refreshLast (runTracer em1 it.tracerAlarm).inputs
                    (tracedInput (runTracer em1 it.tracerAlarm) sel.2 it.replaceData) }
              else runTracer em1 it.tracerAlarm)) = divergenceStage it st sd em1 sel := rfl
      rw [hstage] at h
      have hfi : tracedInput (runTracer em1 it.tracerAlarm) sel.2 it.replaceData
          = iterationInput it em1 sel := rfl
      rw [hfi] at h
      cases hdv : divergenceStage it st sd em1 sel with
      | none => simp [hdv] at h
      | some dres =>
        obtain ⟨d, w4, em4⟩ := dres
        simp only [hdv] at h
        refine ⟨sel, sd, em1, d, w4, em4, rfl, rfl, hdv, ?_⟩
        by_cases hd : d ≠ 0
        · rw [if_pos hd] at h
          injection h with h
          exact Or.inl ⟨hd, h.symm⟩
        · rw [if_neg hd] at h
          have hd0 : d = 0 := not_not.mp hd
          by_cases hdump : em4.config.getDumpCalls = true
          · rw [if_pos hdump] at h
            injection h with h
            exact Or.inr (Or.inl ⟨hd0, hdump, h.symm⟩)
          · rw [if_neg hdump] at h
            have hdump0 : em4.config.getDumpCalls = false := by
              simpa using hdump
            refine Or.inr (Or.inr ⟨hd0, hdump0, ?_⟩)
            cases hp : processTraces forkInput it.traces em4 (iterationInput it em1 sel)
                sel.1.depth with
            | none => simp [hp] at h
            | some pr =>
              obtain ⟨n, em5⟩ := pr
              simp only [hp] at h
              refine ⟨n, em5, rfl, ?_⟩
              by_cases hdist : (mergeDelta em5).is_distributed = true
              · rw [if_pos hdist] at h
                cases ht : talkToServer it.polls w4 (mergeDelta em5) with
                | none => simp [ht] at h
                | some tr =>
                  obtain ⟨w7, em7⟩ := tr
                  simp only [ht, Option.some.injEq] at h
                  exact Or.inr ⟨hdist, w7, em7, rfl, h.symm⟩
              · rw [if_neg hdist] at h
                injection h with h
                exact Or.inl ⟨by simpa using hdist, h.symm⟩

theorem requestNonZeroInput_cases (em : ExecutionManager) (sdl sd : Int)
    (em1 : ExecutionManager) (h : requestNonZeroInput em sdl = some (sd, em1)) :
    (sd ≠ 0 ∧ sd = sdl ∧ em1 = em) ∨
      (sd = 0 ∧ em1 = { em with inputs := em.inputs.eraseLast }) ∨
      (sd = 0 ∧ em1 = { em with
        config := { em.config with getAgent := false }
        inputs := em.inputs.eraseLast }) := by
  unfold requestNonZeroInput at h
  cases hl : em.inputs.last with
  | none => simp [hl] at h
  | some it =>
    simp only [hl] at h
    by_cases c1 : it.1.score = 0 ∧ em.config.getAgent = true
    · rw [if_pos c1] at h
      by_cases c2 : sdl > 0
      · rw [if_pos c2] at h
        injection h with h
        injection h with h1 h2
        exact Or.inl ⟨by omega, h1.symm, h2.symm⟩
      · rw [if_neg c2] at h
        injection h with h
        injection h with h1 h2
        exact Or.inr (Or.inr ⟨h1.symm, h2.symm⟩)
    · rw [if_neg c1] at h
      injection h with h
      injection h with h1 h2
      exact Or.inr (Or.inl ⟨h1.symm, h2.symm⟩)

theorem checkDivergence_inputs (polls : List Bool) (w : Wire) (em : ExecutionManager)
    (fi : Input) (score : Nat) (dl : Option (Bool × Int))
    (r : Int × Wire × ExecutionManager)
    (h : checkDivergence polls w em fi score dl = some r) :
    r.2.2.inputs.Sublist em.inputs ∧
      (r.1 = 0 → r.2.1 = w ∧ r.2.2.inputs = em.inputs ∧
        r.2.2.is_distributed = em.is_distributed) ∧
      (em.is_distributed = false → r.2.1 = w ∧ r.2.2.is_distributed = false ∧
        r.2.2.inputs = em.inputs) := by
  unfold checkDivergence at h
  cases dl with
  | none =>
    simp only [Option.some.injEq] at h
    subst h
    simp
  | some dv =>
    obtain ⟨divergence, dd⟩ := dv
    simp only at h
    cases divergence with
    | false =>
      simp only [Bool.false_eq_true, if_false, Option.some.injEq] at h
      subst h
      simp
    | true =>
      simp only [if_true] at h
      cases hp : fi.parent with
      | none => simp [hp] at h
      | some p =>
        simp only [hp] at h
        by_cases hs : score = 0
        · rw [if_pos hs] at h
          by_cases hdist : em.is_distributed = true
          · rw [if_pos hdist] at h
            cases ht : talkToServer polls w { em with divergences := em.divergences + 1 } with
            | none => simp [ht] at h
            | some res =>
              obtain ⟨w1, em2⟩ := res
              simp only [ht, Option.some.injEq] at h
              subst h
              obtain ⟨k, hk⟩ := talkToServer_inputs _ _ _ _ _ ht
              refine ⟨?_, ?_, ?_⟩
              · rw [hk]
                exact dropBeforeLast_sublist k em.inputs
              · intro h0
                simp at h0
              · intro hf
                rw [hdist] at hf
                cases hf
          · rw [if_neg hdist] at h
            injection h with h
            subst h
            simp
        · rw [if_neg hs] at h
          injection h with h
          subst h
          simp

theorem afterTracer_frame (it : IterationRun) (sd : Int) (em1 : ExecutionManager)
    (sel : Key × Input) :
    (afterTracer it sd em1 sel).config = em1.config ∧
      (afterTracer it sd em1 sel).divergences = em1.divergences ∧
      (afterTracer it sd em1 sel).is_distributed = em1.is_distributed ∧
      (afterTracer it sd em1 sel).agents = em1.agents ∧
      (afterTracer it sd em1 sel).inputs
        = if sd ≠ 0 then refreshLast em1.inputs (iterationInput it em1 sel)
          else em1.inputs := by
  unfold afterTracer
  by_cases h : sd ≠ 0
  · simp [h, runTracer]
  · simp [h, runTracer]

theorem divergenceStage_frame (it : IterationRun) (st : RunState) (sd : Int)
    (em1 : ExecutionManager) (sel : Key × Input) (d : Int) (w4 : Wire)
    (em4 : ExecutionManager) (h : divergenceStage it st sd em1 sel = some (d, w4, em4)) :
    em4.config = em1.config ∧
      em4.inputs.Sublist (afterTracer it sd em1 sel).inputs ∧
      (d = 0 → w4 = st.wire ∧ em4.inputs = (afterTracer it sd em1 sel).inputs ∧
        em4.is_distributed = em1.is_distributed) ∧
      (em1.is_distributed = false → w4 = st.wire ∧ em4.is_distributed = false ∧
        em4.inputs = (afterTracer it sd em1 sel).inputs) ∧
      (sd ≠ 0 → d = 0 ∧ em4 = afterTracer it sd em1 sel) := by
  obtain ⟨a1, -, a3, -, -⟩ := afterTracer_frame it sd em1 sel
  unfold divergenceStage at h
  split at h
  · rename_i hc
    obtain ⟨c1, -, -, -⟩ := checkDivergence_frame _ _ _ _ _ _ _ h
    obtain ⟨i1, i2, i3⟩ := checkDivergence_inputs _ _ _ _ _ _ _ h
    dsimp only at c1 i1 i2 i3
    refine ⟨c1.trans a1, i1, ?_, ?_, ?_⟩
    · intro hd
      obtain ⟨x1, x2, x3⟩ := i2 hd
      exact ⟨x1, x2, x3.trans a3⟩
    · intro hf
      exact i3 (a3.trans hf)
    · intro hsd
      simp [hsd] at hc
  · injection h with h
    injection h with h1 h
    injection h with h2 h3
    subst h1 h2 h3
    refine ⟨a1, List.Sublist.refl _, fun _ => ⟨rfl, rfl, a3⟩, ?_, fun _ => ⟨rfl, rfl⟩⟩
    intro hf
    exact ⟨rfl, a3.trans hf, rfl⟩

theorem processQuery_inv (P : Key × Input → Prop)
    (forkInput : FileBuffer → List Char → Option FileBuffer)
    (job : Nat × QueryRun) (em : ExecutionManager) (fi : Input) (actual : List Bool)
    (d : Nat) (r : Int × ExecutionManager)
    (h : processQuery forkInput job.2 em fi actual d job.1 = some r)
    (hP : ∀ e ∈ em.inputs, P e)
    (hc : ∀ next score, childOf forkInput fi actual job = some next →
      P (Key.mk score (d + job.1 + 1), next)) :
    ∀ e ∈ r.2.inputs, P e := by
  obtain ⟨-, h2⟩ := processQuery_eq forkInput job em fi actual d r h
  rcases h2 with ⟨-, h2⟩ | ⟨next, hn, h2⟩
  · rw [h2]
    exact hP
  · obtain ⟨-, f2, -⟩ := checkAndScore_frame em next (!em.trace_kind) job.2.checker
    rw [h2]
    split
    · intro e he
      dsimp only at he
      rw [f2] at he
      have := (Frontier.insert_perm _ next em.inputs).mem_iff.mp he
      rcases List.mem_cons.mp this with h3 | h3
      · rw [h3]
        exact hc next _ hn
      · exact hP e h3
    · rw [f2]
      exact hP

theorem processJobs_inv (P : Key × Input → Prop)
    (forkInput : FileBuffer → List Char → Option FileBuffer)
    (fi : Input) (actual : List Bool) (d : Nat) :
    ∀ (jobs : List (Nat × QueryRun)) (em em1 : ExecutionManager),
      processJobs forkInput fi actual d jobs em = some em1 →
      (∀ e ∈ em.inputs, P e) →
      (∀ job next score, childOf forkInput fi actual job = some next →
        P (Key.mk score (d + job.1 + 1), next)) →
      ∀ e ∈ em1.inputs, P e := by
  intro jobs
  induction jobs with
  | nil =>
    intro em em1 h hP _
    simp only [processJobs, Option.some.injEq] at h
    subst h
    exact hP
  | cons job rest ih =>
    intro em em1 h hP hc
    unfold processJobs at h
    cases hq : processQuery forkInput job.2 em fi actual d job.1 with
    | none => simp [hq] at h
    | some r =>
      simp only [hq] at h
      exact ih r.2 em1 h
        (processQuery_inv P forkInput job em fi actual d r hq hP (hc job)) hc

theorem processTraces_inv (P : Key × Input → Prop)
    (forkInput : FileBuffer → List Char → Option FileBuffer)
    (t : TraceRun) (em : ExecutionManager) (fi : Input) (d : Nat)
    (r : Nat × ExecutionManager) (h : processTraces forkInput t em fi d = some r)
    (hP : ∀ e ∈ em.inputs, P e)
    (hc : ∀ actual job next score, childOf forkInput fi actual job = some next →
      P (Key.mk score (d + job.1 + 1), next)) :
    ∀ e ∈ r.2.inputs, P e := by
  unfold processTraces at h
  by_cases hpar : em.thread_num ≠ 0
  · rw [if_pos hpar] at h
    have hpp : ∀ (em0 : ExecutionManager) (r0 : Nat × ExecutionManager),
        processTraceParallel forkInput t em0 fi d = some r0 →
        (∀ e ∈ em0.inputs, P e) → ∀ e ∈ r0.2.inputs, P e := by
      intro em0 r0 h0 hP0
      unfold processTraceParallel at h0
      cases ha : readActual em0.config fi t with
      | none => simp [ha] at h0
      | some actual =>
        simp only [ha] at h0
        split at h0
        · cases h0
        · rename_i em1 hj
          injection h0 with h0
          subst h0
          exact processJobs_inv P forkInput fi actual d _ _ _ hj hP0 (hc actual)
    by_cases hdanger : em.config.getCheckDanger = true
    · simp only [hdanger, if_true] at h
      cases hd : processTraceParallel forkInput t { em with trace_kind := false } fi d with
      | none => simp [hd] at h
      | some r1 =>
        simp only [hd, Option.map_some'] at h
        exact hpp _ r h (hpp _ r1 hd hP)
    · simp only [hdanger, Bool.false_eq_true, if_false] at h
      exact hpp _ r h hP
  · rw [if_neg hpar] at h
    unfold processTraceSequental at h
    cases ha : readActual em.config fi t with
    | none => simp [ha] at h
    | some actual =>
      simp only [ha] at h
      by_cases hdanger : em.config.getCheckDanger = true
      · simp only [hdanger, if_true] at h
        cases hd : processJobs forkInput fi actual d t.dangerTrace.enum
            { em with trace_kind := false } with
        | none => simp [hd] at h
        | some em1 =>
          simp only [hd] at h
          have h1 := processJobs_inv P forkInput fi actual d _ _ _ hd hP (hc actual)
          cases hj : processJobs forkInput fi actual d t.trace.enum
              { em1 with trace_kind := true } with
          | none => simp [hj] at h
          | some em2 =>
            simp only [hj, Option.some.injEq] at h
            subst h
            exact processJobs_inv P forkInput fi actual d _ _ _ hj h1 (hc actual)
      · simp only [hdanger, Bool.false_eq_true, if_false] at h
        cases hj : processJobs forkInput fi actual d t.trace.enum
            { em with trace_kind := true } with
        | none => simp [hj] at h
        | some em2 =>
          simp only [hj, Option.some.injEq] at h
          subst h
          exact processJobs_inv P forkInput fi actual d _ _ _ hj hP (hc actual)

theorem refreshLast_mem (f : Frontier) (fi : Input) (sel : Key × Input)
    (hl : f.last = some sel) :
    ∀ e ∈ refreshLast f fi, e ∈ f ∨ e = (sel.1, fi) := by
  intro e he
  unfold refreshLast at he
  unfold Frontier.last at hl
  rw [hl] at he
  simp only [List.mem_append, List.mem_singleton] at he
  rcases he with h1 | h1
  · exact Or.inl (List.mem_of_mem_dropLast h1)
  · exact Or.inr h1

theorem runIteration_inv (P : Key × Input → Prop)
    (forkInput : FileBuffer → List Char → Option FileBuffer)
    (it : IterationRun) (st : RunState) (res : Bool × RunState)
    (h : runIteration forkInput it st = some res)
    (hP : ∀ e ∈ st.em.inputs, P e)
    (hfi : ∀ sel, st.em.inputs.last = some sel →
      P (sel.1, tracedInput st.em sel.2 it.replaceData))
    (hc : ∀ sel actual job next score, st.em.inputs.last = some sel →
      childOf forkInput (tracedInput st.em sel.2 it.replaceData) actual job = some next →
      P (Key.mk score (sel.1.depth + job.1 + 1), next)) :
    ∀ e ∈ res.2.em.inputs, P e := by
  obtain ⟨sel, sd, em1, d, w4, em4, hl, hr, hdv, hres⟩ :=
    runIteration_cases forkInput it st res h
  obtain ⟨-, -, -, -, r5, r6⟩ := requestNonZeroInput_frame _ _ _ hr
  dsimp only at r5 r6
  have hfi1 : iterationInput it em1 sel = tracedInput st.em sel.2 it.replaceData := by
    unfold iterationInput
    exact tracedInput_congr (by simpa [runTracer] using r5) (by simpa [runTracer] using r6) _ _
  have h1 : ∀ e ∈ em1.inputs, P e := by
    rcases requestNonZeroInput_cases _ _ _ _ hr with ⟨-, -, c⟩ | ⟨-, c⟩ | ⟨-, c⟩
    · rw [c]
      exact hP
    · rw [c]
      intro e he
      exact hP e (List.mem_of_mem_dropLast he)
    · rw [c]
      intro e he
      exact hP e (List.mem_of_mem_dropLast he)
  have h3 : ∀ e ∈ (afterTracer it sd em1 sel).inputs, P e := by
    obtain ⟨-, -, -, -, a5⟩ := afterTracer_frame it sd em1 sel
    rw [a5]
    by_cases hsd : sd ≠ 0
    · rw [if_pos hsd]
      rcases requestNonZeroInput_cases _ _ _ _ hr with ⟨-, -, c⟩ | ⟨c, -⟩ | ⟨c, -⟩
      · intro e he
        have hl1 : em1.inputs.last = some sel := by
          rw [c]
          exact hl
        rcases refreshLast_mem em1.inputs _ sel hl1 e he with h5 | h5
        · exact h1 e h5
        · rw [h5, hfi1]
          exact hfi sel hl
      · exact absurd c hsd
      · exact absurd c hsd
    · rw [if_neg hsd]
      exact h1
  obtain ⟨-, s2, -, -, -⟩ := divergenceStage_frame it st sd em1 sel d w4 em4 hdv
  have h4 : ∀ e ∈ em4.inputs, P e := fun e he => h3 e (s2.subset he)
  rcases hres with ⟨-, hres⟩ | ⟨-, -, hres⟩ | ⟨-, -, n, em5, hp, hres⟩
  · rw [hres]
    exact h4
  · rw [hres]
    exact h4
  · have h5 : ∀ e ∈ em5.inputs, P e := by
      rw [hfi1] at hp
      exact processTraces_inv P forkInput it.traces em4 _ _ _ hp h4
        (fun actual job next score hn => hc sel actual job next score hl hn)
    rcases hres with ⟨-, hres⟩ | ⟨-, w7, em7, ht, hres⟩
    · rw [hres]
      exact h5
    · rw [hres]
      obtain ⟨k, hk⟩ := talkToServer_inputs _ _ _ _ _ ht
      intro e he
      dsimp only at he
      rw [hk] at he
      exact h5 e ((dropBeforeLast_sublist k _).subset he)

/-! ## Properties: key depth and start depth -/

theorem childOf_child {forkInput : FileBuffer → List Char → Option FileBuffer}
    {fi next : Input} {actual : List Bool} {job : Nat × QueryRun}
    (h : childOf forkInput fi actual job = some next) :
    ∃ model files prediction, forkFiles forkInput model fi.files = some files ∧
      stampPrediction actual fi.startdepth job.1 = some prediction ∧
      next = Input.mk files (fi.startdepth + job.1 + 1) (some fi) prediction
        (fi.startdepth + job.1) := by
  unfold childOf at h
  cases hs : STP_Executor.run (some []) job.2.stp with
  | none => simp [hs] at h
  | some out =>
    simp only [hs] at h
    cases hf : out.getFile with
    | none => simp [hf] at h
    | some model =>
      simp only [hf] at h
      cases hd : deriveNext forkInput fi model actual job.1 with
      | discarded => simp [hd] at h
      | undefined => simp [hd] at h
      | child nx =>
        simp only [hd, Option.some.injEq] at h
        subst h
        obtain ⟨files, prediction, h1, h2, h3⟩ := deriveNext_child hd
        exact ⟨model, files, prediction, h1, h2, h3⟩

theorem tracedInput_startdepth (em : ExecutionManager) (fi : Input) (rd : List (List Nat)) :
    (tracedInput em fi rd).startdepth = fi.startdepth := by
  unfold tracedInput
  split
  · rfl
  · rfl

theorem runIteration_config (forkInput : FileBuffer → List Char → Option FileBuffer)
    (it : IterationRun) (st : RunState) (res : Bool × RunState)
    (h : runIteration forkInput it st = some res) :
    res.2.em.config = st.em.config ∨
      res.2.em.config = { st.em.config with getAgent := false } := by
  obtain ⟨sel, sd, em1, d, w4, em4, -, hr, hdv, hres⟩ :=
    runIteration_cases forkInput it st res h
  have h1 : em1.config = st.em.config ∨
      em1.config = { st.em.config with getAgent := false } := by
    rcases requestNonZeroInput_cases _ _ _ _ hr with ⟨-, -, c⟩ | ⟨-, c⟩ | ⟨-, c⟩
    · rw [c]
      exact Or.inl rfl
    · rw [c]
      exact Or.inl rfl
    · rw [c]
      exact Or.inr rfl
  obtain ⟨s1, -⟩ := divergenceStage_frame it st sd em1 sel d w4 em4 hdv
  rw [← s1] at h1
  rcases hres with ⟨-, hres⟩ | ⟨-, -, hres⟩ | ⟨-, -, n, em5, hp, hres⟩
  · rw [hres]
    exact h1
  · rw [hres]
    exact h1
  · obtain ⟨-, -, -, p2, -⟩ := processTraces_coverage forkInput it.traces em4 _ _ _ hp
    dsimp only at p2
    rcases hres with ⟨-, hres⟩ | ⟨-, w7, em7, ht, hres⟩
    · rw [hres]
      dsimp only [mergeDelta]
      rw [p2]
      exact h1
    · rw [hres]
      obtain ⟨t1, -⟩ := talkToServer_frame _ _ _ _ _ ht
      dsimp only
      rw [t1]
      dsimp only [mergeDelta]
      rw [p2]
      exact h1

theorem runIteration_depth (forkInput : FileBuffer → List Char → Option FileBuffer)
    (it : IterationRun) (st : RunState) (res : Bool × RunState) (S : Nat)
    (h : runIteration forkInput it st = some res)
    (hS : st.em.config.getStartdepth = S)
    (hinv : ∀ e ∈ st.em.inputs, e.2.startdepth = S + e.1.depth) :
    res.2.em.config.getStartdepth = S ∧
      ∀ e ∈ res.2.em.inputs, e.2.startdepth = S + e.1.depth := by
  refine ⟨?_, ?_⟩
  · rcases runIteration_config forkInput it st res h with c | c
    · rw [c]
      exact hS
    · rw [c]
      exact hS
  · refine runIteration_inv (fun e => e.2.startdepth = S + e.1.depth) forkInput it st res h
      hinv ?_ ?_
    · intro sel hl
      dsimp only
      rw [tracedInput_startdepth]
      exact hinv sel (List.mem_of_getLast?_eq_some hl)
    · intro sel actual job next score hl hn
      obtain ⟨model, files, prediction, -, -, h3⟩ := childOf_child hn
      have hsel := hinv sel (List.mem_of_getLast?_eq_some hl)
      rw [h3]
      show (tracedInput st.em sel.2 it.replaceData).startdepth + job.1 + 1
        = S + (sel.1.depth + job.1 + 1)
      rw [tracedInput_startdepth, hsel]
      omega

theorem runLoop_depth (forkInput : FileBuffer → List Char → Option FileBuffer) (S : Nat) :
    ∀ (its : List IterationRun) (st st1 : RunState),
      runLoop forkInput its st = some st1 →
      st.em.config.getStartdepth = S →
      (∀ e ∈ st.em.inputs, e.2.startdepth = S + e.1.depth) →
      st1.em.config.getStartdepth = S ∧
        ∀ e ∈ st1.em.inputs, e.2.startdepth = S + e.1.depth := by
  intro its
  induction its with
  | nil =>
    intro st st1 h hS hinv
    simp only [runLoop, Option.some.injEq] at h
    subst h
    exact ⟨hS, hinv⟩
  | cons it rest ih =>
    intro st st1 h hS hinv
    unfold runLoop at h
    by_cases he : st.em.inputs = []
    · rw [if_pos he] at h
      injection h with h
      subst h
      exact ⟨hS, hinv⟩
    · rw [if_neg he] at h
      cases hr : runIteration forkInput it st with
      | none => simp [hr] at h
      | some res =>
        obtain ⟨b, st2⟩ := res
        obtain ⟨g1, g2⟩ := runIteration_depth forkInput it st (b, st2) S hr hS hinv
        cases b with
        | true =>
          simp only [hr] at h
          exact ih st2 st1 h g1 g2
        | false =>
          simp only [hr, Option.some.injEq] at h
          subst h
          exact ⟨g1, g2⟩

theorem runStart_depth (em : ExecutionManager) (initial : Input) (r : CheckerRun)
    (hinv : ∀ e ∈ em.inputs, e.2.startdepth = em.config.getStartdepth + e.1.depth) :
    (runStart em initial r).config.getStartdepth = em.config.getStartdepth ∧
      ∀ e ∈ (runStart em initial r).inputs,
        e.2.startdepth = em.config.getStartdepth + e.1.depth := by
  obtain ⟨f1, f2, -⟩ := checkAndScore_frame em
    (Input.mk initial.files em.config.getStartdepth initial.parent initial.prediction
      initial.predictionSize) false r
  unfold runStart
  dsimp only [mergeDelta]
  refine ⟨by rw [f1], ?_⟩
  intro e he
  rw [f2] at he
  have := (Frontier.insert_perm _ _ em.inputs).mem_iff.mp he
  rcases List.mem_cons.mp this with h3 | h3
  · rw [h3]
    rfl
  · exact hinv e h3

/-- C24: every Frontier entry with key `(score, d)` holds an input whose
`startdepth` is `S + d`, `S` being the configured start depth: the root filed by
`run` under `(score, 0)` satisfies it, one iteration of the loop preserves it (the
insertions of `processQuery`, the erase of `requestNonZeroInput`, the refresh by
`updateInput` and the erases of `talkToServer`), and so it holds in every state
that the loop of `run` reaches from an empty Frontier. -/
theorem key_depth_invariant (forkInput : FileBuffer → List Char → Option FileBuffer) :
    (∀ (em : ExecutionManager) (initial : Input) (r : CheckerRun), em.inputs = [] →
      ∀ e ∈ (runStart em initial r).inputs,
        e.1.depth = 0 ∧ e.2.startdepth = em.config.getStartdepth + e.1.depth) ∧
    (∀ (it : IterationRun) (st : RunState) (res : Bool × RunState),
      runIteration forkInput it st = some res →
      (∀ e ∈ st.em.inputs, e.2.startdepth = st.em.config.getStartdepth + e.1.depth) →
      res.2.em.config.getStartdepth = st.em.config.getStartdepth ∧
      ∀ e ∈ res.2.em.inputs, e.2.startdepth = st.em.config.getStartdepth + e.1.depth) ∧
    (∀ (its : List IterationRun) (em : ExecutionManager) (initial : Input)
        (r : CheckerRun) (w : Wire) (st : RunState), em.inputs = [] →
      runLoop forkInput its ⟨runStart em initial r, w, 0⟩ = some st →
      ∀ e ∈ st.em.inputs, e.2.startdepth = em.config.getStartdepth + e.1.depth) := by
  refine ⟨?_, ?_, ?_⟩
  · intro em initial r hempty e he
    refine ⟨?_, (runStart_depth em initial r (by simp [hempty])).2 e he⟩
    obtain ⟨-, f2, -⟩ := checkAndScore_frame em
      (Input.mk initial.files em.config.getStartdepth initial.parent initial.prediction
        initial.predictionSize) false r
    unfold runStart at he
    dsimp only [mergeDelta] at he
    rw [f2, hempty] at he
    simp only [Frontier.insert, List.mem_singleton] at he
    rw [he]
  · intro it st res h hinv
    exact runIteration_depth forkInput it st res _ h rfl hinv
  · intro its em initial r w st hempty h
    obtain ⟨g1, g2⟩ := runStart_depth em initial r (by simp [hempty])
    exact (runLoop_depth forkInput em.config.getStartdepth its _ st h g1 g2).2

theorem key_depth_invariant_witness :
    (∀ e ∈ (runStart sampleManager sampleRoot (sampleChecker [4096])).inputs,
        e.1.depth = 0 ∧ e.2.startdepth = sampleManager.config.getStartdepth + e.1.depth) ∧
    (((runIteration sampleFork sampleIteration samplePooled).get
          (by decide)).2.em.config.getStartdepth = samplePooled.em.config.getStartdepth ∧
      ∀ e ∈ ((runIteration sampleFork sampleIteration samplePooled).get
          (by decide)).2.em.inputs,
        e.2.startdepth = samplePooled.em.config.getStartdepth + e.1.depth) ∧
    (∀ e ∈ ((runLoop sampleFork [sampleIteration]
          ⟨runStart { samplePooled.em with inputs := [] } sampleRoot (sampleChecker [4096]),
            samplePooled.wire, 0⟩).get (by decide)).em.inputs,
        e.2.startdepth
          = ({ samplePooled.em with inputs := [] } : ExecutionManager).config.getStartdepth
            + e.1.depth) :=
  ⟨(key_depth_invariant sampleFork).1 sampleManager sampleRoot (sampleChecker [4096]) rfl,
    (key_depth_invariant sampleFork).2.1 sampleIteration samplePooled _
      (Option.some_get _).symm (by decide),
    (key_depth_invariant sampleFork).2.2 [sampleIteration]
      { samplePooled.em with inputs := [] } sampleRoot (sampleChecker [4096])
      samplePooled.wire _ rfl (Option.some_get _).symm⟩

/-! ## Properties: the blobs of an input -/

theorem forkFiles_get (forkInput : FileBuffer → List Char → Option FileBuffer)
    (model : List Char) :
    ∀ (l files : List FileBuffer), forkFiles forkInput model l = some files →
      files.length = l.length ∧
        ∀ k : Nat, files[k]? = (l[k]?).bind (fun fb => forkInput fb model) := by
  intro l
  induction l with
  | nil =>
    intro files h
    simp only [forkFiles, Option.some.injEq] at h
    subst h
    simp
  | cons fb rest ih =>
    intro files h
    unfold forkFiles at h
    cases hf : forkInput fb model with
    | none => simp [hf] at h
    | some fb1 =>
      simp only [hf] at h
      cases hr : forkFiles forkInput model rest with
      | none => simp [hr] at h
      | some r =>
        simp only [hr, Option.map_some', Option.some.injEq] at h
        subst h
        obtain ⟨h1, h2⟩ := ih r hr
        refine ⟨by simp [h1], ?_⟩
        intro k
        cases k with
        | zero => simp [hf]
        | succ k => simpa using h2 k

theorem updateFiles_length :
    ∀ (chunks : List (List Nat)) (i : Nat) (files : List FileBuffer), i ≤ files.length →
      (updateFiles chunks i files).length = max files.length (i + chunks.length) := by
  intro chunks
  induction chunks with
  | nil =>
    intro i files h
    simp only [updateFiles, List.length_nil]
    omega
  | cons chunk rest ih =>
    intro i files h
    unfold updateFiles
    cases hg : files[i]? with
    | none =>
      have hlen : files.length ≤ i := List.getElem?_eq_none_iff.mp hg
      simp only
      rw [ih (i + 1) (files ++ [FileBuffer.mk "" chunk]) (by simp; omega)]
      simp only [List.length_append, List.length_singleton, List.length_cons, List.length_nil]
      omega
    | some fb =>
      have hlen : i < files.length := by
        by_contra hc
        have := List.getElem?_eq_none_iff.mpr (Nat.le_of_not_lt hc)
        rw [this] at hg
        cases hg
      simp only
      split
      · rw [ih (i + 1) _ (by simp; omega)]
        simp only [List.length_set, List.length_cons]
        omega
      · rw [ih (i + 1) _ (by simp; omega)]
        simp only [List.length_set, List.length_cons]
        omega

/-- C20 (as stated) fails in the network modes: `updateInput` appends a blob for
every chunk of `replace_data` beyond the blobs the input has, so an input with one
blob has two after a tracer run that saw two chunks. -/
theorem blob_count_counterexample :
    sampleRoot.files.length = 1 ∧
      (updateInput sampleRoot [[1], [2]]).files.length = 2 ∧
      (tracedInput
        { sampleManager with config := { sampleConfig with usingSockets := true } }
        sampleRoot [[1], [2]]).files.length = 2 := by
  decide

/-- C20 (amended): each child built by `processQuery` has as many blobs as its
parent, the `k`-th being `forkInput` of the parent's `k`-th blob; `updateInput`
never removes a blob but appends one for every chunk of `replace_data` beyond the
blobs present, leaving `max(files.size(), socketsNum)` blobs; for a file target
`run` does not call `updateInput`, and one iteration of its loop keeps the
property that every input of the Frontier has `n` blobs. -/
theorem blob_count (forkInput : FileBuffer → List Char → Option FileBuffer) :
    (∀ (fi next : Input) (actual : List Bool) (job : Nat × QueryRun),
      childOf forkInput fi actual job = some next →
      next.files.length = fi.files.length ∧
      ∃ model, ∀ k : Nat, next.files[k]? = (fi.files[k]?).bind (fun fb => forkInput fb model)) ∧
    (∀ (input : Input) (replaceData : List (List Nat)),
      (updateInput input replaceData).files.length
        = max input.files.length replaceData.length) ∧
    (∀ (em : ExecutionManager) (fi : Input) (replaceData : List (List Nat)),
      em.config.usingSockets = false → em.config.usingDatagrams = false →
      tracedInput em fi replaceData = fi) ∧
    (∀ (it : IterationRun) (st : RunState) (res : Bool × RunState) (n : Nat),
      st.em.config.usingSockets = false → st.em.config.usingDatagrams = false →
      runIteration forkInput it st = some res →
      (∀ e ∈ st.em.inputs, e.2.files.length = n) →
      ∀ e ∈ res.2.em.inputs, e.2.files.length = n) := by
  have htr : ∀ (em : ExecutionManager) (fi : Input) (replaceData : List (List Nat)),
      em.config.usingSockets = false → em.config.usingDatagrams = false →
      tracedInput em fi replaceData = fi := by
    intro em fi rd h1 h2
    unfold tracedInput
    rw [h1, h2]
    rfl
  refine ⟨?_, ?_, htr, ?_⟩
  · intro fi next actual job h
    obtain ⟨model, files, prediction, h1, -, h3⟩ := childOf_child h
    obtain ⟨g1, g2⟩ := forkFiles_get forkInput model fi.files files h1
    rw [h3]
    exact ⟨g1, model, g2⟩
  · intro input rd
    unfold updateInput
    show (updateFiles rd 0 input.files).length = _
    rw [updateFiles_length rd 0 input.files (Nat.zero_le _)]
    omega
  · intro it st res n hs hd h hinv
    refine runIteration_inv (fun e => e.2.files.length = n) forkInput it st res h hinv ?_ ?_
    · intro sel hl
      dsimp only
      rw [htr st.em sel.2 it.replaceData hs hd]
      exact hinv sel (List.mem_of_getLast?_eq_some hl)
    · intro sel actual job next score hl hn
      obtain ⟨model, files, prediction, h1, -, h3⟩ := childOf_child hn
      obtain ⟨g1, -⟩ := forkFiles_get forkInput model _ files h1
      rw [htr st.em sel.2 it.replaceData hs hd] at g1
      rw [h3]
      exact g1.trans (hinv sel (List.mem_of_getLast?_eq_some hl))

theorem blob_count_witness :
    (((childOf sampleFork sampleRoot [true] (0, ⟨sampleStp, sampleChecker []⟩)).get
          (by decide)).files.length = sampleRoot.files.length ∧
      ∃ model, ∀ k : Nat,
        ((childOf sampleFork sampleRoot [true] (0, ⟨sampleStp, sampleChecker []⟩)).get
          (by decide)).files[k]?
          = (sampleRoot.files[k]?).bind (fun fb => sampleFork fb model)) ∧
    tracedInput sampleManager sampleRoot [[1], [2]] = sampleRoot ∧
    (∀ e ∈ ((runIteration sampleFork sampleIteration samplePooled).get
        (by decide)).2.em.inputs, e.2.files.length = 1) :=
  ⟨(blob_count sampleFork).1 sampleRoot _ [true] (0, ⟨sampleStp, sampleChecker []⟩)
      (Option.some_get _).symm,
    (blob_count sampleFork).2.2.1 sampleManager sampleRoot [[1], [2]] rfl rfl,
    (blob_count sampleFork).2.2.2 sampleIteration samplePooled _ 1 rfl rfl
      (Option.some_get _).symm (by decide)⟩

/-! ## Properties: tracer options -/

theorem startdepth_mem (config : OptionConfig) (fi : Input) (runs : Nat) (sd k : Int) :
    PluginOpt.startdepth k ∈ tracerOptions config fi runs sd ↔
      sd = 0 ∧ k = fi.startdepth := by
  unfold tracerOptions getTracegrindOptions
  by_cases hsd : sd = 0 <;> by_cases hr : runs > 0 <;>
    simp [hsd, hr] <;> split_ifs <;> simp

/-- C16 fails in the branch of `run` that handles a fresh start depth: the string
`--startdepth=K` is built in `tg_depth` but never pushed, so the option vector of
the tracer holds a `--startdepth=` entry exactly when `requestNonZeroInput`
returned 0, and then `--startdepth=<fi.startdepth>`. For an agent whose best input
has score 0 and whose `startdepth.log` holds 7, `requestNonZeroInput` returns 7 and
the tracer is started with `--invertdepth=1 --dump-prediction=yes
--check-danger=no --file=in`, without any start depth. -/
theorem startdepth_option_missing :
    (∀ (config : OptionConfig) (fi : Input) (runs : Nat) (sd k : Int),
      PluginOpt.startdepth k ∈ tracerOptions config fi runs sd ↔
        sd = 0 ∧ k = fi.startdepth) ∧
    (requestNonZeroInput sampleAgent.em sampleFresh.startdepthLog).map Prod.fst = some 7 ∧
    iterationOptions sampleFresh sampleAgent
      = some [PluginOpt.invertdepth 1, PluginOpt.dumpPrediction, PluginOpt.checkDanger false,
          PluginOpt.file "in"] ∧
    (iterationOptions sampleFresh sampleAgent).map (fun l => l.map PluginOpt.render)
      = some ["--invertdepth=1", "--dump-prediction=yes", "--check-danger=no", "--file=in"] ∧
    (iterationOptions { sampleFresh with startdepthLog := 0 } sampleAgent).map
        (fun l => l.map PluginOpt.render)
      = some ["--startdepth=1", "--check-prediction=yes", "--invertdepth=1",
          "--dump-prediction=yes", "--check-danger=no", "--file=in"] := by
  refine ⟨startdepth_mem, by decide, by decide, by decide, by decide⟩

/-! ## Properties: the chosen input and the divergence check in `run` -/

theorem requestNonZeroInput_delta (em : ExecutionManager) (sdl : Int) :
    (requestNonZeroInput { em with delta_basicBlocksCovered := ∅ } sdl).map Prod.fst
      = (requestNonZeroInput em sdl).map Prod.fst := by
  unfold requestNonZeroInput
  dsimp only
  cases em.inputs.last with
  | none => rfl
  | some sel =>
    dsimp only
    split_ifs <;> rfl

/-- C15 (as stated) fails: `requestNonZeroInput` erases the chosen entry before the
tracer runs. On a Frontier that holds the root only, the state on which the trace
is processed has an empty Frontier, and the Frontier after the iteration holds the
two children (start depths 3 and 2) without the root (start depth 1). -/
theorem chosen_input_counterexample :
    samplePooled.em.inputs = [(⟨3, 0⟩, sampleRoot)] ∧
      (requestNonZeroInput samplePooled.em sampleIteration.startdepthLog).map
          (fun r => (r.1, r.2.inputs)) = some (0, []) ∧
      (divergenceStage sampleIteration samplePooled 0
          { samplePooled.em with inputs := [] } (⟨3, 0⟩, sampleRoot)).map
          (fun r => (r.1, r.2.2.inputs)) = some (0, []) ∧
      (runIteration sampleFork sampleIteration samplePooled).map
          (fun r => r.2.em.inputs.map (fun e => (e.1.score, e.1.depth, e.2.startdepth)))
        = some [(1, 2, 3), (2, 1, 2)] := by
  decide

/-- C15 (amended): in every iteration of `run` that gets to the trace processing,
the Frontier on which `processTraceSequental` / `processTraceParallel` work is the
Frontier of the start of the iteration without its last entry, the chosen one,
when `requestNonZeroInput` returned 0: the chosen input is erased before the
tracer runs. Only when a fresh start depth was returned is the chosen entry still
in the Frontier, as its last entry under the same key, during the trace
processing. -/
theorem chosen_input_erased (forkInput : FileBuffer → List Char → Option FileBuffer)
    (it : IterationRun) (st : RunState) (res : Bool × RunState)
    (h : runIteration forkInput it st = some res) :
    ∃ sel sd em1 d w4 em4,
      st.em.inputs.last = some sel ∧
      requestNonZeroInput { st.em with delta_basicBlocksCovered := ∅ } it.startdepthLog
        = some (sd, em1) ∧
      divergenceStage it st sd em1 sel = some (d, w4, em4) ∧
      (d = 0 → em4.config.getDumpCalls = false →
        ∃ r, processTraces forkInput it.traces em4 (iterationInput it em1 sel) sel.1.depth
          = some r) ∧
      (sd = 0 → d = 0 → em4.inputs = st.em.inputs.eraseLast ∧
        em4.inputs.length + 1 = st.em.inputs.length) ∧
      (sd ≠ 0 → em4.inputs
        = st.em.inputs.eraseLast ++ [(sel.1, iterationInput it em1 sel)]) := by
  obtain ⟨sel, sd, em1, d, w4, em4, hl, hr, hdv, hres⟩ :=
    runIteration_cases forkInput it st res h
  refine ⟨sel, sd, em1, d, w4, em4, hl, hr, hdv, ?_, ?_, ?_⟩
  · intro hd hdump
    rcases hres with ⟨c, -⟩ | ⟨-, c, -⟩ | ⟨-, -, n, em5, hp, -⟩
    · exact absurd hd c
    · rw [hdump] at c
      cases c
    · exact ⟨_, hp⟩
  · intro hsd hd
    obtain ⟨-, -, s3, -, -⟩ := divergenceStage_frame it st sd em1 sel d w4 em4 hdv
    obtain ⟨-, s32, -⟩ := s3 hd
    obtain ⟨-, -, -, -, a5⟩ := afterTracer_frame it sd em1 sel
    have hin : em1.inputs = st.em.inputs.eraseLast := by
      rcases requestNonZeroInput_cases _ _ _ _ hr with ⟨c, -, -⟩ | ⟨-, c⟩ | ⟨-, c⟩
      · exact absurd hsd c
      · rw [c]
      · rw [c]
    rw [s32, a5, if_neg (not_not.mpr hsd), hin]
    refine ⟨rfl, ?_⟩
    have hne : st.em.inputs ≠ [] := by
      intro he
      rw [he] at hl
      cases hl
    unfold Frontier.eraseLast
    rw [List.length_dropLast]
    have := List.length_pos.mpr hne
    omega
  · intro hsd
    obtain ⟨-, -, -, -, s5⟩ := divergenceStage_frame it st sd em1 sel d w4 em4 hdv
    obtain ⟨-, s52⟩ := s5 hsd
    obtain ⟨-, -, -, -, a5⟩ := afterTracer_frame it sd em1 sel
    have hin : em1.inputs = st.em.inputs := by
      rcases requestNonZeroInput_cases _ _ _ _ hr with ⟨-, -, c⟩ | ⟨c, -⟩ | ⟨c, -⟩
      · rw [c]
      · exact absurd c hsd
      · exact absurd c hsd
    rw [s52, a5, if_pos hsd, hin]
    unfold refreshLast Frontier.eraseLast
    unfold Frontier.last at hl
    rw [hl]

theorem chosen_input_erased_witness :
    ∃ sel sd em1 d w4 em4,
      samplePooled.em.inputs.last = some sel ∧
      requestNonZeroInput { samplePooled.em with delta_basicBlocksCovered := ∅ }
        sampleIteration.startdepthLog = some (sd, em1) ∧
      divergenceStage sampleIteration samplePooled sd em1 sel = some (d, w4, em4) ∧
      (d = 0 → em4.config.getDumpCalls = false →
        ∃ r, processTraces sampleFork sampleIteration.traces em4
          (iterationInput sampleIteration em1 sel) sel.1.depth = some r) ∧
      (sd = 0 → d = 0 → em4.inputs = samplePooled.em.inputs.eraseLast ∧
        em4.inputs.length + 1 = samplePooled.em.inputs.length) ∧
      (sd ≠ 0 → em4.inputs
        = samplePooled.em.inputs.eraseLast ++ [(sel.1, iterationInput sampleIteration em1 sel)]) :=
  chosen_input_erased sampleFork sampleIteration samplePooled
    ((runIteration sampleFork sampleIteration samplePooled).get (by decide))
    (Option.some_get _).symm

/-- C21 (as stated) fails: the blobs dumped are those of the parent of `fi`. For
the sample child (bytes `\0ello`) of the root `hello`, file `divergence_0_0`
receives the blob `hello` of the root. -/
theorem divergence_dump_counterexample :
    sampleChild.files = [⟨"in", [0, 101, 108, 108, 111]⟩] ∧
      sampleChild.parent = some sampleRoot ∧
      divergenceDumps "" sampleManager sampleChild (some (true, 3))
        = some [Dump.dumpFile "divergence_0_0" ⟨"in", [104, 101, 108, 108, 111]⟩] := by
  decide

/-- C21 (amended): when `checkDivergence` finds a divergence flagged for `fi` in
file mode, then for every blob index `i` below the number of blobs of the parent
of `fi` the `i`-th dump is `dumpFile` on the `i`-th blob of that parent under the
name `<prefix>divergence_<n>_<i>`, `n` being the divergences counter before the
increment, and there are no other dumps; an input without a parent makes the
dump dereference a null pointer. -/
theorem divergence_dump (pre : String) (em : ExecutionManager) (fi : Input) (d : Int) :
    (∀ parent, em.config.usingSockets = false → em.config.usingDatagrams = false →
      fi.parent = some parent →
      ∃ dumps, divergenceDumps pre em fi (some (true, d)) = some dumps ∧
        dumps.length = parent.files.length ∧
        ∀ (i : Nat) (fb : FileBuffer), parent.files[i]? = some fb →
          dumps[i]? = some (Dump.dumpFile
            (pre ++ "divergence_" ++ toString em.divergences ++ "_" ++ toString i) fb)) ∧
    (fi.parent = none → divergenceDumps pre em fi (some (true, d)) = none) := by
  refine ⟨?_, ?_⟩
  · intro parent hs hd hp
    unfold divergenceDumps
    simp only [if_true, hp, hs, hd, Bool.or_self, Bool.false_eq_true, if_false]
    refine ⟨_, rfl, by simp, ?_⟩
    intro i fb hfb
    rw [List.getElem?_map, List.getElem?_enum, hfb]
    rfl
  · intro hp
    unfold divergenceDumps
    simp only [if_true, hp]

theorem divergence_dump_witness :
    (∃ dumps, divergenceDumps "out/" sampleManager sampleChild (some (true, 3)) = some dumps ∧
        dumps.length = sampleRoot.files.length ∧
        ∀ (i : Nat) (fb : FileBuffer), sampleRoot.files[i]? = some fb →
          dumps[i]? = some (Dump.dumpFile
            ("out/" ++ "divergence_" ++ toString sampleManager.divergences ++ "_"
              ++ toString i) fb)) ∧
    divergenceDumps "out/" sampleManager sampleRoot (some (true, 3)) = none :=
  ⟨(divergence_dump "out/" sampleManager sampleChild 3).1 sampleRoot rfl rfl rfl,
    (divergence_dump "out/" sampleManager sampleRoot 3).2 rfl⟩

/-! ## Properties: memcheck findings -/

theorem dumpMCExploit_eq (em : ExecutionManager) (exec_log : List Char) :
    dumpMCExploit em exec_log
      = (decide ((counterAfter "ERROR SUMMARY: " exec_log).getD (-1) > 0) ||
        ((em.config.checkForLeaks &&
            ((counterAfter "definitely lost: " exec_log).getD (-1) != -1 ||
              (counterAfter "possibly lost: " exec_log).getD (-1) != -1)) &&
          !em.killed)) := by
  unfold dumpMCExploit counterAfter
  have e1 : "ERROR SUMMARY: ".length = 15 := by decide
  have e2 : "definitely lost: ".length = 17 := by decide
  have e3 : "possibly lost: ".length = 15 := by decide
  rw [e1, e2, e3]
  cases strstr (cstring exec_log) "ERROR SUMMARY: ".toList <;>
    cases strstr (cstring exec_log) "definitely lost: ".toList <;>
    cases strstr (cstring exec_log) "possibly lost: ".toList <;>
    cases em.config.checkForLeaks <;> simp

/-- C23 (as stated) fails: with leak checking enabled and `killed` false, a log
that reports `ERROR SUMMARY: 0` and leak counters that are all 0 is a finding,
and `checkAndScore` counts it. -/
theorem memcheck_finding_counterexample :
    counterAfter "ERROR SUMMARY: " sampleLeakLog = some 0 ∧
      counterAfter "definitely lost: " sampleLeakLog = some 0 ∧
      counterAfter "possibly lost: " sampleLeakLog = some 0 ∧
      dumpMCExploit
        { sampleManager with config := { sampleConfig with checkForLeaks := true } }
        sampleLeakLog = true := by
  decide

theorem counter_pos (o : Option Int) :
    o.getD (-1) > 0 ↔ ∃ K, o = some K ∧ K > 0 := by
  cases o <;> simp

theorem counter_present (o : Option Int) :
    ¬ o.getD (-1) = -1 ↔ ∃ c, o = some c ∧ c ≠ -1 := by
  cases o <;> simp

/-- C23 (amended): `dumpMCExploit` returns true exactly when the number `K` read
after the first `ERROR SUMMARY: ` is greater than 0, or leak checking is enabled,
`killed` is false, and the log holds a `definitely lost: ` or `possibly lost: `
counter, whatever its value (0 included; only the value -1 counts as absent).
With leak checking disabled the result is true iff `K > 0`. When the checker has
not crashed and memcheck is in use, `checkAndScore` increments `memchecks` by
exactly 1 if `dumpMCExploit` returns true and leaves it unchanged otherwise. -/
theorem memcheck_finding (em : ExecutionManager) (exec_log : List Char) :
    (dumpMCExploit em exec_log = true ↔
      (∃ K, counterAfter "ERROR SUMMARY: " exec_log = some K ∧ K > 0) ∨
      (em.config.checkForLeaks = true ∧ em.killed = false ∧
        ∃ c, (counterAfter "definitely lost: " exec_log = some c ∨
            counterAfter "possibly lost: " exec_log = some c) ∧ c ≠ -1)) ∧
    (em.config.checkForLeaks = false →
      (dumpMCExploit em exec_log = true ↔
        ∃ K, counterAfter "ERROR SUMMARY: " exec_log = some K ∧ K > 0)) ∧
    (∀ (input : Input) (r : CheckerRun),
      hasCrashed em.thread_num (runChecker em r).killed r = false →
      em.config.usingMemcheck = true →
      (checkAndScore em input false r).2.memchecks
        = em.memchecks + (if dumpMCExploit (runChecker em r) r.execLog then 1 else 0)) := by
  have hmain : dumpMCExploit em exec_log = true ↔
      (∃ K, counterAfter "ERROR SUMMARY: " exec_log = some K ∧ K > 0) ∨
      (em.config.checkForLeaks = true ∧ em.killed = false ∧
        ∃ c, (counterAfter "definitely lost: " exec_log = some c ∨
            counterAfter "possibly lost: " exec_log = some c) ∧ c ≠ -1) := by
    rw [dumpMCExploit_eq]
    simp only [Bool.or_eq_true, Bool.and_eq_true, decide_eq_true_eq, bne_iff_ne,
      Bool.not_eq_true', ne_eq]
    constructor
    · rintro (h | ⟨⟨hl, hbc⟩, hk⟩)
      · exact Or.inl ((counter_pos _).mp h)
      · refine Or.inr ⟨hl, hk, ?_⟩
        rcases hbc with h | h
        · obtain ⟨c, hc1, hc2⟩ := (counter_present _).mp h
          exact ⟨c, Or.inl hc1, hc2⟩
        · obtain ⟨c, hc1, hc2⟩ := (counter_present _).mp h
          exact ⟨c, Or.inr hc1, hc2⟩
    · rintro (h | ⟨hl, hk, c, hc | hc, hne⟩)
      · exact Or.inl ((counter_pos _).mpr h)
      · exact Or.inr ⟨⟨hl, Or.inl ((counter_present _).mpr ⟨c, hc, hne⟩)⟩, hk⟩
      · exact Or.inr ⟨⟨hl, Or.inr ((counter_present _).mpr ⟨c, hc, hne⟩)⟩, hk⟩
  refine ⟨hmain, ?_, ?_⟩
  · intro hleaks
    rw [hmain, hleaks]
    simp
  · intro input r hcrash hmc
    unfold checkAndScore
    simp only [Bool.not_false, if_true]
    obtain ⟨-, -, -, -, c5, -⟩ :=
      calculateScore_frame r.basicBlocks (triage (runChecker em r) input false r)
    rw [c5]
    unfold triage
    have htn : (runChecker em r).thread_num = em.thread_num := rfl
    have hcf : (runChecker em r).config = em.config := rfl
    have hm : (runChecker em r).memchecks = em.memchecks := rfl
    rw [htn, hcrash, hcf, hmc]
    simp only [Bool.false_eq_true, if_false, Bool.not_false, Bool.and_self, if_true]
    split
    · simp [hm]
    · simp [hm]

theorem memcheck_finding_witness :
    (dumpMCExploit sampleManager sampleLeakLog = true ↔
        ∃ K, counterAfter "ERROR SUMMARY: " sampleLeakLog = some K ∧ K > 0) ∧
    (checkAndScore
        { sampleManager with
          config := { sampleConfig with usingMemcheck := true, checkForLeaks := true } }
        sampleRoot false
        { sampleChecker [] with execLog := sampleLeakLog }).2.memchecks
      = ({ sampleManager with
          config := { sampleConfig with usingMemcheck := true, checkForLeaks := true } }
          : ExecutionManager).memchecks
        + (if dumpMCExploit
            (runChecker
              { sampleManager with
                config := { sampleConfig with usingMemcheck := true, checkForLeaks := true } }
              { sampleChecker [] with execLog := sampleLeakLog })
            ({ sampleChecker [] with execLog := sampleLeakLog } : CheckerRun).execLog
          then 1 else 0) :=
  ⟨(memcheck_finding sampleManager sampleLeakLog).2.1 rfl,
    (memcheck_finding
      { sampleManager with
        config := { sampleConfig with usingMemcheck := true, checkForLeaks := true } }
      sampleLeakLog).2.2 sampleRoot { sampleChecker [] with execLog := sampleLeakLog }
      (by decide) rfl⟩

/-! ## Properties: index safety of the child derivation -/

/-- C25: for a parent start depth `s ≥ 1`, a configured depth `D ≥ 1` and a query
index `i < D`, the array `actual` is allocated with `s - 1 + D` cells, the highest
index that `processQuery` reads from it and writes in the prediction is
`s + i - 1`, below both `s - 1 + D` and the allocated prediction length `s + i`,
and the stamping of the prediction makes no access outside either array. The
condition `s + i ≥ 1` is needed: for `s = 0` and `i = 0` the flipped index wraps
around to `2^64 - 1` and the access is outside the arrays. -/
theorem index_safety (s D i : Nat) (hs : 1 ≤ s) (hD : 1 ≤ D) (hi : i < D) :
    flipIndex s i = s + i - 1 ∧ flipIndex s i < s - 1 + D ∧ flipIndex s i < s + i ∧
    (∀ (config : OptionConfig) (fi : Input) (t : TraceRun),
      config.getDepth = D → fi.startdepth = s →
      actual_length config fi t = ((s - 1 + D : Nat) : Int)) ∧
    (∀ actual : List Bool, actual.length = s - 1 + D →
      ∃ p, stampPrediction actual s i = some p ∧ p.length = s + i) ∧
    (∀ actual : List Bool, stampPrediction actual 0 0 = none) ∧
    flipIndex 0 0 = 2 ^ 64 - 1 := by
  have hf : flipIndex s i = s + i - 1 := flipIndex_of_pos (by omega)
  refine ⟨hf, by omega, by omega, ?_, ?_, ?_, rfl⟩
  · intro config fi t hc hfi
    unfold actual_length
    rw [hc, hfi, if_neg (by omega)]
    omega
  · intro actual hlen
    obtain ⟨p, hp⟩ := @stampPrediction_total actual s i (by omega) (by omega)
    exact ⟨p, hp, (stampPrediction_spec hp).2.2.1⟩
  · intro actual
    cases h : stampPrediction actual 0 0 with
    | none => rfl
    | some p =>
      have := (stampPrediction_spec h).1
      omega

theorem index_safety_witness :
    flipIndex 1 1 = 1 + 1 - 1 ∧ flipIndex 1 1 < 1 - 1 + 2 ∧ flipIndex 1 1 < 1 + 1 ∧
    (∀ (config : OptionConfig) (fi : Input) (t : TraceRun),
      config.getDepth = 2 → fi.startdepth = 1 →
      actual_length config fi t = ((1 - 1 + 2 : Nat) : Int)) ∧
    (∀ actual : List Bool, actual.length = 1 - 1 + 2 →
      ∃ p, stampPrediction actual 1 1 = some p ∧ p.length = 1 + 1) ∧
    (∀ actual : List Bool, stampPrediction actual 0 0 = none) ∧
    flipIndex 0 0 = 2 ^ 64 - 1 :=
  index_safety 1 2 1 (by decide) (by decide) (by decide)

/-! ## Properties: safety of the second-highest selection -/

theorem serveCommands_read_fails (config : OptionConfig) (L : Int) (more : List Bool)
    (w : Wire) (f : Frontier) (h : w.reads = [] ∨ ∃ rest, w.reads = none :: rest) :
    ∃ w1, serveCommands config L (true :: more) w f = Sending.thrown w1 f ∧
      w1.sent = w.sent := by
  unfold serveCommands readFromSocket
  rcases h with h | ⟨rest, h⟩
  · rw [h]
    exact ⟨_, rfl, rfl⟩
  · rw [h]
    exact ⟨_, rfl, rfl⟩

theorem runIteration_local (forkInput : FileBuffer → List Char → Option FileBuffer)
    (it : IterationRun) (st : RunState) (res : Bool × RunState)
    (hloc : st.em.is_distributed = false)
    (h : runIteration forkInput it st = some res) :
    res.2.wire = st.wire ∧ res.2.em.is_distributed = false := by
  obtain ⟨sel, sd, em1, d, w4, em4, -, hr, hdv, hres⟩ :=
    runIteration_cases forkInput it st res h
  have h1 : em1.is_distributed = false := by
    rcases requestNonZeroInput_cases _ _ _ _ hr with ⟨-, -, c⟩ | ⟨-, c⟩ | ⟨-, c⟩
    · rw [c]
      exact hloc
    · rw [c]
      exact hloc
    · rw [c]
      exact hloc
  obtain ⟨-, -, -, s4, -⟩ := divergenceStage_frame it st sd em1 sel d w4 em4 hdv
  obtain ⟨hw, h4, -⟩ := s4 h1
  rcases hres with ⟨-, hres⟩ | ⟨-, -, hres⟩ | ⟨-, -, n, em5, hp, hres⟩
  · rw [hres]
    exact ⟨hw, h4⟩
  · rw [hres]
    exact ⟨hw, h4⟩
  · obtain ⟨-, -, -, -, p3, -⟩ := processTraces_coverage forkInput it.traces em4 _ _ _ hp
    dsimp only at p3
    have h5 : (mergeDelta em5).is_distributed = false := by
      dsimp only [mergeDelta]
      rw [p3]
      exact h4
    rcases hres with ⟨-, hres⟩ | ⟨c, -⟩
    · rw [hres]
      exact ⟨hw, h5⟩
    · rw [h5] at c
      cases c

theorem runLoop_local (forkInput : FileBuffer → List Char → Option FileBuffer) :
    ∀ (its : List IterationRun) (st st1 : RunState), st.em.is_distributed = false →
      runLoop forkInput its st = some st1 →
      st1.wire = st.wire ∧ st1.em.is_distributed = false := by
  intro its
  induction its with
  | nil =>
    intro st st1 hloc h
    simp only [runLoop, Option.some.injEq] at h
    subst h
    exact ⟨rfl, hloc⟩
  | cons it rest ih =>
    intro st st1 hloc h
    unfold runLoop at h
    by_cases he : st.em.inputs = []
    · rw [if_pos he] at h
      injection h with h
      subst h
      exact ⟨rfl, hloc⟩
    · rw [if_neg he] at h
      cases hr : runIteration forkInput it st with
      | none => simp [hr] at h
      | some res =>
        obtain ⟨b, st2⟩ := res
        obtain ⟨g1, g2⟩ := runIteration_local forkInput it st (b, st2) hloc hr
        dsimp only at g1 g2
        cases b with
        | true =>
          simp only [hr] at h
          obtain ⟨k1, k2⟩ := ih st2 st1 g2 h
          exact ⟨k1.trans g1, k2⟩
        | false =>
          simp only [hr, Option.some.injEq] at h
          subst h
          exact ⟨g1, g2⟩

/-- C14 fails for the SIGINT handler. When a socket operation of `talkToServer`
throws, the call returns with `is_distributed = false` (a read that returns 0 or
-1 is such a case); from then on the loop of `run` leaves the socket untouched,
and the destructor writes nothing. But `sig_hndlr` tests the option
`getDistributed()`, not `is_distributed`: after the loss it still writes the byte
`q`. On the sample engine the coordinator closes the connection, `talkToServer`
falls back to local mode, and the handler then sends `q`. -/
theorem coordinator_loss :
    (∀ (polls : List Bool) (w w1 : Wire) (em : ExecutionManager) (inputs : Frontier),
      serveCommands em.config (limit em) polls w em.inputs = Sending.thrown w1 inputs →
      talkToServer polls w em
        = some (w1, { em with inputs := inputs, is_distributed := false })) ∧
    (∀ (more : List Bool) (w : Wire) (em : ExecutionManager),
      (w.reads = [] ∨ ∃ rest, w.reads = none :: rest) →
      ∃ w1, talkToServer (true :: more) w em = some (w1, { em with is_distributed := false }) ∧
        w1.sent = w.sent) ∧
    (∀ (forkInput : FileBuffer → List Char → Option FileBuffer) (its : List IterationRun)
        (st st1 : RunState), st.em.is_distributed = false →
      runLoop forkInput its st = some st1 →
      st1.wire = st.wire ∧ st1.em.is_distributed = false) ∧
    (∀ (w : Wire) (em : ExecutionManager), em.is_distributed = false →
      destructor w em = w) ∧
    (∀ (w : Wire) (em : ExecutionManager), em.is_distributed = false →
      w.writesLeft = none →
      (sig_hndlr true w em).sent = w.sent ++ [Packet.char 'q']) ∧
    ((talkToServer [true] { reads := [], writesLeft := none, sent := [] }
        (sampleMain 1 3)).map (fun r => (r.2.is_distributed, r.1.sent)) = some (false, []) ∧
      (sig_hndlr true { reads := [], writesLeft := none, sent := [] }
        { sampleMain 1 3 with is_distributed := false }).sent = [Packet.char 'q']) := by
  refine ⟨?_, ?_, runLoop_local, ?_, ?_, by decide, by decide⟩
  · intro polls w w1 em inputs h
    unfold talkToServer
    rw [h]
  · intro more w em h
    obtain ⟨w1, h1, h2⟩ := serveCommands_read_fails em.config (limit em) more w em.inputs h
    refine ⟨w1, ?_, h2⟩
    unfold talkToServer
    rw [h1]
  · intro w em h
    unfold destructor
    rw [h]
    rfl
  · intro w em h hw
    unfold sig_hndlr destructor
    rw [h]
    simp only [if_true, Bool.false_eq_true, if_false]
    unfold closeSocket writeQuit
    rw [writeToSocket_ok w _ hw]
    rfl

theorem coordinator_loss_witness :
    (∃ w1, talkToServer (true :: []) { reads := [], writesLeft := none, sent := [] }
        (sampleMain 1 3) = some (w1, { sampleMain 1 3 with is_distributed := false }) ∧
      w1.sent = ({ reads := [], writesLeft := none, sent := [] } : Wire).sent) ∧
    (((runLoop sampleFork [sampleIteration] samplePooled).get (by decide)).wire
        = samplePooled.wire ∧
      ((runLoop sampleFork [sampleIteration] samplePooled).get
        (by decide)).em.is_distributed = false) ∧
    destructor sampleLossy sampleManager = sampleLossy ∧
    (sig_hndlr true sampleLossy sampleManager).sent = sampleLossy.sent ++ [Packet.char 'q'] :=
  ⟨coordinator_loss.2.1 [] { reads := [], writesLeft := none, sent := [] } (sampleMain 1 3)
      (Or.inl rfl),
    coordinator_loss.2.2.1 sampleFork [sampleIteration] samplePooled _ rfl
      (Option.some_get _).symm,
    coordinator_loss.2.2.2.1 sampleLossy sampleManager rfl,
    coordinator_loss.2.2.2.2.1 sampleLossy sampleManager rfl rfl⟩

/-! ## Properties: splitting a trace into queries -/

theorem strstr_suffix (needle : List Char) :
    ∀ (s q : List Char), strstr s needle = some q →
      q.length ≤ s.length ∧ needle.isPrefixOf q = true := by
  intro s
  induction s with
  | nil =>
    intro q h
    unfold strstr at h
    split at h
    · rename_i hn
      injection h with h
      subst h
      subst hn
      exact ⟨le_refl _, rfl⟩
    · cases h
  | cons c rest ih =>
    intro q h
    unfold strstr at h
    split at h
    · rename_i hp
      injection h with h
      subst h
      exact ⟨le_refl _, hp⟩
    · obtain ⟨h1, h2⟩ := ih q h
      exact ⟨by simp only [List.length_cons]; omega, h2⟩

theorem countQueries_total :
    ∀ (fuel : Nat) (query : List Char) (depth : Nat), query.length < fuel →
      ∃ n, countQueries fuel query depth = some n := by
  intro fuel
  induction fuel with
  | zero =>
    intro query depth h
    omega
  | succ fuel ih =>
    intro query depth h
    unfold countQueries
    cases hs : strstr query "QUERY(FALSE);".toList with
    | none => exact ⟨depth, rfl⟩
    | some q =>
      obtain ⟨h1, h2⟩ := strstr_suffix _ query q hs
      simp only
      apply ih
      cases q with
      | nil => simp [List.isPrefixOf] at h2
      | cons c t =>
        simp only [List.tail_cons]
        simp only [List.length_cons] at h1
        omega

theorem sequentalIndices_stuck (buf : List Char)
    (h : strstr (cstring buf) "QUERY(FALSE)".toList ≠ none) :
    ∀ (fuel depth : Nat), sequentalIndices (fun b => b) fuel buf depth = none := by
  intro fuel
  induction fuel with
  | zero =>
    intro depth
    rfl
  | succ fuel ih =>
    intro depth
    unfold sequentalIndices
    cases hs : strstr (cstring buf) "QUERY(FALSE)".toList with
    | none => exact absurd hs h
    | some q =>
      simp only
      rw [ih]
      rfl

/-- C22 fails for a trace text in which `QUERY(FALSE)` occurs without the
semicolon: `processTraceParallel` counts the occurrences of `QUERY(FALSE);`,
while the loop of `processTraceSequental` runs as long as `QUERY(FALSE)` occurs.
On the sample text there is no occurrence of `QUERY(FALSE);`, so `N = 0` and the
parallel variant returns 0, but the sequential loop is entered and, whatever
`cutQueryAndDump` leaves in the buffer, hands index 0 to `processQuery`; when the
cut removes nothing (there is no query to remove) the loop never ends. The
counting loop of the parallel variant always ends. -/
theorem query_fan_out_mismatch :
    strstr (cstring sampleCutTrace) "QUERY(FALSE);".toList = none ∧
    parallelDepth sampleCutTrace = some 0 ∧
    strstr (cstring sampleCutTrace) "QUERY(FALSE)".toList = some "QUERY(FALSE)".toList ∧
    (∀ (cut : List Char → List Char) (fuel : Nat),
      sequentalIndices cut (fuel + 1) sampleCutTrace 0
        = (sequentalIndices cut fuel (cut sampleCutTrace) 1).map (fun l => 0 :: l)) ∧
    (∀ fuel : Nat, sequentalIndices (fun b => b) fuel sampleCutTrace 0 = none) ∧
    (∀ buf : List Char, ∃ n, parallelDepth buf = some n) := by
  have h3 : strstr (cstring sampleCutTrace) "QUERY(FALSE)".toList
      = some "QUERY(FALSE)".toList := by decide
  refine ⟨by decide, by decide, h3, ?_, ?_, ?_⟩
  · intro cut fuel
    show (match strstr (cstring sampleCutTrace) "QUERY(FALSE)".toList with
      | none => some []
      | some _ => (sequentalIndices cut fuel (cut sampleCutTrace) (0 + 1)).map
          (fun l => 0 :: l)) = _
    rw [h3]
  · intro fuel
    exact sequentalIndices_stuck sampleCutTrace (by rw [h3]; simp) fuel 0
  · intro buf
    exact countQueries_total _ _ 0 (Nat.lt_succ_self _)

/-! ## Properties: the best input stays -/

end Avalanche
